import Mathlib

/-!
# Chess rules engine (`game/board.go`, `game/types.go`): shallow embedding

The Go package `game` is embedded as pure Lean functions.

* `int` values are `Int`.  The generators add small constants to a square that has
  already been used as an index, so that arithmetic stays far inside the 64-bit range.
  `MakeMove` subtracts and adds coordinates of `src`, which it has used as an index, and
  of an arbitrary `dst`; the results are only compared with `2` (through `abs`) or used
  when that comparison held, and a wrapped 64-bit result agrees with the exact one in
  these comparisons.  `abs` is only ever compared with the constants `1..6` and `2`, which
  the one value it wraps on (the least `int`) does not reach either way.  The product
  `color * King` of `IsKingInCheck` takes an arbitrary `color` and is reduced modulo
  `2^64` (`wrapInt64`).
* `[8][8]int` is `Board`, a total table over `Fin 8 × Fin 8`.  Every index expression
  `board[a][b]` of the source is a `Board.get?` / `Board.set?`, which yields `none`
  exactly when Go raises its index-out-of-range runtime panic.  Functions that can reach
  such an index expression return `Option`; `none` is the panic.
* `*Game` and `*Position` arguments that may be `nil` are `Option`s.
* `map[Position]bool` is a total function `Position → Bool` (a missing key reads `false`).
* `for` loops with constant bounds are recursions over the list of their index values,
  `append` builds the result list in the order of the source.
-/

namespace game

/-! ## Constants and primitives (`board.go` 3-28, 230-246, 377-383) -/

def Empty : Int := 0
def Pawn : Int := 1
def Knight : Int := 2
def Bishop : Int := 3
def Rook : Int := 4
def Queen : Int := 5
def King : Int := 6

def White : Int := 1
def Black : Int := -1

/-- A square of the board: `X` is the file, `Y` the rank. -/
structure Position where
  X : Int
  Y : Int
deriving DecidableEq, Repr

def IsValidPosition (pos : Position) : Bool :=
  decide (pos.X ≥ 0) && decide (pos.X < 8) && decide (pos.Y ≥ 0) && decide (pos.Y < 8)

def abs (x : Int) : Int :=
  if x < 0 then -x else x

def sign (x : Int) : Int :=
  if x < 0 then -1 else if x > 0 then 1 else 0

def boolToInt (b : Bool) (trueVal falseVal : Int) : Int :=
  if b then trueVal else falseVal

/-! ## The board array -/

/-- The Go array `[8][8]int`; `cell y x` is `board[y][x]`. -/
structure Board where
  cell : Fin 8 → Fin 8 → Int

/-- The index expression `board[y][x]` read; `none` is the out-of-range panic. -/
def Board.get? (board : Board) (y x : Int) : Option Int :=
  if h : 0 ≤ y ∧ y < 8 ∧ 0 ≤ x ∧ x < 8 then
    some (board.cell ⟨y.toNat, by omega⟩ ⟨x.toNat, by omega⟩)
  else none

/-- The assignment `board[y][x] = v`; `none` is the out-of-range panic. -/
def Board.set? (board : Board) (y x : Int) (v : Int) : Option Board :=
  if h : 0 ≤ y ∧ y < 8 ∧ 0 ≤ x ∧ x < 8 then
    some ⟨fun r c => if r = ⟨y.toNat, by omega⟩ ∧ c = ⟨x.toNat, by omega⟩ then v
      else board.cell r c⟩
  else none

/-- A board given by its eight rows (missing entries are `Empty`). -/
def Board.ofRows (rows : List (List Int)) : Board :=
  ⟨fun r c => (rows.getD r.val []).getD c.val 0⟩

/-- The piece on a square, `Empty` off the board: a total reading used in statements. -/
def Board.at (board : Board) (p : Position) : Int :=
  match board.get? p.Y p.X with
  | some v => v
  | none => 0

/-! ## Game state (`types.go` 21-51) -/

inductive GameState where
  | Playing
  | WhiteWins
  | BlackWins
deriving DecidableEq, Repr

structure Selection where
  X : Int
  Y : Int
  Selected : Bool
deriving DecidableEq

structure MoveRecord where
  From : Position
  To : Position
  Piece : Int
deriving DecidableEq

structure Game where
  Board : Board
  SelectedPiece : Selection
  Turn : Bool
  ValidMoves : List Position
  State : GameState
  AnimationTick : Int
  HasMoved : Position → Bool
  LastMove : MoveRecord
  EnPassantTarget : Option Position

/-! ## Pseudo-move generation (`board.go` 54-228) -/

/-- The regular-capture loop of `getPawnMoves` (lines 73-81) over the given `dx` values. -/
def pawnCaptures (board : Board) (pos : Position) (color direction : Int) :
    List Int → Option (List Position)
  | [] => some []
  | dx :: rest =>
    let newPos : Position := ⟨pos.X + dx, pos.Y + direction⟩
    if IsValidPosition newPos then
      match board.get? newPos.Y newPos.X with
      | none => none
      | some target =>
        match pawnCaptures board pos color direction rest with
        | none => none
        | some more =>
          if target ≠ Empty ∧ sign target ≠ color then some (newPos :: more) else some more
    else pawnCaptures board pos color direction rest

/-- The forward-move block of `getPawnMoves` (lines 58-70). -/
def pawnForward (board : Board) (pos : Position) (color direction : Int) :
    Option (List Position) :=
  let newPos : Position := ⟨pos.X, pos.Y + direction⟩
  if IsValidPosition newPos then
    match board.get? newPos.Y newPos.X with
    | none => none
    | some target =>
      if target = Empty then
        if (color = White ∧ pos.Y = 6) ∨ (color = Black ∧ pos.Y = 1) then
          let newPos2 : Position := ⟨pos.X, pos.Y + 2 * direction⟩
          match board.get? newPos2.Y newPos2.X with
          | none => none
          | some target2 => if target2 = Empty then some [newPos, newPos2] else some [newPos]
        else some [newPos]
      else some []
  else some []

/-- The en passant block of `getPawnMoves` (lines 83-93). -/
def pawnEnPassant (pos : Position) (color direction : Int) (game : Option Game) :
    List Position :=
  match game with
  | none => []
  | some g =>
    match g.EnPassantTarget with
    | none => []
    | some target =>
      let expectedRank := boolToInt (decide (color = White)) 3 4
      if pos.Y = expectedRank then
        ([-1, 1] : List Int).filterMap fun dx =>
          if pos.X + dx = target.X ∧ pos.Y + direction = target.Y then some target else none
      else []

def getPawnMoves (board : Board) (pos : Position) (color : Int) (game : Option Game) :
    Option (List Position) :=
  let direction := -color
  match pawnForward board pos color direction with
  | none => none
  | some forward =>
    match pawnCaptures board pos color direction [-1, 1] with
    | none => none
    | some captures => some (forward ++ captures ++ pawnEnPassant pos color direction game)

/-- The loop shared verbatim by `getKnightMoves` (105-113) and `getKingMoves` (142-150):
one step per direction, kept when the target is on the board and empty or not `color`. -/
def stepMoves (board : Board) (pos : Position) (color : Int) :
    List (Int × Int) → Option (List Position)
  | [] => some []
  | d :: rest =>
    let newPos : Position := ⟨pos.X + d.1, pos.Y + d.2⟩
    if IsValidPosition newPos then
      match board.get? newPos.Y newPos.X with
      | none => none
      | some target =>
        match stepMoves board pos color rest with
        | none => none
        | some more =>
          if target = Empty ∨ sign target ≠ color then some (newPos :: more) else some more
    else stepMoves board pos color rest

def knightDirections : List (Int × Int) :=
  [(-2, -1), (-2, 1), (-1, -2), (-1, 2), (1, -2), (1, 2), (2, -1), (2, 1)]

def kingDirections : List (Int × Int) :=
  [(-1, -1), (-1, 0), (-1, 1), (0, -1), (0, 1), (1, -1), (1, 0), (1, 1)]

def getKnightMoves (board : Board) (pos : Position) (color : Int) : Option (List Position) :=
  stepMoves board pos color knightDirections

/-- The inner loop `for i := 1; i < 8; i++` of `getDiagonalMoves` / `getStraightMoves`
along one direction `d`, over the remaining values of `i`. -/
def castRay (board : Board) (pos : Position) (color : Int) (d : Int × Int) :
    List Int → Option (List Position)
  | [] => some []
  | i :: rest =>
    let newPos : Position := ⟨pos.X + i * d.1, pos.Y + i * d.2⟩
    if !IsValidPosition newPos then some []
    else
      match board.get? newPos.Y newPos.X with
      | none => none
      | some target =>
        if target = Empty then
          match castRay board pos color d rest with
          | none => none
          | some more => some (newPos :: more)
        else if sign target ≠ color then some [newPos]
        else some []

/-- The outer loop over the directions of a sliding piece. -/
def castRays (board : Board) (pos : Position) (color : Int) :
    List (Int × Int) → Option (List Position)
  | [] => some []
  | d :: rest =>
    match castRay board pos color d [1, 2, 3, 4, 5, 6, 7] with
    | none => none
    | some ray =>
      match castRays board pos color rest with
      | none => none
      | some more => some (ray ++ more)

def getDiagonalMoves (board : Board) (pos : Position) (color : Int) : Option (List Position) :=
  castRays board pos color [(-1, -1), (-1, 1), (1, -1), (1, 1)]

def getStraightMoves (board : Board) (pos : Position) (color : Int) : Option (List Position) :=
  castRays board pos color [(-1, 0), (1, 0), (0, -1), (0, 1)]

def getBishopMoves (board : Board) (pos : Position) (color : Int) : Option (List Position) :=
  getDiagonalMoves board pos color

def getRookMoves (board : Board) (pos : Position) (color : Int) : Option (List Position) :=
  getStraightMoves board pos color

def getQueenMoves (board : Board) (pos : Position) (color : Int) : Option (List Position) :=
  match getDiagonalMoves board pos color with
  | none => none
  | some moves =>
    match getStraightMoves board pos color with
    | none => none
    | some straight => some (moves ++ straight)

/-- The "normal king moves" part of `getKingMoves` (lines 133-150), which is all of
`getKingMoves` when `game == nil`. -/
def kingStepMoves (board : Board) (pos : Position) (color : Int) : Option (List Position) :=
  stepMoves board pos color kingDirections

/-- The body of `GetPieceMoves` (lines 32-51) with the `case King` callee as a parameter:
`getKingMoves` calls `IsKingInCheck`, which calls `GetPieceMoves(…, nil)` again, and this
parameter is what unties that cycle. -/
def pieceMovesWith (kingMoves : Board → Position → Int → Option (List Position))
    (board : Board) (pos : Position) (game : Option Game) : Option (List Position) :=
  match board.get? pos.Y pos.X with
  | none => none
  | some v =>
    let piece := abs v
    let color := sign v
    if piece = Pawn then getPawnMoves board pos color game
    else if piece = Knight then getKnightMoves board pos color
    else if piece = Bishop then getBishopMoves board pos color
    else if piece = Rook then getRookMoves board pos color
    else if piece = Queen then getQueenMoves board pos color
    else if piece = King then kingMoves board pos color
    else some []

/-- The call `GetPieceMoves(board, pos, nil)`: with a nil game `getKingMoves` is
`kingStepMoves`. -/
def GetPieceMovesNil (board : Board) (pos : Position) : Option (List Position) :=
  pieceMovesWith kingStepMoves board pos none

/-! ## Check detection (`board.go` 248-282, 361-375) -/

/-- The squares in the order the nested loops `for y … { for x … }` visit them. -/
def scanOrder : List Position :=
  ([0, 1, 2, 3, 4, 5, 6, 7] : List Int).flatMap fun y =>
    ([0, 1, 2, 3, 4, 5, 6, 7] : List Int).map fun x => ⟨x, y⟩

/-- The king search of `IsKingInCheck` (lines 251-265): the first square in scan order
holding `kingValue`, or the zero value `Position{0, 0}` of `kingPos` when none does. -/
def findKing (board : Board) (kingValue : Int) : List Position → Option Position
  | [] => some ⟨0, 0⟩
  | sq :: rest =>
    match board.get? sq.Y sq.X with
    | none => none
    | some v => if v = kingValue then some sq else findKing board kingValue rest

/-- The attack scan of `IsKingInCheck` (lines 268-281). -/
def attackScan (board : Board) (color : Int) (kingPos : Position) :
    List Position → Option Bool
  | [] => some false
  | sq :: rest =>
    match board.get? sq.Y sq.X with
    | none => none
    | some piece =>
      if piece ≠ 0 ∧ sign piece ≠ color then
        match GetPieceMovesNil board sq with
        | none => none
        | some moves =>
          if moves.any (fun move => decide (move.X = kingPos.X ∧ move.Y = kingPos.Y)) then
            some true
          else attackScan board color kingPos rest
      else attackScan board color kingPos rest

/-- 64-bit wrap-around of `int` arithmetic. -/
def wrapInt64 (x : Int) : Int :=
  (x + 2 ^ 63) % 2 ^ 64 - 2 ^ 63

def IsKingInCheck (board : Board) (color : Int) : Option Bool :=
  let kingValue := wrapInt64 (color * King)
  match findKing board kingValue scanOrder with
  | none => none
  | some kingPos => attackScan board color kingPos scanOrder

/-- The two assignments shared by `SimulateMove` (293-295) and `wouldBeInCheck` (370-372)
on the copy `tempBoard`. -/
def relocate (board : Board) (src dst : Position) : Option (Int × Board) :=
  match board.get? src.Y src.X with
  | none => none
  | some piece =>
    match board.set? src.Y src.X Empty with
    | none => none
    | some b1 =>
      match b1.set? dst.Y dst.X piece with
      | none => none
      | some b2 => some (piece, b2)

def SimulateMove (board : Board) (src dst : Position) : Option Bool :=
  match relocate board src dst with
  | none => none
  | some (piece, tempBoard) =>
    match IsKingInCheck tempBoard (sign piece) with
    | none => none
    | some c => some (!c)

def wouldBeInCheck (board : Board) (src dst : Position) (color : Int) : Option Bool :=
  match relocate board src dst with
  | none => none
  | some (_, tempBoard) => IsKingInCheck tempBoard color

/-! ## King moves with castling, and the public generator (`board.go` 30-52, 132-178) -/

/-- Go's short-circuit `&&` over conditions that may panic: the right operand is only
evaluated when the left one is `true`. -/
def andAlso (a b : Option Bool) : Option Bool :=
  match a with
  | none => none
  | some false => some false
  | some true => b

/-- The comparison `board[y][x] == Empty`. -/
def cellEmpty (board : Board) (y x : Int) : Option Bool :=
  match board.get? y x with
  | none => none
  | some v => some (decide (v = Empty))

/-- Negation of a condition that may panic. -/
def notB (a : Option Bool) : Option Bool :=
  match a with
  | none => none
  | some c => some (!c)

/-- The kingside condition of `getKingMoves` (lines 157-161). -/
def kingsideCond (board : Board) (pos : Position) (color : Int) (g : Game) : Option Bool :=
  let rookY := pos.Y
  let rookPos : Position := ⟨7, rookY⟩
  andAlso (some (!g.HasMoved pos)) <|
  andAlso (some (!g.HasMoved rookPos)) <|
  andAlso (cellEmpty board rookY 5) <|
  andAlso (cellEmpty board rookY 6) <|
  andAlso (notB (IsKingInCheck board color)) <|
  notB (wouldBeInCheck board pos ⟨pos.X + 1, pos.Y⟩ color)

/-- The queenside condition of `getKingMoves` (lines 167-172). -/
def queensideCond (board : Board) (pos : Position) (color : Int) (g : Game) : Option Bool :=
  let rookY := pos.Y
  let rookPos : Position := ⟨0, rookY⟩
  andAlso (some (!g.HasMoved pos)) <|
  andAlso (some (!g.HasMoved rookPos)) <|
  andAlso (cellEmpty board rookY 1) <|
  andAlso (cellEmpty board rookY 2) <|
  andAlso (cellEmpty board rookY 3) <|
  andAlso (notB (IsKingInCheck board color)) <|
  notB (wouldBeInCheck board pos ⟨pos.X - 1, pos.Y⟩ color)

def getKingMoves (board : Board) (pos : Position) (color : Int) (game : Option Game) :
    Option (List Position) :=
  match kingStepMoves board pos color with
  | none => none
  | some moves =>
    match game with
    | none => some moves
    | some g =>
      match kingsideCond board pos color g with
      | none => none
      | some ks =>
        let moves1 := if ks then moves ++ [⟨pos.X + 2, pos.Y⟩] else moves
        match queensideCond board pos color g with
        | none => none
        | some qs => some (if qs then moves1 ++ [⟨pos.X - 2, pos.Y⟩] else moves1)

def GetPieceMoves (board : Board) (pos : Position) (game : Option Game) :
    Option (List Position) :=
  pieceMovesWith (fun b p c => getKingMoves b p c game) board pos game

/-! ## Legality filter and checkmate (`board.go` 284-350) -/

/-- The filtering loop of `GetLegalMoves` / `GetLegalMovesWithState` (306-310, 320-324). -/
def filterLegal (board : Board) (pos : Position) : List Position → Option (List Position)
  | [] => some []
  | move :: rest =>
    match SimulateMove board pos move with
    | none => none
    | some ok =>
      match filterLegal board pos rest with
      | none => none
      | some more => some (if ok then move :: more else more)

def GetLegalMoves (board : Board) (pos : Position) : Option (List Position) :=
  match GetPieceMoves board pos none with
  | none => none
  | some moves => filterLegal board pos moves

def GetLegalMovesWithState (board : Board) (pos : Position) (game : Option Game) :
    Option (List Position) :=
  match GetPieceMoves board pos game with
  | none => none
  | some moves => filterLegal board pos moves

/-- The loop of `IsCheckmate` (lines 337-349): `false` at the first piece of `color` with
a legal move, `true` when the scan ends. -/
def mateScan (board : Board) (color : Int) : List Position → Option Bool
  | [] => some true
  | sq :: rest =>
    match board.get? sq.Y sq.X with
    | none => none
    | some piece =>
      if piece ≠ 0 ∧ sign piece = color then
        match GetLegalMoves board sq with
        | none => none
        | some moves => if moves.length > 0 then some false else mateScan board color rest
      else mateScan board color rest

def IsCheckmate (board : Board) (color : Int) : Option Bool :=
  match IsKingInCheck board color with
  | none => none
  | some inCheck => if !inCheck then some false else mateScan board color scanOrder

/-! ## Move application (`board.go` 385-427) -/

/-- How a call of the mutating method `MakeMove` ends: normally, or in a runtime panic;
either way `g` is the game as the call left it. -/
inductive Outcome where
  | ok (g : Game)
  | panic (g : Game)

/-- Sequencing of statements: a panic stops the method. -/
def Outcome.andThen (o : Outcome) (f : Game → Outcome) : Outcome :=
  match o with
  | .ok g => f g
  | .panic g => .panic g

/-- The assignment `g.Board[y][x] = v`. -/
def writeBoard (g : Game) (y x v : Int) : Outcome :=
  match g.Board.set? y x v with
  | none => .panic g
  | some b => .ok { g with Board := b }

/-- The assignment `g.Board[y][dst] = g.Board[y][src]`. -/
def copyCell (g : Game) (y dst src : Int) : Outcome :=
  match g.Board.get? y src with
  | none => .panic g
  | some v => writeBoard g y dst v

/-- The castling block of `MakeMove` (lines 392-402). -/
def castleRook (g : Game) (piece : Int) (src dst : Position) : Outcome :=
  if abs piece = King ∧ abs (dst.X - src.X) = 2 then
    if dst.X > src.X then
      (copyCell g src.Y 5 7).andThen fun g1 => writeBoard g1 src.Y 7 Empty
    else
      (copyCell g src.Y 3 0).andThen fun g1 => writeBoard g1 src.Y 0 Empty
  else .ok g

/-- The en passant capture block of `MakeMove` (lines 404-408). -/
def captureEnPassant (g : Game) (piece : Int) (src dst : Position) : Outcome :=
  match g.EnPassantTarget with
  | none => .ok g
  | some target =>
    if abs piece = Pawn ∧ dst.X = target.X ∧ dst.Y = target.Y then
      writeBoard g src.Y dst.X Empty
    else .ok g

/-- The en passant target update of `MakeMove` (lines 410-414). -/
def nextEnPassantTarget (piece : Int) (src dst : Position) : Option Position :=
  if abs piece = Pawn ∧ abs (dst.Y - src.Y) = 2 then
    some ⟨dst.X, (src.Y + dst.Y).tdiv 2⟩
  else none

def MakeMove (g : Game) (src dst : Position) : Outcome :=
  match g.Board.get? src.Y src.X with
  | none => .panic g
  | some piece =>
    let g0 : Game := { g with HasMoved := fun p => if p = src then true else g.HasMoved p }
    (castleRook g0 piece src dst).andThen fun g1 =>
    (captureEnPassant g1 piece src dst).andThen fun g2 =>
    let g3 : Game := { g2 with EnPassantTarget := nextEnPassantTarget piece src dst }
    (writeBoard g3 dst.Y dst.X piece).andThen fun g4 =>
    (writeBoard g4 src.Y src.X Empty).andThen fun g5 =>
    .ok { g5 with LastMove := ⟨src, dst, piece⟩, Turn := !g5.Turn }

/-- A sequence of `MakeMove` calls; the first panic ends the run. -/
def MakeMoves (g : Game) : List (Position × Position) → Outcome
  | [] => .ok g
  | (src, dst) :: rest => (MakeMove g src dst).andThen fun g1 => MakeMoves g1 rest

/-! ## The initial game (`types.go` 134-159) -/

def pieceOrder : List Int := [Rook, Knight, Bishop, Queen, King, Bishop, Knight, Rook]

/-- The board `initializeBoard` leaves in a zero-valued `Game`. -/
def initialBoard : Board :=
  ⟨fun r c =>
    if r = 0 then -(pieceOrder.getD c.val 0)
    else if r = 7 then pieceOrder.getD c.val 0
    else if r = 1 then -Pawn
    else if r = 6 then Pawn
    else 0⟩

def NewGame : Game :=
  { Board := initialBoard
    SelectedPiece := ⟨0, 0, false⟩
    Turn := true
    ValidMoves := []
    State := GameState.Playing
    AnimationTick := 0
    HasMoved := fun _ => false
    LastMove := ⟨⟨0, 0⟩, ⟨0, 0⟩, 0⟩
    EnPassantTarget := none }

/-! ## Definitions that follow the wording of the specification -/

/-- Spec wording of `isLegal` (§4.4): the copy of the board in which `src` is cleared and
`dst` holds the piece that stood on `src`. -/
def movedCopy (board : Board) (src dst : Position) : Board :=
  ⟨fun r c =>
    if dst.Y = ((r : Nat) : Int) ∧ dst.X = ((c : Nat) : Int) then board.at src
    else if src.Y = ((r : Nat) : Int) ∧ src.X = ((c : Nat) : Int) then Empty
    else board.cell r c⟩

/-- Spec wording of §8 ("each side has exactly 20 legal moves"): the sum of the lengths of
`legalMoves sq` over the squares, in scan order, whose piece satisfies `sel`; `none` when
one of the calls panics. -/
def totalLegalMoves (legalMoves : Position → Option (List Position)) (board : Board)
    (sel : Int → Bool) : List Position → Option Nat
  | [] => some 0
  | sq :: rest =>
    if sel (board.at sq) then
      match legalMoves sq, totalLegalMoves legalMoves board sel rest with
      | some moves, some n => some (moves.length + n)
      | _, _ => none
    else totalLegalMoves legalMoves board sel rest

/-- The four moves of the fool's mate fixture: f3, e5, g4, Qh4. -/
def foolsMate : List (Position × Position) :=
  [(⟨5, 6⟩, ⟨5, 5⟩), (⟨4, 1⟩, ⟨4, 3⟩), (⟨6, 6⟩, ⟨6, 4⟩), (⟨3, 0⟩, ⟨7, 4⟩)]

/-- The input loop of `main.go` (lines 38-69) for a list of click pairs: a piece of the
side to move is selected on `src`, `dst` is accepted only when it is among
`GetLegalMovesWithState`, and then `MakeMove` is called.  `none` when a pair is not
accepted or a call panics.  The checkmate test that follows `MakeMove` there only sets
`State` and is left out. -/
def playOffered (g : Game) : List (Position × Position) → Option Game
  | [] => some g
  | (src, dst) :: rest =>
    match g.Board.get? src.Y src.X, GetLegalMovesWithState g.Board src (some g) with
    | some piece, some moves =>
      if piece ≠ 0 ∧ decide (piece > 0) = g.Turn ∧ dst ∈ moves then
        match MakeMove g src dst with
        | .ok g1 => playOffered g1 rest
        | .panic _ => none
      else none
    | _, _ => none

/-- How many squares of the board hold the piece value `v`. -/
def countPiece (board : Board) (v : Int) : Nat :=
  (scanOrder.filter fun sq => decide (board.at sq = v)).length

/-- A legal opening: 1.e4 c6 2.e5 Qa5 3.Ke2 a6 4.Kf3 b6 5.Kg4 h6 6.Kh5 d5, after which
the black pawn on d5 and the white pawn on e5 stand between the black queen on a5 and the
white king on h5. -/
def enPassantPinLine : List (Position × Position) :=
  [(⟨4, 6⟩, ⟨4, 4⟩), (⟨2, 1⟩, ⟨2, 2⟩), (⟨4, 4⟩, ⟨4, 3⟩), (⟨3, 0⟩, ⟨0, 3⟩),
   (⟨4, 7⟩, ⟨4, 6⟩), (⟨0, 1⟩, ⟨0, 2⟩), (⟨4, 6⟩, ⟨5, 5⟩), (⟨1, 1⟩, ⟨1, 2⟩),
   (⟨5, 5⟩, ⟨6, 4⟩), (⟨7, 1⟩, ⟨7, 2⟩), (⟨6, 4⟩, ⟨7, 3⟩), (⟨3, 1⟩, ⟨3, 3⟩)]

/-- The game a `MakeMove` call leaves behind, however it ended. -/
def Outcome.game : Outcome → Game
  | .ok g => g
  | .panic g => g

/-- Whether the call returned normally. -/
def Outcome.completed : Outcome → Bool
  | .ok _ => true
  | .panic _ => false

/-- A small position with Black to move: kings on e1 and e8, a white pawn on e5 and a
black pawn on its home square d7. -/
def pawnPairGame : Game :=
  { NewGame with
    Board := Board.ofRows
      [[0, 0, 0, 0, -6, 0, 0, 0],
       [0, 0, 0, -1, 0, 0, 0, 0],
       [0, 0, 0, 0, 0, 0, 0, 0],
       [0, 0, 0, 0, 1, 0, 0, 0],
       [0, 0, 0, 0, 0, 0, 0, 0],
       [0, 0, 0, 0, 0, 0, 0, 0],
       [0, 0, 0, 0, 0, 0, 0, 0],
       [0, 0, 0, 0, 6, 0, 0, 0]]
    Turn := false }

/-- A small position with White to move: kings on e1 and e8, white rooks on a1 and h1. -/
def rookCornerGame : Game :=
  { NewGame with
    Board := Board.ofRows
      [[0, 0, 0, 0, -6, 0, 0, 0],
       [0, 0, 0, 0, 0, 0, 0, 0],
       [0, 0, 0, 0, 0, 0, 0, 0],
       [0, 0, 0, 0, 0, 0, 0, 0],
       [0, 0, 0, 0, 0, 0, 0, 0],
       [0, 0, 0, 0, 0, 0, 0, 0],
       [0, 0, 0, 0, 0, 0, 0, 0],
       [4, 0, 0, 0, 6, 0, 0, 4]] }

/-- A legal opening: 1.e3 d6 2.Bc4 Bg4 3.a3 Bxd1 4.Kxd1 a6 5.Nf3 a5 6.Ne1 h6, after which
the white king stands on d1 with a white knight on e1, f1 and g1 are empty and the rook on
h1 has never moved. -/
def strayKingLine : List (Position × Position) :=
  [(⟨4, 6⟩, ⟨4, 5⟩), (⟨3, 1⟩, ⟨3, 2⟩), (⟨5, 7⟩, ⟨2, 4⟩), (⟨2, 0⟩, ⟨6, 4⟩),
   (⟨0, 6⟩, ⟨0, 5⟩), (⟨6, 4⟩, ⟨3, 7⟩), (⟨4, 7⟩, ⟨3, 7⟩), (⟨0, 1⟩, ⟨0, 2⟩),
   (⟨6, 7⟩, ⟨5, 5⟩), (⟨0, 2⟩, ⟨0, 3⟩), (⟨5, 5⟩, ⟨4, 7⟩), (⟨7, 1⟩, ⟨7, 2⟩)]

/-- The board with `v` written on square `p`: the result of `Board.set?` for a square on
the board. -/
def Board.put (board : Board) (p : Position) (v : Int) : Board :=
  ⟨fun r c => if p.Y = ((r : Nat) : Int) ∧ p.X = ((c : Nat) : Int) then v
    else board.cell r c⟩

/-- The opening moves 1.d3 a6 2.e4: White's e-pawn has just advanced two ranks, so the en
passant target is e3 = `(4, 5)`, on the rank of the white pawn on d3 = `(3, 5)`. -/
def sidewaysTargetLine : List (Position × Position) :=
  [(⟨3, 6⟩, ⟨3, 5⟩), (⟨0, 1⟩, ⟨0, 2⟩), (⟨4, 6⟩, ⟨4, 4⟩)]

/-- A board without a white king: only the black king on e8 and a black rook on a5. -/
def kinglessBoard : Board :=
  Board.ofRows
    [[0, 0, 0, 0, -6, 0, 0, 0],
     [0, 0, 0, 0, 0, 0, 0, 0],
     [0, 0, 0, 0, 0, 0, 0, 0],
     [-4, 0, 0, 0, 0, 0, 0, 0]]

/-- The `i`-th square from `pos` in direction `d`: the `newPos` of the ray loops of
`getDiagonalMoves` and `getStraightMoves`. -/
def raySquare (pos : Position) (d : Int × Int) (i : Int) : Position :=
  ⟨pos.X + i * d.1, pos.Y + i * d.2⟩

/-- Spec wording of ray casting (§4.2): `s` is a square of the board that lies on the ray
from `pos` in one of the directions `dirs`, every square strictly between `pos` and `s` is
empty, and `s` is empty or holds a piece of the colour opposite to `c`. -/
def rayReachable (board : Board) (pos : Position) (c : Int) (dirs : List (Int × Int))
    (s : Position) : Prop :=
  IsValidPosition s = true ∧
  ∃ d ∈ dirs, ∃ i : Int, 1 ≤ i ∧ s = raySquare pos d i ∧
    (∀ j : Int, 1 ≤ j → j < i → board.at (raySquare pos d j) = Empty) ∧
    (board.at s = Empty ∨ sign (board.at s) = -c)

/-- A legal opening: 1.g4 b6 2.Nh3 Bb7 3.Bg2 Bxg2 4.a3 Bxh1 5.Kf1 a6 6.Kg1 a5 7.Kxh1 h6,
after which the white king stands on h1, where the rook was captured in place, and f1
and g1 are empty. -/
def cornerKingLine : List (Position × Position) :=
  [(⟨6, 6⟩, ⟨6, 4⟩), (⟨1, 1⟩, ⟨1, 2⟩), (⟨6, 7⟩, ⟨7, 5⟩), (⟨2, 0⟩, ⟨1, 1⟩),
   (⟨5, 7⟩, ⟨6, 6⟩), (⟨1, 1⟩, ⟨6, 6⟩), (⟨0, 6⟩, ⟨0, 5⟩), (⟨6, 6⟩, ⟨7, 7⟩),
   (⟨4, 7⟩, ⟨5, 7⟩), (⟨0, 1⟩, ⟨0, 2⟩), (⟨5, 7⟩, ⟨6, 7⟩), (⟨0, 2⟩, ⟨0, 3⟩),
   (⟨6, 7⟩, ⟨7, 7⟩), (⟨7, 1⟩, ⟨7, 2⟩)]

/-! ## Basic facts about squares and board access -/

theorem valid_iff (p : Position) :
    IsValidPosition p = true ↔ 0 ≤ p.X ∧ p.X < 8 ∧ 0 ≤ p.Y ∧ p.Y < 8 := by
  simp [IsValidPosition, and_assoc]

theorem get?_of_valid (board : Board) (p : Position) (h : IsValidPosition p = true) :
    board.get? p.Y p.X = some (board.at p) := by
  rw [valid_iff] at h
  have h2 : 0 ≤ p.Y ∧ p.Y < 8 ∧ 0 ≤ p.X ∧ p.X < 8 := ⟨h.2.2.1, h.2.2.2, h.1, h.2.1⟩
  simp [Board.at, Board.get?, h2]

theorem get?_of_invalid (board : Board) (p : Position) (h : IsValidPosition p = false) :
    board.get? p.Y p.X = none := by
  have h2 : ¬ (0 ≤ p.Y ∧ p.Y < 8 ∧ 0 ≤ p.X ∧ p.X < 8) := by
    intro h3
    have : IsValidPosition p = true := (valid_iff p).2 ⟨h3.2.2.1, h3.2.2.2, h3.1, h3.2.1⟩
    simp [h] at this
  simp [Board.get?, h2]

theorem get?_some_valid (board : Board) (p : Position) (v : Int)
    (h : board.get? p.Y p.X = some v) : IsValidPosition p = true := by
  cases hv : IsValidPosition p with
  | true => rfl
  | false => rw [get?_of_invalid board p hv] at h; cases h

theorem get?_some_at (board : Board) (p : Position) (v : Int)
    (h : board.get? p.Y p.X = some v) : board.at p = v := by
  simp [Board.at, h]

theorem mem_scanOrder (p : Position) : p ∈ scanOrder ↔ IsValidPosition p = true := by
  rw [valid_iff]
  constructor
  · intro h
    simp only [scanOrder, List.mem_flatMap, List.mem_map] at h
    obtain ⟨y, hy, x, hx, rfl⟩ := h
    simp at hx hy
    dsimp only
    omega
  · intro h
    obtain ⟨x, y⟩ := p
    simp only [scanOrder, List.mem_flatMap, List.mem_map]
    dsimp only at h
    refine ⟨y, ?_, x, ?_, rfl⟩ <;> simp <;> omega

/-! ## Pseudo-move generators never leave the board -/

theorem stepMoves_eq (board : Board) (pos : Position) (color : Int) (ds : List (Int × Int)) :
    stepMoves board pos color ds =
      some ((ds.map fun d => (⟨pos.X + d.1, pos.Y + d.2⟩ : Position)).filter fun m =>
        IsValidPosition m &&
          (decide (board.at m = Empty) || decide (sign (board.at m) ≠ color))) := by
  induction ds with
  | nil => rfl
  | cons d rest ih =>
    simp only [stepMoves, ih, List.map_cons, List.filter_cons]
    cases hv : IsValidPosition ⟨pos.X + d.1, pos.Y + d.2⟩ with
    | false => simp
    | true =>
      have hg := get?_of_valid board _ hv
      simp only [] at hg
      simp only [hg, if_true, Bool.true_and]
      by_cases hc : board.at ⟨pos.X + d.1, pos.Y + d.2⟩ = Empty ∨
          sign (board.at ⟨pos.X + d.1, pos.Y + d.2⟩) ≠ color
      · rw [if_pos hc, if_pos (by simpa using hc)]
      · rw [if_neg hc, if_neg (by simpa using hc)]

theorem stepMoves_valid (board : Board) (pos : Position) (color : Int) (ds : List (Int × Int)) :
    ∃ l, stepMoves board pos color ds = some l ∧ ∀ m ∈ l, IsValidPosition m = true := by
  refine ⟨_, stepMoves_eq board pos color ds, ?_⟩
  intro m hm
  simp only [List.mem_filter, Bool.and_eq_true] at hm
  exact hm.2.1

theorem castRay_valid (board : Board) (pos : Position) (color : Int) (d : Int × Int)
    (steps : List Int) :
    ∃ l, castRay board pos color d steps = some l ∧ ∀ m ∈ l, IsValidPosition m = true := by
  induction steps with
  | nil => exact ⟨[], rfl, by simp⟩
  | cons i rest ih =>
    obtain ⟨l, hl, hval⟩ := ih
    simp only [castRay]
    cases hv : IsValidPosition ⟨pos.X + i * d.1, pos.Y + i * d.2⟩ with
    | false => exact ⟨[], by simp, by simp⟩
    | true =>
      have hg := get?_of_valid board _ hv
      simp only [] at hg
      simp only [hg, hl, Bool.not_true, Bool.false_eq_true, if_false]
      by_cases he : board.at ⟨pos.X + i * d.1, pos.Y + i * d.2⟩ = Empty
      · refine ⟨_ :: l, by rw [if_pos he], ?_⟩
        intro m hm
        rcases List.mem_cons.1 hm with h | h
        · rw [h]; exact hv
        · exact hval m h
      · by_cases hs : sign (board.at ⟨pos.X + i * d.1, pos.Y + i * d.2⟩) ≠ color
        · refine ⟨[_], by rw [if_neg he, if_pos hs], ?_⟩
          intro m hm
          rw [List.mem_singleton.1 hm]; exact hv
        · exact ⟨[], by rw [if_neg he, if_neg hs], by simp⟩

theorem castRays_valid (board : Board) (pos : Position) (color : Int)
    (ds : List (Int × Int)) :
    ∃ l, castRays board pos color ds = some l ∧ ∀ m ∈ l, IsValidPosition m = true := by
  induction ds with
  | nil => exact ⟨[], rfl, by simp⟩
  | cons d rest ih =>
    obtain ⟨l, hl, hval⟩ := ih
    obtain ⟨r, hr, hrval⟩ := castRay_valid board pos color d [1, 2, 3, 4, 5, 6, 7]
    refine ⟨r ++ l, by simp only [castRays, hr, hl], ?_⟩
    intro m hm
    rcases List.mem_append.1 hm with h | h
    · exact hrval m h
    · exact hval m h

theorem getQueenMoves_valid (board : Board) (pos : Position) (color : Int) :
    ∃ l, getQueenMoves board pos color = some l ∧ ∀ m ∈ l, IsValidPosition m = true := by
  obtain ⟨a, ha, hav⟩ := castRays_valid board pos color [(-1, -1), (-1, 1), (1, -1), (1, 1)]
  obtain ⟨b, hb, hbv⟩ := castRays_valid board pos color [(-1, 0), (1, 0), (0, -1), (0, 1)]
  refine ⟨a ++ b, by simp only [getQueenMoves, getDiagonalMoves, getStraightMoves, ha, hb], ?_⟩
  intro m hm
  rcases List.mem_append.1 hm with h | h
  · exact hav m h
  · exact hbv m h

/-- Forward pawn moves stay on the board and on the pawn's file. -/
theorem pawnForward_spec (board : Board) (pos : Position) (color : Int) :
    ∃ l, pawnForward board pos color (-color) = some l ∧
      ∀ m ∈ l, IsValidPosition m = true ∧ m.X = pos.X := by
  simp only [pawnForward]
  cases hv : IsValidPosition ⟨pos.X, pos.Y + -color⟩ with
  | false => exact ⟨[], by simp, by simp⟩
  | true =>
    have hg := get?_of_valid board _ hv
    simp only [] at hg
    simp only [hg, if_true]
    by_cases he : board.at ⟨pos.X, pos.Y + -color⟩ = Empty
    · rw [if_pos he]
      by_cases hh : (color = White ∧ pos.Y = 6) ∨ (color = Black ∧ pos.Y = 1)
      · rw [if_pos hh]
        have hv2 : IsValidPosition ⟨pos.X, pos.Y + 2 * -color⟩ = true := by
          rw [valid_iff] at hv ⊢
          simp only [White, Black] at hh
          dsimp only at hv ⊢
          omega
        have hg2 := get?_of_valid board _ hv2
        simp only [] at hg2
        rw [hg2]
        by_cases he2 : board.at ⟨pos.X, pos.Y + 2 * -color⟩ = Empty
        · refine ⟨_, by dsimp only; rw [if_pos he2], ?_⟩
          intro m hm
          simp only [List.mem_cons, List.mem_singleton, List.not_mem_nil, or_false] at hm
          rcases hm with h | h <;> rw [h]
          · exact ⟨hv, rfl⟩
          · exact ⟨hv2, rfl⟩
        · refine ⟨_, by dsimp only; rw [if_neg he2], ?_⟩
          intro m hm
          rw [List.mem_singleton.1 hm]
          exact ⟨hv, rfl⟩
      · refine ⟨_, by rw [if_neg hh], ?_⟩
        intro m hm
        rw [List.mem_singleton.1 hm]
        exact ⟨hv, rfl⟩
    · exact ⟨[], by rw [if_neg he], by simp⟩

/-- Regular pawn captures land on the board, on a piece that is not of the pawn's colour. -/
theorem pawnCaptures_spec (board : Board) (pos : Position) (color direction : Int)
    (dxs : List Int) :
    ∃ l, pawnCaptures board pos color direction dxs = some l ∧
      ∀ m ∈ l, IsValidPosition m = true ∧ board.at m ≠ Empty ∧ sign (board.at m) ≠ color := by
  induction dxs with
  | nil => exact ⟨[], rfl, by simp⟩
  | cons dx rest ih =>
    obtain ⟨l, hl, hval⟩ := ih
    simp only [pawnCaptures]
    cases hv : IsValidPosition ⟨pos.X + dx, pos.Y + direction⟩ with
    | false => exact ⟨l, by simpa using hl, hval⟩
    | true =>
      have hg := get?_of_valid board _ hv
      simp only [] at hg
      simp only [hg, hl, if_true]
      by_cases hc : board.at ⟨pos.X + dx, pos.Y + direction⟩ ≠ Empty ∧
          sign (board.at ⟨pos.X + dx, pos.Y + direction⟩) ≠ color
      · refine ⟨_ :: l, by rw [if_pos hc], ?_⟩
        intro m hm
        rcases List.mem_cons.1 hm with h | h
        · rw [h]; exact ⟨hv, hc⟩
        · exact hval m h
      · exact ⟨l, by rw [if_neg hc], hval⟩

theorem getPawnMoves_nil_valid (board : Board) (pos : Position) (color : Int) :
    ∃ l, getPawnMoves board pos color none = some l ∧ ∀ m ∈ l, IsValidPosition m = true := by
  obtain ⟨f, hf, hfv⟩ := pawnForward_spec board pos color
  obtain ⟨c, hc, hcv⟩ := pawnCaptures_spec board pos color (-color) [-1, 1]
  refine ⟨f ++ c ++ [], by simp only [getPawnMoves, hf, hc, pawnEnPassant], ?_⟩
  intro m hm
  simp only [List.append_nil, List.mem_append] at hm
  rcases hm with h | h
  · exact (hfv m h).1
  · exact (hcv m h).1

/-- The piece switch returns on-board squares whenever its king branch does. -/
theorem pieceMovesWith_nil_valid (kingMoves : Board → Position → Int → Option (List Position))
    (board : Board) (pos : Position) (hpos : IsValidPosition pos = true)
    (hk : ∀ c, ∃ l, kingMoves board pos c = some l ∧ ∀ m ∈ l, IsValidPosition m = true) :
    ∃ l, pieceMovesWith kingMoves board pos none = some l ∧
      ∀ m ∈ l, IsValidPosition m = true := by
  simp only [pieceMovesWith, get?_of_valid board pos hpos]
  split_ifs
  · exact getPawnMoves_nil_valid board pos _
  · exact stepMoves_valid board pos _ _
  · exact castRays_valid board pos _ _
  · exact castRays_valid board pos _ _
  · exact getQueenMoves_valid board pos _
  · exact hk _
  · exact ⟨[], rfl, by simp⟩

theorem GetPieceMovesNil_valid (board : Board) (pos : Position)
    (hpos : IsValidPosition pos = true) :
    ∃ l, GetPieceMovesNil board pos = some l ∧ ∀ m ∈ l, IsValidPosition m = true :=
  pieceMovesWith_nil_valid kingStepMoves board pos hpos
    (fun c => stepMoves_valid board pos c kingDirections)

/-- With a nil game `GetPieceMoves` is the context-free generator used by check detection. -/
theorem GetPieceMoves_none (board : Board) (pos : Position) :
    GetPieceMoves board pos none = GetPieceMovesNil board pos := by
  have h : (fun b p c => getKingMoves b p c none) = kingStepMoves := by
    funext b p c
    simp only [getKingMoves]
    cases kingStepMoves b p c <;> rfl
  simp only [GetPieceMoves, GetPieceMovesNil, h]

/-! ## Check detection always answers -/

theorem findKing_total (board : Board) (kingValue : Int) (squares : List Position)
    (hs : ∀ sq ∈ squares, IsValidPosition sq = true) :
    ∃ k, findKing board kingValue squares = some k := by
  induction squares with
  | nil => exact ⟨_, rfl⟩
  | cons sq rest ih =>
    simp only [findKing, get?_of_valid board sq (hs sq (List.mem_cons_self _ _))]
    split_ifs
    · exact ⟨_, rfl⟩
    · exact ih fun s h => hs s (List.mem_cons_of_mem _ h)

theorem attackScan_total (board : Board) (color : Int) (kingPos : Position)
    (squares : List Position) (hs : ∀ sq ∈ squares, IsValidPosition sq = true) :
    ∃ r, attackScan board color kingPos squares = some r := by
  induction squares with
  | nil => exact ⟨_, rfl⟩
  | cons sq rest ih =>
    have hsq := hs sq (List.mem_cons_self _ _)
    have ih2 := ih fun s h => hs s (List.mem_cons_of_mem _ h)
    obtain ⟨l, hl, -⟩ := GetPieceMovesNil_valid board sq hsq
    simp only [attackScan, get?_of_valid board sq hsq, hl]
    split_ifs
    · exact ⟨_, rfl⟩
    · exact ih2
    · exact ih2

theorem IsKingInCheck_total (board : Board) (color : Int) :
    ∃ r, IsKingInCheck board color = some r := by
  obtain ⟨k, hk⟩ := findKing_total board (wrapInt64 (color * King)) scanOrder
    (fun sq h => (mem_scanOrder sq).1 h)
  obtain ⟨r, hr⟩ := attackScan_total board color k scanOrder
    (fun sq h => (mem_scanOrder sq).1 h)
  exact ⟨r, by simp only [IsKingInCheck, hk, hr]⟩

/-! ## The simulated relocation and the legality filter -/

theorem set?_of_valid (board : Board) (p : Position) (v : Int)
    (h : IsValidPosition p = true) :
    board.set? p.Y p.X v =
      some ⟨fun r c => if p.Y = ((r : Nat) : Int) ∧ p.X = ((c : Nat) : Int) then v
        else board.cell r c⟩ := by
  rw [valid_iff] at h
  have h2 : 0 ≤ p.Y ∧ p.Y < 8 ∧ 0 ≤ p.X ∧ p.X < 8 := ⟨h.2.2.1, h.2.2.2, h.1, h.2.1⟩
  simp only [Board.set?, dif_pos h2, Option.some.injEq, Board.mk.injEq]
  funext r c
  have e : (r = ⟨p.Y.toNat, by omega⟩ ∧ c = ⟨p.X.toNat, by omega⟩) ↔
      (p.Y = ((r : Nat) : Int) ∧ p.X = ((c : Nat) : Int)) := by
    simp only [Fin.ext_iff]
    omega
  by_cases hc : p.Y = ((r : Nat) : Int) ∧ p.X = ((c : Nat) : Int)
  · rw [if_pos hc, if_pos (e.2 hc)]
  · rw [if_neg hc, if_neg (fun h => hc (e.1 h))]

theorem set?_of_invalid (board : Board) (p : Position) (v : Int)
    (h : IsValidPosition p = false) : board.set? p.Y p.X v = none := by
  have h2 : ¬ (0 ≤ p.Y ∧ p.Y < 8 ∧ 0 ≤ p.X ∧ p.X < 8) := by
    intro h3
    have : IsValidPosition p = true := (valid_iff p).2 ⟨h3.2.2.1, h3.2.2.2, h3.1, h3.2.1⟩
    simp [h] at this
  simp [Board.set?, h2]

/-- On the board, `board.at` reads the table entry of the square. -/
theorem at_eq_cell (board : Board) (r c : Fin 8) :
    board.at ⟨((c : Nat) : Int), ((r : Nat) : Int)⟩ = board.cell r c := by
  have h : 0 ≤ ((r : Nat) : Int) ∧ ((r : Nat) : Int) < 8 ∧ 0 ≤ ((c : Nat) : Int) ∧
      ((c : Nat) : Int) < 8 := by omega
  simp [Board.at, Board.get?, h]

theorem relocate_eq (board : Board) (src dst : Position)
    (hs : IsValidPosition src = true) (hd : IsValidPosition dst = true) :
    relocate board src dst = some (board.at src, movedCopy board src dst) := by
  simp only [relocate, get?_of_valid board src hs, set?_of_valid _ src _ hs,
    set?_of_valid _ dst _ hd, movedCopy]

theorem relocate_none_of_invalid (board : Board) (src dst : Position)
    (h : IsValidPosition src = false ∨ IsValidPosition dst = false) :
    relocate board src dst = none := by
  cases hs : IsValidPosition src with
  | false => simp only [relocate, get?_of_invalid board src hs]
  | true =>
    have hd : IsValidPosition dst = false := by
      rcases h with h | h
      · rw [hs] at h; cases h
      · exact h
    simp only [relocate, get?_of_valid board src hs, set?_of_valid _ src _ hs,
      set?_of_invalid _ dst _ hd]

/-- Spec wording of `isLegal` (§4.4) as a test: the mover's side is not in check on the
moved copy. -/
theorem SimulateMove_eq (board : Board) (src dst : Position)
    (hs : IsValidPosition src = true) (hd : IsValidPosition dst = true) :
    SimulateMove board src dst =
      (IsKingInCheck (movedCopy board src dst) (sign (board.at src))).map (fun c => !c) := by
  simp only [SimulateMove, relocate_eq board src dst hs hd]
  cases IsKingInCheck (movedCopy board src dst) (sign (board.at src)) <;> rfl

theorem filterLegal_eq (board : Board) (pos : Position) (moves : List Position)
    (hs : IsValidPosition pos = true) (hm : ∀ m ∈ moves, IsValidPosition m = true) :
    filterLegal board pos moves =
      some (moves.filter fun m =>
        decide (IsKingInCheck (movedCopy board pos m) (sign (board.at pos)) = some false)) := by
  induction moves with
  | nil => rfl
  | cons m rest ih =>
    have ih2 := ih fun x h => hm x (List.mem_cons_of_mem _ h)
    have hv := hm m (List.mem_cons_self _ _)
    obtain ⟨r, hr⟩ := IsKingInCheck_total (movedCopy board pos m) (sign (board.at pos))
    simp only [filterLegal, SimulateMove_eq board pos m hs hv, ih2, hr, Option.map_some',
      List.filter_cons]
    cases r <;> simp

theorem GetLegalMoves_eq (board : Board) (pos : Position)
    (hpos : IsValidPosition pos = true) :
    ∃ pseudo, GetPieceMoves board pos none = some pseudo ∧
      (∀ m ∈ pseudo, IsValidPosition m = true) ∧
      GetLegalMoves board pos = some (pseudo.filter fun m =>
        decide (IsKingInCheck (movedCopy board pos m) (sign (board.at pos)) = some false)) := by
  obtain ⟨l, hl, hv⟩ := GetPieceMovesNil_valid board pos hpos
  rw [← GetPieceMoves_none] at hl
  refine ⟨l, hl, hv, ?_⟩
  simp only [GetLegalMoves, hl, filterLegal_eq board pos l hpos hv]

/-- C2. For every board and every square `pos` on it, `GetLegalMoves board pos` returns
(does not panic) and is the context-free pseudo-move list `GetPieceMoves board pos nil`
filtered, in order, by the test "the mover's colour is not in check on the copy of the
board in which `pos` is cleared and the destination holds the moved piece"; so a square is
in the result iff it is a pseudo-move passing that test.  The board is an argument passed
by value: the function has no effect on it. -/
theorem GetLegalMoves_filters_pseudo_moves (board : Board) (pos : Position)
    (hpos : IsValidPosition pos = true) :
    ∃ pseudo legal, GetPieceMoves board pos none = some pseudo ∧
      GetLegalMoves board pos = some legal ∧
      legal = pseudo.filter (fun m =>
        decide (IsKingInCheck (movedCopy board pos m) (sign (board.at pos)) = some false)) ∧
      ∀ m, m ∈ legal ↔
        m ∈ pseudo ∧ IsKingInCheck (movedCopy board pos m) (sign (board.at pos)) = some false := by
  obtain ⟨pseudo, hp, -, hl⟩ := GetLegalMoves_eq board pos hpos
  refine ⟨pseudo, _, hp, hl, rfl, ?_⟩
  intro m
  simp only [List.mem_filter, decide_eq_true_eq]

theorem GetLegalMoves_filters_pseudo_moves_witness :
    IsValidPosition ⟨4, 6⟩ = true ∧
    ∃ pseudo legal, GetPieceMoves initialBoard ⟨4, 6⟩ none = some pseudo ∧
      GetLegalMoves initialBoard ⟨4, 6⟩ = some legal ∧
      legal = pseudo.filter (fun m =>
        decide (IsKingInCheck (movedCopy initialBoard ⟨4, 6⟩ m)
          (sign (initialBoard.at ⟨4, 6⟩)) = some false)) ∧
      ∀ m, m ∈ legal ↔
        m ∈ pseudo ∧ IsKingInCheck (movedCopy initialBoard ⟨4, 6⟩ m)
          (sign (initialBoard.at ⟨4, 6⟩)) = some false :=
  ⟨by decide, GetLegalMoves_filters_pseudo_moves initialBoard ⟨4, 6⟩ (by decide)⟩

/-! ## Checkmate -/

theorem mateScan_spec (board : Board) (c : Int) (squares : List Position)
    (hs : ∀ sq ∈ squares, IsValidPosition sq = true) :
    (∃ r, mateScan board c squares = some r) ∧
    (mateScan board c squares = some true ↔
      ∀ sq ∈ squares, board.at sq ≠ 0 → sign (board.at sq) = c →
        GetLegalMoves board sq = some []) := by
  induction squares with
  | nil => exact ⟨⟨_, rfl⟩, by simp [mateScan]⟩
  | cons sq rest ih =>
    have hsq := hs sq (List.mem_cons_self _ _)
    obtain ⟨iht, ihs⟩ := ih fun s h => hs s (List.mem_cons_of_mem _ h)
    obtain ⟨pseudo, -, -, hl⟩ := GetLegalMoves_eq board sq hsq
    simp only [mateScan, get?_of_valid board sq hsq, List.forall_mem_cons]
    by_cases hp : board.at sq ≠ 0 ∧ sign (board.at sq) = c
    · rw [if_pos hp]
      generalize GetLegalMoves board sq = res at hl ⊢
      subst hl
      dsimp only
      cases hf : pseudo.filter fun m =>
          decide (IsKingInCheck (movedCopy board sq m) (sign (board.at sq)) = some false) with
      | nil =>
        simp only [List.length_nil, gt_iff_lt, lt_self_iff_false, if_false]
        refine ⟨iht, ?_⟩
        rw [ihs]
        simp
      | cons a l =>
        simp only [List.length_cons, gt_iff_lt, Nat.zero_lt_succ, if_true]
        refine ⟨⟨_, rfl⟩, ?_⟩
        simp [hp.1, hp.2]
    · rw [if_neg hp]
      refine ⟨iht, ?_⟩
      rw [ihs]
      exact ⟨fun h => ⟨fun h0 h1 => absurd ⟨h0, h1⟩ hp, h⟩, fun h => h.2⟩

/-- C5. For every board and colour `c`, `IsCheckmate board c` returns, and it returns
`true` iff `IsKingInCheck board c` is `true` and `GetLegalMoves` is empty for every square
holding a piece of colour `c`; when `c` is not in check it returns `false`. -/
theorem IsCheckmate_iff_in_check_and_no_legal_move (board : Board) (c : Int) :
    (IsCheckmate board c = some true ∨ IsCheckmate board c = some false) ∧
    (IsCheckmate board c = some true ↔
      IsKingInCheck board c = some true ∧
        ∀ sq, IsValidPosition sq = true → board.at sq ≠ 0 → sign (board.at sq) = c →
          GetLegalMoves board sq = some []) ∧
    (IsKingInCheck board c = some false → IsCheckmate board c = some false) := by
  obtain ⟨⟨r, hr⟩, hiff⟩ := mateScan_spec board c scanOrder fun sq h => (mem_scanOrder sq).1 h
  have hall : (∀ sq ∈ scanOrder, board.at sq ≠ 0 → sign (board.at sq) = c →
        GetLegalMoves board sq = some []) ↔
      ∀ sq, IsValidPosition sq = true → board.at sq ≠ 0 → sign (board.at sq) = c →
        GetLegalMoves board sq = some [] :=
    ⟨fun h sq hv => h sq ((mem_scanOrder sq).2 hv), fun h sq hm => h sq ((mem_scanOrder sq).1 hm)⟩
  rw [hall] at hiff
  obtain ⟨k, hk⟩ := IsKingInCheck_total board c
  simp only [IsCheckmate, hk]
  cases k with
  | false => simp
  | true =>
    simp only [Bool.not_true, Bool.false_eq_true, if_false, hiff, true_and,
      Option.some.injEq, Bool.true_eq_false, false_implies, and_true]
    rw [← hiff, hr]
    cases r <;> simp

/-! ## Check detection -/

theorem findKing_of_unique (board : Board) (v : Int) (k : Position) (squares : List Position)
    (hs : ∀ sq ∈ squares, IsValidPosition sq = true) (hk : k ∈ squares)
    (hv : board.at k = v) (hu : ∀ sq ∈ squares, board.at sq = v → sq = k) :
    findKing board v squares = some k := by
  induction squares with
  | nil => cases hk
  | cons sq rest ih =>
    simp only [findKing, get?_of_valid board sq (hs sq (List.mem_cons_self _ _))]
    by_cases h : board.at sq = v
    · rw [if_pos h, hu sq (List.mem_cons_self _ _) h]
    · rw [if_neg h]
      have hk2 : k ∈ rest := by
        rcases List.mem_cons.1 hk with e | e
        · rw [e] at hv; exact absurd hv h
        · exact e
      exact ih (fun s hm => hs s (List.mem_cons_of_mem _ hm)) hk2
        (fun s hm => hu s (List.mem_cons_of_mem _ hm))

theorem any_hits_iff_mem (moves : List Position) (k : Position) :
    moves.any (fun move => decide (move.X = k.X ∧ move.Y = k.Y)) = true ↔ k ∈ moves := by
  simp only [List.any_eq_true, decide_eq_true_eq]
  constructor
  · rintro ⟨m, hm, hx, hy⟩
    have : m = k := by cases m; cases k; simp_all
    rw [← this]; exact hm
  · intro h
    exact ⟨k, h, rfl, rfl⟩

theorem attackScan_spec (board : Board) (c : Int) (k : Position) (squares : List Position)
    (hs : ∀ sq ∈ squares, IsValidPosition sq = true) :
    attackScan board c k squares = some true ↔
      ∃ sq ∈ squares, board.at sq ≠ 0 ∧ sign (board.at sq) ≠ c ∧
        ∃ moves, GetPieceMovesNil board sq = some moves ∧ k ∈ moves := by
  induction squares with
  | nil => simp [attackScan]
  | cons sq rest ih =>
    have hsq := hs sq (List.mem_cons_self _ _)
    have ih2 := ih fun s h => hs s (List.mem_cons_of_mem _ h)
    obtain ⟨l, hl, -⟩ := GetPieceMovesNil_valid board sq hsq
    simp only [attackScan, get?_of_valid board sq hsq, hl, List.exists_mem_cons_iff]
    by_cases hp : board.at sq ≠ 0 ∧ sign (board.at sq) ≠ c
    · rw [if_pos hp]
      by_cases hh : l.any (fun move => decide (move.X = k.X ∧ move.Y = k.Y)) = true
      · rw [if_pos hh]
        simp only [true_iff]
        exact Or.inl ⟨hp.1, hp.2, l, rfl, (any_hits_iff_mem l k).1 hh⟩
      · rw [if_neg hh, ih2]
        constructor
        · exact fun h => Or.inr h
        · rintro (⟨-, -, m, hm, hk⟩ | h)
          · cases hm
            exact absurd ((any_hits_iff_mem _ k).2 hk) hh
          · exact h
    · rw [if_neg hp, ih2]
      constructor
      · exact fun h => Or.inr h
      · rintro (⟨h0, h1, -⟩ | h)
        · exact absurd ⟨h0, h1⟩ hp
        · exact h

theorem sign_ne_iff_opposite (v c : Int) (hv : v ≠ 0) (hc : c = White ∨ c = Black) :
    sign v ≠ c ↔ sign v = -c := by
  simp only [sign, White, Black] at *
  rcases hc with rfl | rfl <;> split_ifs <;> first | omega | simp

/-- C6. On a board with exactly one king of colour `c` (White or Black), standing on
`k`, `IsKingInCheck board c` returns, and returns `true` iff some square holds a non-empty
piece of the opposite sign whose context-free pseudo-move list
`GetPieceMoves board sq nil` contains `k`. -/
theorem IsKingInCheck_iff_king_square_attacked (board : Board) (c : Int) (k : Position)
    (hc : c = White ∨ c = Black)
    (hk : board.get? k.Y k.X = some (c * King))
    (huniq : ∀ sq : Position, board.get? sq.Y sq.X = some (c * King) → sq = k) :
    (IsKingInCheck board c = some true ∨ IsKingInCheck board c = some false) ∧
    (IsKingInCheck board c = some true ↔
      ∃ sq piece moves, board.get? sq.Y sq.X = some piece ∧ piece ≠ 0 ∧ sign piece = -c ∧
        GetPieceMoves board sq none = some moves ∧ k ∈ moves) := by
  have hkv := get?_some_valid board k _ hk
  have hw : wrapInt64 (c * King) = c * King := by
    rcases hc with rfl | rfl <;> decide
  have hf : findKing board (wrapInt64 (c * King)) scanOrder = some k := by
    rw [hw]
    refine findKing_of_unique board _ k scanOrder (fun sq h => (mem_scanOrder sq).1 h)
      ((mem_scanOrder k).2 hkv) (get?_some_at board k _ hk) ?_
    intro sq hm hv
    apply huniq
    rw [get?_of_valid board sq ((mem_scanOrder sq).1 hm), hv]
  constructor
  · obtain ⟨r, hr⟩ := IsKingInCheck_total board c
    rw [hr]; cases r <;> simp
  · simp only [IsKingInCheck, hf]
    rw [attackScan_spec board c k scanOrder fun sq h => (mem_scanOrder sq).1 h]
    constructor
    · rintro ⟨sq, hm, h0, hs, moves, hmv, hkm⟩
      have hv := (mem_scanOrder sq).1 hm
      exact ⟨sq, board.at sq, moves, get?_of_valid board sq hv, h0,
        (sign_ne_iff_opposite _ c h0 hc).1 hs, by rw [GetPieceMoves_none]; exact hmv, hkm⟩
    · rintro ⟨sq, piece, moves, hg, h0, hs, hmv, hkm⟩
      have hv := get?_some_valid board sq _ hg
      have ha := get?_some_at board sq _ hg
      rw [GetPieceMoves_none] at hmv
      refine ⟨sq, (mem_scanOrder sq).2 hv, by rw [ha]; exact h0, ?_, moves, hmv, hkm⟩
      rw [ha]
      exact (sign_ne_iff_opposite _ c h0 hc).2 hs

theorem unique_of_scan (board : Board) (v : Int) (k : Position)
    (h : ∀ sq ∈ scanOrder, board.get? sq.Y sq.X = some v → sq = k) :
    ∀ sq : Position, board.get? sq.Y sq.X = some v → sq = k :=
  fun sq hg => h sq ((mem_scanOrder sq).2 (get?_some_valid board sq v hg)) hg

theorem IsKingInCheck_iff_king_square_attacked_witness :
    (IsKingInCheck initialBoard White = some true ∨
      IsKingInCheck initialBoard White = some false) ∧
    (IsKingInCheck initialBoard White = some true ↔
      ∃ sq piece moves, initialBoard.get? sq.Y sq.X = some piece ∧ piece ≠ 0 ∧
        sign piece = -White ∧ GetPieceMoves initialBoard sq none = some moves ∧
        (⟨4, 7⟩ : Position) ∈ moves) :=
  IsKingInCheck_iff_king_square_attacked initialBoard White ⟨4, 7⟩ (Or.inl rfl)
    (by decide) (unique_of_scan initialBoard _ _ (by decide))

/-! ## Fixtures: the starting position and the fool's mate -/

/-- C3. On the board of `NewGame` each side has exactly 20 legal moves: summed over the
squares holding a white piece `GetLegalMoves` returns 20 squares, 16 of them for pawns and
4 for knights; likewise 20 (16 + 4) for black; and `GetLegalMovesWithState` with the fresh
game gives the same totals of 20. -/
theorem starting_position_twenty_legal_moves :
    totalLegalMoves (GetLegalMoves NewGame.Board) NewGame.Board
        (fun v => decide (v > 0)) scanOrder = some 20 ∧
    totalLegalMoves (GetLegalMoves NewGame.Board) NewGame.Board
        (fun v => decide (v = Pawn)) scanOrder = some 16 ∧
    totalLegalMoves (GetLegalMoves NewGame.Board) NewGame.Board
        (fun v => decide (v = Knight)) scanOrder = some 4 ∧
    totalLegalMoves (GetLegalMoves NewGame.Board) NewGame.Board
        (fun v => decide (v < 0)) scanOrder = some 20 ∧
    totalLegalMoves (GetLegalMoves NewGame.Board) NewGame.Board
        (fun v => decide (v = -Pawn)) scanOrder = some 16 ∧
    totalLegalMoves (GetLegalMoves NewGame.Board) NewGame.Board
        (fun v => decide (v = -Knight)) scanOrder = some 4 ∧
    totalLegalMoves (fun sq => GetLegalMovesWithState NewGame.Board sq (some NewGame))
        NewGame.Board (fun v => decide (v > 0)) scanOrder = some 20 ∧
    totalLegalMoves (fun sq => GetLegalMovesWithState NewGame.Board sq (some NewGame))
        NewGame.Board (fun v => decide (v < 0)) scanOrder = some 20 := by
  refine ⟨?_, ?_, ?_, ?_, ?_, ?_, ?_, ?_⟩ <;> decide!

/-- C4. Fool's mate: from `NewGame`, the four `MakeMove` calls f3, e5, g4, Qh4 all
succeed, and on the resulting board `IsCheckmate` is `true` for White and `false` for
Black. -/
theorem fools_mate_is_checkmate :
    ∃ g, MakeMoves NewGame foolsMate = Outcome.ok g ∧
      IsCheckmate g.Board White = some true ∧ IsCheckmate g.Board Black = some false :=
  ⟨_, rfl, by decide!, by decide!⟩

/-! ## The legality filter against the applied move -/

/-- C1 (fails on the code). After the legal opening `enPassantPinLine`, played from
`NewGame` through the engine's own legal-move lists, the board has one king of each colour
and White is not in check; `GetLegalMovesWithState` for the white pawn on e5 offers the en
passant capture on d6; yet after `MakeMove` applies it, which also removes the black pawn
on d5, `IsKingInCheck` is `true` for White, the colour that moved. -/
theorem legal_en_passant_leaves_own_king_in_check :
    ∃ g g1 legal, playOffered NewGame enPassantPinLine = some g ∧
      countPiece g.Board King = 1 ∧ countPiece g.Board (-King) = 1 ∧
      g.Board.get? 3 4 = some Pawn ∧
      IsKingInCheck g.Board White = some false ∧
      GetLegalMovesWithState g.Board ⟨4, 3⟩ (some g) = some legal ∧
      (⟨3, 2⟩ : Position) ∈ legal ∧
      MakeMove g ⟨4, 3⟩ ⟨3, 2⟩ = Outcome.ok g1 ∧
      IsKingInCheck g1.Board (sign Pawn) = some true := by
  have h : (match playOffered NewGame enPassantPinLine with
      | none => false
      | some g =>
        decide (countPiece g.Board King = 1) && decide (countPiece g.Board (-King) = 1) &&
        decide (g.Board.get? 3 4 = some Pawn) &&
        decide (IsKingInCheck g.Board White = some false) &&
        (match GetLegalMovesWithState g.Board ⟨4, 3⟩ (some g), MakeMove g ⟨4, 3⟩ ⟨3, 2⟩ with
          | some legal, Outcome.ok g1 =>
            decide ((⟨3, 2⟩ : Position) ∈ legal) &&
              decide (IsKingInCheck g1.Board (sign Pawn) = some true)
          | _, _ => false)) = true := by decide!
  revert h
  cases playOffered NewGame enPassantPinLine with
  | none => intro h; cases h
  | some g =>
    dsimp only
    cases hl : GetLegalMovesWithState g.Board ⟨4, 3⟩ (some g) with
    | none => intro h; simp at h
    | some legal =>
      cases hm : MakeMove g ⟨4, 3⟩ ⟨3, 2⟩ with
      | panic g1 => intro h; simp at h
      | ok g1 =>
        intro h
        simp only [Bool.and_eq_true, decide_eq_true_eq] at h
        obtain ⟨⟨⟨⟨h1, h2⟩, h3⟩, h4⟩, h5, h6⟩ := h
        exact ⟨g, g1, legal, rfl, h1, h2, h3, h4, hl, h5, hm, h6⟩

/-! ## What a completed `MakeMove` leaves behind -/

theorem andThen_ok (o : Outcome) (f : Game → Outcome) (g' : Game)
    (h : o.andThen f = Outcome.ok g') : ∃ g1, o = Outcome.ok g1 ∧ f g1 = Outcome.ok g' := by
  cases o with
  | ok g1 => exact ⟨g1, rfl, h⟩
  | panic g1 => cases h

theorem writeBoard_ok (g g' : Game) (y x v : Int) (h : writeBoard g y x v = Outcome.ok g') :
    ∃ b, g.Board.set? y x v = some b ∧ g' = { g with Board := b } := by
  simp only [writeBoard] at h
  cases hb : g.Board.set? y x v with
  | none => rw [hb] at h; cases h
  | some b =>
    rw [hb] at h
    injection h with h
    exact ⟨b, rfl, h.symm⟩

theorem copyCell_ok (g g' : Game) (y dst src : Int) (h : copyCell g y dst src = Outcome.ok g') :
    ∃ b, g' = { g with Board := b } := by
  simp only [copyCell] at h
  cases hv : g.Board.get? y src with
  | none => rw [hv] at h; cases h
  | some v =>
    rw [hv] at h
    obtain ⟨b, -, hb⟩ := writeBoard_ok g g' _ _ _ h
    exact ⟨b, hb⟩

theorem castleRook_ok (g g' : Game) (piece : Int) (src dst : Position)
    (h : castleRook g piece src dst = Outcome.ok g') : ∃ b, g' = { g with Board := b } := by
  simp only [castleRook] at h
  split_ifs at h
  · obtain ⟨g1, h1, h2⟩ := andThen_ok _ _ _ h
    obtain ⟨b1, rfl⟩ := copyCell_ok _ _ _ _ _ h1
    obtain ⟨b2, -, rfl⟩ := writeBoard_ok _ _ _ _ _ h2
    exact ⟨b2, rfl⟩
  · obtain ⟨g1, h1, h2⟩ := andThen_ok _ _ _ h
    obtain ⟨b1, rfl⟩ := copyCell_ok _ _ _ _ _ h1
    obtain ⟨b2, -, rfl⟩ := writeBoard_ok _ _ _ _ _ h2
    exact ⟨b2, rfl⟩
  · injection h with h
    exact ⟨g.Board, h.symm⟩

theorem captureEnPassant_ok (g g' : Game) (piece : Int) (src dst : Position)
    (h : captureEnPassant g piece src dst = Outcome.ok g') :
    ∃ b, g' = { g with Board := b } := by
  simp only [captureEnPassant] at h
  split at h
  · injection h with h
    exact ⟨g.Board, h.symm⟩
  · split_ifs at h
    · obtain ⟨b, -, hb⟩ := writeBoard_ok _ _ _ _ _ h
      exact ⟨b, hb⟩
    · injection h with h
      exact ⟨g.Board, h.symm⟩

/-- A `MakeMove` that completes had both squares on the board and changes, besides the
board, exactly `HasMoved[src]`, `EnPassantTarget`, `LastMove` and `Turn`. -/
theorem MakeMove_ok (g g' : Game) (src dst : Position)
    (h : MakeMove g src dst = Outcome.ok g') :
    ∃ piece b, g.Board.get? src.Y src.X = some piece ∧ IsValidPosition dst = true ∧
      g' = { g with
        Board := b
        HasMoved := fun p => if p = src then true else g.HasMoved p
        EnPassantTarget := nextEnPassantTarget piece src dst
        LastMove := ⟨src, dst, piece⟩
        Turn := !g.Turn } := by
  simp only [MakeMove] at h
  cases hp : g.Board.get? src.Y src.X with
  | none => rw [hp] at h; cases h
  | some piece =>
    rw [hp] at h
    dsimp only at h
    obtain ⟨g1, h1, h⟩ := andThen_ok _ _ _ h
    obtain ⟨g2, h2, h⟩ := andThen_ok _ _ _ h
    obtain ⟨g4, h4, h⟩ := andThen_ok _ _ _ h
    obtain ⟨g5, h5, h⟩ := andThen_ok _ _ _ h
    obtain ⟨b1, rfl⟩ := castleRook_ok _ _ _ _ _ h1
    obtain ⟨b2, rfl⟩ := captureEnPassant_ok _ _ _ _ _ h2
    obtain ⟨b4, hb4, rfl⟩ := writeBoard_ok _ _ _ _ _ h4
    obtain ⟨b5, -, rfl⟩ := writeBoard_ok _ _ _ _ _ h5
    injection h with h
    refine ⟨piece, b5, rfl, ?_, h.symm⟩
    cases hv : IsValidPosition dst with
    | true => rfl
    | false =>
      dsimp only at hb4
      rw [set?_of_invalid _ dst _ hv] at hb4
      cases hb4

theorem abs_eq_iff (v k : Int) (hk : 0 < k) : abs v = k ↔ v = k ∨ v = -k := by
  simp only [abs]
  split_ifs <;> omega

theorem nextEnPassantTarget_eq (piece : Int) (src dst : Position)
    (hs : IsValidPosition src = true) (hd : IsValidPosition dst = true) :
    nextEnPassantTarget piece src dst =
      if (piece = Pawn ∨ piece = -Pawn) ∧ (dst.Y - src.Y = 2 ∨ dst.Y - src.Y = -2) then
        some ⟨dst.X, (src.Y + dst.Y) / 2⟩
      else none := by
  rw [valid_iff] at hs hd
  have hdiv : (src.Y + dst.Y).tdiv 2 = (src.Y + dst.Y) / 2 :=
    Int.tdiv_eq_ediv (by omega) (by omega)
  simp only [nextEnPassantTarget, abs_eq_iff _ Pawn (by decide), abs_eq_iff _ 2 (by decide),
    hdiv]

theorem GetPieceMoves_pawn (board : Board) (pos : Position) (game : Option Game) (v : Int)
    (hg : board.get? pos.Y pos.X = some v) (hp : v = Pawn ∨ v = -Pawn) :
    GetPieceMoves board pos game = getPawnMoves board pos (sign v) game := by
  have : abs v = Pawn := (abs_eq_iff v Pawn (by decide)).2 hp
  simp only [GetPieceMoves, pieceMovesWith, hg, this, if_true]

theorem getPawnMoves_eq (board : Board) (pos : Position) (color : Int) (game : Option Game) :
    ∃ forward captures,
      getPawnMoves board pos color game =
        some (forward ++ captures ++ pawnEnPassant pos color (-color) game) ∧
      (∀ m ∈ forward, IsValidPosition m = true ∧ m.X = pos.X) ∧
      (∀ m ∈ captures, IsValidPosition m = true ∧ board.at m ≠ Empty ∧
        sign (board.at m) ≠ color) := by
  obtain ⟨f, hf, hfv⟩ := pawnForward_spec board pos color
  obtain ⟨c, hc, hcv⟩ := pawnCaptures_spec board pos color (-color) [-1, 1]
  exact ⟨f, c, by simp only [getPawnMoves, hf, hc], hfv, hcv⟩

/-- C8. A completed `MakeMove g src dst` leaves `EnPassantTarget` equal to the square
`(dst.X, (src.Y + dst.Y) / 2)` when the moved piece is a pawn and the move spans two ranks,
and absent in every other case, whatever it was before; and in that other case the
pseudo-moves of every pawn on the resulting board, generated with the resulting game as
context, contain no en passant capture: every move that leaves the pawn's file lands on an
occupied square. -/
theorem en_passant_target_lives_one_move (g g1 : Game) (src dst : Position) (piece : Int)
    (hpiece : g.Board.get? src.Y src.X = some piece)
    (hmove : MakeMove g src dst = Outcome.ok g1) :
    ((piece = Pawn ∨ piece = -Pawn) ∧ (dst.Y - src.Y = 2 ∨ dst.Y - src.Y = -2) →
      g1.EnPassantTarget = some ⟨dst.X, (src.Y + dst.Y) / 2⟩) ∧
    (¬ ((piece = Pawn ∨ piece = -Pawn) ∧ (dst.Y - src.Y = 2 ∨ dst.Y - src.Y = -2)) →
      g1.EnPassantTarget = none ∧
      ∀ (pos : Position) (v : Int), g1.Board.get? pos.Y pos.X = some v →
        (v = Pawn ∨ v = -Pawn) →
        ∃ moves, GetPieceMoves g1.Board pos (some g1) = some moves ∧
          ∀ m ∈ moves, m.X ≠ pos.X → g1.Board.at m ≠ Empty) := by
  obtain ⟨piece', b, hp', hd, hg1⟩ := MakeMove_ok g g1 src dst hmove
  rw [hpiece] at hp'
  injection hp' with hp'
  subst hp'
  have hs := get?_some_valid _ src _ hpiece
  have hep : g1.EnPassantTarget =
      if (piece = Pawn ∨ piece = -Pawn) ∧ (dst.Y - src.Y = 2 ∨ dst.Y - src.Y = -2) then
        some ⟨dst.X, (src.Y + dst.Y) / 2⟩
      else none := by
    rw [hg1]
    exact nextEnPassantTarget_eq piece src dst hs hd
  constructor
  · intro h
    rw [hep, if_pos h]
  · intro h
    rw [if_neg h] at hep
    refine ⟨hep, ?_⟩
    intro pos v hv hpawn
    obtain ⟨f, c, hm, hf, hc⟩ := getPawnMoves_eq g1.Board pos (sign v) (some g1)
    refine ⟨_, by rw [GetPieceMoves_pawn _ pos _ v hv hpawn]; exact hm, ?_⟩
    intro m hmem hx
    simp only [pawnEnPassant, hep, List.append_nil, List.mem_append] at hmem
    rcases hmem with h1 | h1
    · exact absurd (hf m h1).2 hx
    · exact (hc m h1).2.1

theorem ok_of_completed (o : Outcome) (h : o.completed = true) : o = Outcome.ok o.game := by
  cases o with
  | ok g => rfl
  | panic g => cases h

theorem writeBoard_valid (g : Game) (p : Position) (v : Int)
    (h : IsValidPosition p = true) :
    ∃ b, writeBoard g p.Y p.X v = Outcome.ok { g with Board := b } := by
  simp only [writeBoard, set?_of_valid _ p v h]
  exact ⟨_, rfl⟩

theorem copyCell_valid (g : Game) (y dst src : Int)
    (hd : IsValidPosition ⟨dst, y⟩ = true) (hs : IsValidPosition ⟨src, y⟩ = true) :
    ∃ b, copyCell g y dst src = Outcome.ok { g with Board := b } := by
  simp only [copyCell, get?_of_valid g.Board ⟨src, y⟩ hs]
  exact writeBoard_valid g ⟨dst, y⟩ _ hd

/-- With both squares on the board `MakeMove` completes. -/
theorem MakeMove_completes (g : Game) (src dst : Position)
    (hs : IsValidPosition src = true) (hd : IsValidPosition dst = true) :
    ∃ g1, MakeMove g src dst = Outcome.ok g1 := by
  have hrow : ∀ x : Int, 0 ≤ x → x < 8 → IsValidPosition ⟨x, src.Y⟩ = true := by
    intro x h0 h8
    rw [valid_iff] at hs ⊢
    exact ⟨h0, h8, hs.2.2⟩
  have hcastle : ∀ (g0 : Game) (piece : Int),
      ∃ b, castleRook g0 piece src dst = Outcome.ok { g0 with Board := b } := by
    intro g0 piece
    simp only [castleRook]
    split_ifs
    · obtain ⟨b1, h1⟩ := copyCell_valid g0 src.Y 5 7 (hrow 5 (by decide) (by decide))
        (hrow 7 (by decide) (by decide))
      obtain ⟨b2, h2⟩ := writeBoard_valid { g0 with Board := b1 } ⟨7, src.Y⟩ Empty
        (hrow 7 (by decide) (by decide))
      exact ⟨b2, by rw [h1]; exact h2⟩
    · obtain ⟨b1, h1⟩ := copyCell_valid g0 src.Y 3 0 (hrow 3 (by decide) (by decide))
        (hrow 0 (by decide) (by decide))
      obtain ⟨b2, h2⟩ := writeBoard_valid { g0 with Board := b1 } ⟨0, src.Y⟩ Empty
        (hrow 0 (by decide) (by decide))
      exact ⟨b2, by rw [h1]; exact h2⟩
    · exact ⟨g0.Board, rfl⟩
  have hep : ∀ (g0 : Game) (piece : Int),
      ∃ b, captureEnPassant g0 piece src dst = Outcome.ok { g0 with Board := b } := by
    intro g0 piece
    simp only [captureEnPassant]
    split
    · exact ⟨g0.Board, rfl⟩
    · split_ifs
      · have hv : IsValidPosition ⟨dst.X, src.Y⟩ = true := by
          rw [valid_iff] at hd
          exact hrow dst.X hd.1 hd.2.1
        exact writeBoard_valid g0 ⟨dst.X, src.Y⟩ Empty hv
      · exact ⟨g0.Board, rfl⟩
  simp only [MakeMove, get?_of_valid g.Board src hs]
  obtain ⟨b1, h1⟩ := hcastle
    { g with HasMoved := fun p => if p = src then true else g.HasMoved p } (g.Board.at src)
  rw [h1]
  simp only [Outcome.andThen]
  obtain ⟨b2, h2⟩ := hep
    { g with Board := b1, HasMoved := fun p => if p = src then true else g.HasMoved p }
    (g.Board.at src)
  rw [h2]
  dsimp only
  obtain ⟨b3, h3⟩ := writeBoard_valid
    { g with Board := b2, HasMoved := fun p => if p = src then true else g.HasMoved p,
             EnPassantTarget := nextEnPassantTarget (g.Board.at src) src dst }
    dst (g.Board.at src) hd
  rw [h3]
  dsimp only
  obtain ⟨b4, h4⟩ := writeBoard_valid
    { g with Board := b3, HasMoved := fun p => if p = src then true else g.HasMoved p,
             EnPassantTarget := nextEnPassantTarget (g.Board.at src) src dst }
    src Empty hs
  rw [h4]
  exact ⟨_, rfl⟩

theorem en_passant_target_lives_one_move_witness :
    ∃ g1, NewGame.Board.get? 6 4 = some Pawn ∧
      MakeMove NewGame ⟨4, 6⟩ ⟨4, 4⟩ = Outcome.ok g1 ∧
      (((Pawn = Pawn ∨ Pawn = -Pawn) ∧ ((4 : Int) - 6 = 2 ∨ (4 : Int) - 6 = -2) →
        g1.EnPassantTarget = some ⟨4, ((6 : Int) + 4) / 2⟩) ∧
      (¬ ((Pawn = Pawn ∨ Pawn = -Pawn) ∧ ((4 : Int) - 6 = 2 ∨ (4 : Int) - 6 = -2)) →
        g1.EnPassantTarget = none ∧
        ∀ (pos : Position) (v : Int), g1.Board.get? pos.Y pos.X = some v →
          (v = Pawn ∨ v = -Pawn) →
          ∃ moves, GetPieceMoves g1.Board pos (some g1) = some moves ∧
            ∀ m ∈ moves, m.X ≠ pos.X → g1.Board.at m ≠ Empty)) := by
  obtain ⟨g1, h⟩ := MakeMove_completes NewGame ⟨4, 6⟩ ⟨4, 4⟩ (by decide) (by decide)
  exact ⟨g1, by decide, h,
    en_passant_target_lives_one_move NewGame g1 ⟨4, 6⟩ ⟨4, 4⟩ Pawn (by decide) h⟩

/-! ## En passant is offered after a double advance -/

theorem pawnEnPassant_mem (pos : Position) (color direction : Int) (g : Game)
    (target : Position) (ht : g.EnPassantTarget = some target) :
    ∀ m ∈ pawnEnPassant pos color direction (some g), m = target := by
  intro m hm
  simp only [pawnEnPassant, ht] at hm
  split_ifs at hm
  · simp only [List.mem_filterMap] at hm
    obtain ⟨dx, -, h⟩ := hm
    split_ifs at h
    injection h with h
    exact h.symm
  · cases hm

/-- C7. Let `MakeMove g src dst` complete, moving a pawn of side `A` two ranks along
its file from its home rank (rank `Y = 6` for White, `Y = 1` for Black), and let a pawn of
the other side stand on `p`, one file left or right of `dst` on the same rank, afterwards.
Then `GetPieceMoves` for `p` with the resulting game contains the passed-over square
`(dst.X, (src.Y + dst.Y) / 2)`, `GetLegalMovesWithState` returns, and it contains that
square too whenever that side is not in check on the copy of the board where the pawn
is relocated from `p` to it. -/
theorem en_passant_offered_after_double_advance (g g1 : Game) (src dst p : Position)
    (A : Int)
    (hpawn : g.Board.get? src.Y src.X = some (A * Pawn))
    (hhome : (A = White ∧ src.Y = 6) ∨ (A = Black ∧ src.Y = 1))
    (hfile : dst.X = src.X)
    (hranks : dst.Y - src.Y = 2 ∨ dst.Y - src.Y = -2)
    (hmove : MakeMove g src dst = Outcome.ok g1)
    (hp : p = ⟨dst.X - 1, dst.Y⟩ ∨ p = ⟨dst.X + 1, dst.Y⟩)
    (hB : g1.Board.get? p.Y p.X = some (-A * Pawn)) :
    ∃ moves legal, GetPieceMoves g1.Board p (some g1) = some moves ∧
      (⟨dst.X, (src.Y + dst.Y) / 2⟩ : Position) ∈ moves ∧
      GetLegalMovesWithState g1.Board p (some g1) = some legal ∧
      (IsKingInCheck (movedCopy g1.Board p ⟨dst.X, (src.Y + dst.Y) / 2⟩) (-A) = some false →
        (⟨dst.X, (src.Y + dst.Y) / 2⟩ : Position) ∈ legal) := by
  obtain ⟨piece, b, hpc, hd, hg1⟩ := MakeMove_ok g g1 src dst hmove
  rw [hpawn] at hpc
  injection hpc with hpc
  subst hpc
  have hs := get?_some_valid _ src _ hpawn
  have hpv := get?_some_valid _ p _ hB
  have hAp : A * Pawn = Pawn ∨ A * Pawn = -Pawn := by
    simp only [White, Black, Pawn] at hhome ⊢
    omega
  have hBp : -A * Pawn = Pawn ∨ -A * Pawn = -Pawn := by
    simp only [White, Black, Pawn] at hhome ⊢
    omega
  have hsign : sign (-A * Pawn) = -A := by
    rcases hhome with ⟨rfl, -⟩ | ⟨rfl, -⟩ <;> decide
  have hep : g1.EnPassantTarget = some ⟨dst.X, (src.Y + dst.Y) / 2⟩ := by
    rw [hg1]
    dsimp only
    rw [nextEnPassantTarget_eq _ src dst hs hd, if_pos ⟨hAp, hranks⟩]
  have hat : g1.Board.at p = -A * Pawn := get?_some_at _ p _ hB
  -- the target is among the en passant moves of the pawn on `p`
  have hin : (⟨dst.X, (src.Y + dst.Y) / 2⟩ : Position) ∈
      pawnEnPassant p (-A) (- -A) (some g1) := by
    have hdv := (valid_iff dst).1 hd
    rcases hhome with ⟨rfl, hy⟩ | ⟨rfl, hy⟩
    · have hdy : dst.Y = 4 := by omega
      have hmid : (src.Y + dst.Y) / 2 = 5 := by omega
      simp only [pawnEnPassant, hep, hmid]
      rcases hp with rfl | rfl
      · simp [hdy, White, boolToInt, List.filterMap_cons]
        split <;> simp
      · simp [hdy, White, boolToInt, List.filterMap_cons]
    · have hdy : dst.Y = 3 := by omega
      have hmid : (src.Y + dst.Y) / 2 = 2 := by omega
      simp only [pawnEnPassant, hep, hmid]
      rcases hp with rfl | rfl
      · simp [hdy, White, Black, boolToInt, List.filterMap_cons]
        split <;> simp
      · simp [hdy, White, Black, boolToInt, List.filterMap_cons]
  have htv : IsValidPosition ⟨dst.X, (src.Y + dst.Y) / 2⟩ = true := by
    have hdv := (valid_iff dst).1 hd
    have hsv := (valid_iff src).1 hs
    rw [valid_iff]
    dsimp only
    omega
  obtain ⟨f, c, hm, hf, hc⟩ := getPawnMoves_eq g1.Board p (-A) (some g1)
  have hmoves : GetPieceMoves g1.Board p (some g1) =
      some (f ++ c ++ pawnEnPassant p (-A) (- -A) (some g1)) := by
    rw [GetPieceMoves_pawn _ p _ _ hB hBp, hsign]
    exact hm
  have hall : ∀ m ∈ f ++ c ++ pawnEnPassant p (-A) (- -A) (some g1),
      IsValidPosition m = true := by
    intro m hmem
    simp only [List.mem_append] at hmem
    rcases hmem with (h | h) | h
    · exact (hf m h).1
    · exact (hc m h).1
    · rw [pawnEnPassant_mem p _ _ g1 _ hep m h]; exact htv
  have hlegal := filterLegal_eq g1.Board p _ hpv hall
  refine ⟨_, _, hmoves, List.mem_append_right _ hin,
    by simp only [GetLegalMovesWithState, hmoves]; exact hlegal, ?_⟩
  intro hsafe
  simp only [List.mem_filter, decide_eq_true_eq]
  refine ⟨List.mem_append_right _ hin, ?_⟩
  rw [hat, hsign]
  exact hsafe

theorem en_passant_offered_after_double_advance_witness :
    ∃ g1, pawnPairGame.Board.get? 1 3 = some (Black * Pawn) ∧
      MakeMove pawnPairGame ⟨3, 1⟩ ⟨3, 3⟩ = Outcome.ok g1 ∧
      g1.Board.get? 3 4 = some (-Black * Pawn) ∧
      ∃ moves legal, GetPieceMoves g1.Board ⟨4, 3⟩ (some g1) = some moves ∧
        (⟨3, ((1 : Int) + 3) / 2⟩ : Position) ∈ moves ∧
        GetLegalMovesWithState g1.Board ⟨4, 3⟩ (some g1) = some legal ∧
        (IsKingInCheck (movedCopy g1.Board ⟨4, 3⟩ ⟨3, ((1 : Int) + 3) / 2⟩) (-Black) =
            some false →
          (⟨3, ((1 : Int) + 3) / 2⟩ : Position) ∈ legal) :=
  have hc : (MakeMove pawnPairGame ⟨3, 1⟩ ⟨3, 3⟩).completed = true := by decide
  have hB : (MakeMove pawnPairGame ⟨3, 1⟩ ⟨3, 3⟩).game.Board.get? 3 4 =
      some (-Black * Pawn) := by decide
  ⟨_, by decide, ok_of_completed _ hc, hB,
    en_passant_offered_after_double_advance pawnPairGame _ ⟨3, 1⟩ ⟨3, 3⟩ ⟨4, 3⟩ Black
      (by decide) (Or.inr ⟨rfl, rfl⟩) rfl (Or.inl (by decide)) (ok_of_completed _ hc)
      (Or.inr (by decide)) hB⟩

/-! ## The moved flags and castling -/

theorem game_andThen (P : Game → Prop) (o : Outcome) (f : Game → Outcome)
    (ho : P o.game) (hf : ∀ g1, P g1 → P (f g1).game) : P (o.andThen f).game := by
  cases o with
  | ok g1 => exact hf g1 ho
  | panic g1 => exact ho

theorem writeBoard_game (g : Game) (y x v : Int) :
    ∃ b, (writeBoard g y x v).game = { g with Board := b } := by
  simp only [writeBoard]
  cases g.Board.set? y x v with
  | none => exact ⟨g.Board, rfl⟩
  | some b => exact ⟨b, rfl⟩

theorem copyCell_game (g : Game) (y dst src : Int) :
    ∃ b, (copyCell g y dst src).game = { g with Board := b } := by
  simp only [copyCell]
  cases g.Board.get? y src with
  | none => exact ⟨g.Board, rfl⟩
  | some v => exact writeBoard_game g y dst v

theorem castleRook_game (g : Game) (piece : Int) (src dst : Position) :
    ∃ b, (castleRook g piece src dst).game = { g with Board := b } := by
  simp only [castleRook]
  split_ifs
  · refine game_andThen (fun g' => ∃ b, g' = { g with Board := b }) _ _
      (copyCell_game g _ _ _) ?_
    rintro g1 ⟨b, rfl⟩
    exact writeBoard_game _ _ _ _
  · refine game_andThen (fun g' => ∃ b, g' = { g with Board := b }) _ _
      (copyCell_game g _ _ _) ?_
    rintro g1 ⟨b, rfl⟩
    exact writeBoard_game _ _ _ _
  · exact ⟨g.Board, rfl⟩

theorem captureEnPassant_game (g : Game) (piece : Int) (src dst : Position) :
    ∃ b, (captureEnPassant g piece src dst).game = { g with Board := b } := by
  simp only [captureEnPassant]
  split
  · exact ⟨g.Board, rfl⟩
  · split_ifs
    · exact writeBoard_game _ _ _ _
    · exact ⟨g.Board, rfl⟩

/-- No call of `MakeMove` resets a `HasMoved` entry, however the call ends. -/
theorem MakeMove_keeps_moved (g : Game) (src dst p : Position)
    (h : g.HasMoved p = true) : (MakeMove g src dst).game.HasMoved p = true := by
  simp only [MakeMove]
  cases g.Board.get? src.Y src.X with
  | none => exact h
  | some piece =>
    dsimp only
    have key : ∀ g' : Game, g'.HasMoved p = true → ∀ b, ({ g' with Board := b } : Game).HasMoved p = true :=
      fun _ h' _ => h'
    refine game_andThen (fun g' => g'.HasMoved p = true) _ _ ?_ ?_
    · obtain ⟨b, hb⟩ := castleRook_game
        { g with HasMoved := fun q => if q = src then true else g.HasMoved q } piece src dst
      rw [hb]
      dsimp only
      split_ifs
      · rfl
      · exact h
    · intro g1 h1
      refine game_andThen (fun g' => g'.HasMoved p = true) _ _ ?_ ?_
      · obtain ⟨b, hb⟩ := captureEnPassant_game g1 piece src dst
        rw [hb]; exact h1
      · intro g2 h2
        dsimp only
        refine game_andThen (fun g' => g'.HasMoved p = true) _ _ ?_ ?_
        · obtain ⟨b, hb⟩ := writeBoard_game
            { g2 with EnPassantTarget := nextEnPassantTarget piece src dst } dst.Y dst.X piece
          rw [hb]; exact h2
        · intro g4 h4
          refine game_andThen (fun g' => g'.HasMoved p = true) _ _ ?_ ?_
          · obtain ⟨b, hb⟩ := writeBoard_game g4 src.Y src.X Empty
            rw [hb]; exact h4
          · intro g5 h5
            exact h5

theorem MakeMoves_keeps_moved (moves : List (Position × Position)) :
    ∀ (g : Game) (p : Position), g.HasMoved p = true →
      (MakeMoves g moves).game.HasMoved p = true := by
  induction moves with
  | nil => intro g p h; exact h
  | cons mv rest ih =>
    intro g p h
    obtain ⟨src, dst⟩ := mv
    simp only [MakeMoves]
    exact game_andThen (fun g' => g'.HasMoved p = true) _ _
      (MakeMove_keeps_moved g src dst p h) (fun g1 h1 => ih g1 p h1)

theorem andAlso_false (b : Option Bool) : andAlso (some false) b = some false := rfl

theorem andAlso_total (a b : Option Bool) (ha : ∃ r, a = some r) (hb : ∃ r, b = some r) :
    ∃ r, andAlso a b = some r := by
  obtain ⟨ra, rfl⟩ := ha
  cases ra with
  | false => exact ⟨false, rfl⟩
  | true => exact hb

theorem cellEmpty_total (board : Board) (p : Position) (h : IsValidPosition p = true) :
    ∃ r, cellEmpty board p.Y p.X = some r := by
  simp only [cellEmpty, get?_of_valid board p h]
  exact ⟨_, rfl⟩

theorem notB_total (a : Option Bool) (ha : ∃ r, a = some r) : ∃ r, notB a = some r := by
  obtain ⟨r, rfl⟩ := ha
  exact ⟨_, rfl⟩

theorem wouldBeInCheck_total (board : Board) (src dst : Position) (color : Int)
    (hs : IsValidPosition src = true) (hd : IsValidPosition dst = true) :
    ∃ r, wouldBeInCheck board src dst color = some r := by
  simp only [wouldBeInCheck, relocate_eq board src dst hs hd]
  exact IsKingInCheck_total _ _

/-- The kingside test is `false` once the king's square or the corner `(7, y)` is flagged. -/
theorem kingsideCond_of_moved (board : Board) (pos : Position) (color : Int) (g : Game)
    (h : g.HasMoved pos = true ∨ g.HasMoved ⟨7, pos.Y⟩ = true) :
    kingsideCond board pos color g = some false := by
  simp only [kingsideCond]
  cases h1 : g.HasMoved pos with
  | true => rfl
  | false =>
    have h2 : g.HasMoved ⟨7, pos.Y⟩ = true := by
      rcases h with h | h
      · rw [h1] at h; cases h
      · exact h
    simp only [h2]
    rfl

/-- The queenside test is `false` once the king's square or the corner `(0, y)` is flagged. -/
theorem queensideCond_of_moved (board : Board) (pos : Position) (color : Int) (g : Game)
    (h : g.HasMoved pos = true ∨ g.HasMoved ⟨0, pos.Y⟩ = true) :
    queensideCond board pos color g = some false := by
  simp only [queensideCond]
  cases h1 : g.HasMoved pos with
  | true => rfl
  | false =>
    have h2 : g.HasMoved ⟨0, pos.Y⟩ = true := by
      rcases h with h | h
      · rw [h1] at h; cases h
      · exact h
    simp only [h2]
    rfl

theorem kingsideCond_total (board : Board) (pos : Position) (color : Int) (g : Game)
    (hp : IsValidPosition pos = true) (hn : IsValidPosition ⟨pos.X + 1, pos.Y⟩ = true) :
    ∃ r, kingsideCond board pos color g = some r := by
  have hrow : ∀ x : Int, 0 ≤ x → x < 8 → IsValidPosition ⟨x, pos.Y⟩ = true := by
    intro x h0 h8
    rw [valid_iff] at hp ⊢
    exact ⟨h0, h8, hp.2.2⟩
  simp only [kingsideCond]
  refine andAlso_total _ _ ⟨_, rfl⟩ (andAlso_total _ _ ⟨_, rfl⟩ ?_)
  refine andAlso_total _ _ (cellEmpty_total board ⟨5, pos.Y⟩ (hrow 5 (by decide) (by decide))) ?_
  refine andAlso_total _ _ (cellEmpty_total board ⟨6, pos.Y⟩ (hrow 6 (by decide) (by decide))) ?_
  refine andAlso_total _ _ (notB_total _ (IsKingInCheck_total _ _)) ?_
  exact notB_total _ (wouldBeInCheck_total board pos _ color hp hn)

theorem queensideCond_total (board : Board) (pos : Position) (color : Int) (g : Game)
    (hp : IsValidPosition pos = true) (hn : IsValidPosition ⟨pos.X - 1, pos.Y⟩ = true) :
    ∃ r, queensideCond board pos color g = some r := by
  have hrow : ∀ x : Int, 0 ≤ x → x < 8 → IsValidPosition ⟨x, pos.Y⟩ = true := by
    intro x h0 h8
    rw [valid_iff] at hp ⊢
    exact ⟨h0, h8, hp.2.2⟩
  simp only [queensideCond]
  refine andAlso_total _ _ ⟨_, rfl⟩ (andAlso_total _ _ ⟨_, rfl⟩ ?_)
  refine andAlso_total _ _ (cellEmpty_total board ⟨1, pos.Y⟩ (hrow 1 (by decide) (by decide))) ?_
  refine andAlso_total _ _ (cellEmpty_total board ⟨2, pos.Y⟩ (hrow 2 (by decide) (by decide))) ?_
  refine andAlso_total _ _ (cellEmpty_total board ⟨3, pos.Y⟩ (hrow 3 (by decide) (by decide))) ?_
  refine andAlso_total _ _ (notB_total _ (IsKingInCheck_total _ _)) ?_
  exact notB_total _ (wouldBeInCheck_total board pos _ color hp hn)

theorem GetPieceMoves_king (board : Board) (pos : Position) (game : Option Game) (v : Int)
    (hg : board.get? pos.Y pos.X = some v) (hk : v = King ∨ v = -King) :
    GetPieceMoves board pos game = getKingMoves board pos (sign v) game := by
  have h6 : abs v = King := (abs_eq_iff v King (by decide)).2 hk
  simp only [GetPieceMoves, pieceMovesWith, hg, h6]
  rw [if_neg (by decide), if_neg (by decide), if_neg (by decide), if_neg (by decide),
    if_neg (by decide), if_pos trivial]

/-- The shape of the king's move list once both castling tests have answered. -/
theorem getKingMoves_eq (board : Board) (pos : Position) (color : Int) (g : Game)
    (ks qs : Bool) (hks : kingsideCond board pos color g = some ks)
    (hqs : queensideCond board pos color g = some qs) :
    ∃ steps, kingStepMoves board pos color = some steps ∧
      (∀ m ∈ steps, ∃ d ∈ kingDirections, m = ⟨pos.X + d.1, pos.Y + d.2⟩) ∧
      getKingMoves board pos color (some g) =
        some ((steps ++ if ks then [⟨pos.X + 2, pos.Y⟩] else []) ++
          if qs then [⟨pos.X - 2, pos.Y⟩] else []) := by
  refine ⟨_, stepMoves_eq board pos color kingDirections, ?_, ?_⟩
  · intro m hm
    simp only [List.mem_filter, List.mem_map] at hm
    obtain ⟨⟨d, hd, rfl⟩, -⟩ := hm
    exact ⟨d, hd, rfl⟩
  · simp only [getKingMoves, kingStepMoves, stepMoves_eq, hks, hqs]
    cases ks <;> cases qs <;> simp

theorem king_step_file (d : Int × Int) (hd : d ∈ kingDirections) :
    d.1 = -1 ∨ d.1 = 0 ∨ d.1 = 1 := by
  simp only [kingDirections, List.mem_cons, List.mem_singleton, List.not_mem_nil,
    or_false] at hd
  rcases hd with h | h | h | h | h | h | h | h <;> rw [h] <;> simp

/-- C10. `MakeMove` never resets a `HasMoved` entry (however the call ends).  So once
a completed `MakeMove` has started from the corner `(rx, y)`, `rx = 7` or `rx = 0`, then
after any further completed sequence of `MakeMove` calls the corner is still flagged, and
for a king standing on `(4, y)` `GetPieceMoves` with that game returns a list without the
kingside castling square `(6, y)` when `rx = 7`, and without the queenside castling square
`(2, y)` when `rx = 0`. -/
theorem rook_move_disables_castling (g g1 g2 : Game) (y rx : Int) (dst : Position)
    (rest : List (Position × Position))
    (hrx : rx = 7 ∨ rx = 0)
    (h1 : MakeMove g ⟨rx, y⟩ dst = Outcome.ok g1)
    (h2 : MakeMoves g1 rest = Outcome.ok g2)
    (hking : g2.Board.get? y 4 = some King ∨ g2.Board.get? y 4 = some (-King)) :
    (∀ (h : Game) (s d p : Position), h.HasMoved p = true →
      (MakeMove h s d).game.HasMoved p = true) ∧
    g2.HasMoved ⟨rx, y⟩ = true ∧
    ∃ moves, GetPieceMoves g2.Board ⟨4, y⟩ (some g2) = some moves ∧
      (rx = 7 → (⟨6, y⟩ : Position) ∉ moves) ∧ (rx = 0 → (⟨2, y⟩ : Position) ∉ moves) := by
  refine ⟨fun h s d p hp => MakeMove_keeps_moved h s d p hp, ?_⟩
  have hm1 : g1.HasMoved ⟨rx, y⟩ = true := by
    obtain ⟨piece, b, -, -, hg1⟩ := MakeMove_ok g g1 _ dst h1
    rw [hg1]
    simp
  have hm2 : g2.HasMoved ⟨rx, y⟩ = true := by
    have := MakeMoves_keeps_moved rest g1 ⟨rx, y⟩ hm1
    rw [h2] at this
    exact this
  refine ⟨hm2, ?_⟩
  obtain ⟨v, hv, hk⟩ : ∃ v, g2.Board.get? y 4 = some v ∧ (v = King ∨ v = -King) := by
    rcases hking with h | h
    · exact ⟨_, h, Or.inl rfl⟩
    · exact ⟨_, h, Or.inr rfl⟩
  have hpos : IsValidPosition ⟨4, y⟩ = true := get?_some_valid g2.Board ⟨4, y⟩ v hv
  have hrow : ∀ x : Int, 0 ≤ x → x < 8 → IsValidPosition ⟨x, y⟩ = true := by
    intro x h0 h8
    rw [valid_iff] at hpos ⊢
    exact ⟨h0, h8, hpos.2.2⟩
  obtain ⟨ks, hks⟩ := kingsideCond_total g2.Board ⟨4, y⟩ (sign v) g2 hpos
    (hrow (4 + 1) (by decide) (by decide))
  obtain ⟨qs, hqs⟩ := queensideCond_total g2.Board ⟨4, y⟩ (sign v) g2 hpos
    (hrow (4 - 1) (by decide) (by decide))
  obtain ⟨steps, -, hsteps, hmoves⟩ := getKingMoves_eq g2.Board ⟨4, y⟩ (sign v) g2 ks qs hks hqs
  have hnot : ∀ x : Int, (x = 6 ∨ x = 2) → (⟨x, y⟩ : Position) ∉ steps := by
    intro x hx hmem
    obtain ⟨d, hd, he⟩ := hsteps _ hmem
    have hf := king_step_file d hd
    injection he with hex hey
    dsimp only at hex
    omega
  refine ⟨_, by rw [GetPieceMoves_king _ ⟨4, y⟩ _ v hv hk]; exact hmoves, ?_, ?_⟩
  · intro h7
    subst h7
    have : ks = false := by
      have := kingsideCond_of_moved g2.Board ⟨4, y⟩ (sign v) g2 (Or.inr hm2)
      rw [hks] at this
      injection this
    subst this
    intro hmem
    simp only [List.mem_append, Bool.false_eq_true, if_false, List.not_mem_nil, or_false] at hmem
    rcases hmem with h | h
    · exact hnot 6 (Or.inl rfl) h
    · split_ifs at h
      · simp at h
      · cases h
  · intro h0
    subst h0
    have : qs = false := by
      have := queensideCond_of_moved g2.Board ⟨4, y⟩ (sign v) g2 (Or.inr hm2)
      rw [hqs] at this
      injection this
    subst this
    intro hmem
    simp only [List.mem_append, Bool.false_eq_true, if_false, List.not_mem_nil, or_false] at hmem
    rcases hmem with h | h
    · exact hnot 2 (Or.inr rfl) h
    · split_ifs at h
      · simp at h
      · cases h

theorem rook_move_disables_castling_witness :
    ∃ g1 g2, MakeMove rookCornerGame ⟨7, 7⟩ ⟨7, 6⟩ = Outcome.ok g1 ∧
      MakeMoves g1 [(⟨4, 0⟩, ⟨3, 0⟩), (⟨7, 6⟩, ⟨7, 7⟩), (⟨3, 0⟩, ⟨4, 0⟩)] = Outcome.ok g2 ∧
      g2.Board.get? 7 7 = some Rook ∧ g2.Board.get? 7 4 = some King ∧
      (∀ (h : Game) (s d p : Position), h.HasMoved p = true →
        (MakeMove h s d).game.HasMoved p = true) ∧
      g2.HasMoved ⟨7, 7⟩ = true ∧
      ∃ moves, GetPieceMoves g2.Board ⟨4, 7⟩ (some g2) = some moves ∧
        ((7 : Int) = 7 → (⟨6, 7⟩ : Position) ∉ moves) ∧
        ((7 : Int) = 0 → (⟨2, 7⟩ : Position) ∉ moves) :=
  have c1 : (MakeMove rookCornerGame ⟨7, 7⟩ ⟨7, 6⟩).completed = true := by decide
  have c2 : (MakeMoves (MakeMove rookCornerGame ⟨7, 7⟩ ⟨7, 6⟩).game
      [(⟨4, 0⟩, ⟨3, 0⟩), (⟨7, 6⟩, ⟨7, 7⟩), (⟨3, 0⟩, ⟨4, 0⟩)]).completed = true := by decide
  have hk : (MakeMoves (MakeMove rookCornerGame ⟨7, 7⟩ ⟨7, 6⟩).game
      [(⟨4, 0⟩, ⟨3, 0⟩), (⟨7, 6⟩, ⟨7, 7⟩), (⟨3, 0⟩, ⟨4, 0⟩)]).game.Board.get? 7 4 =
        some King := by decide
  ⟨_, _, ok_of_completed _ c1, ok_of_completed _ c2, by decide, hk,
    rook_move_disables_castling rookCornerGame _ _ 7 7 ⟨7, 6⟩ _ (Or.inl rfl)
      (ok_of_completed _ c1) (ok_of_completed _ c2) (Or.inl hk)⟩

/-! ## Castling offered to a king that has left its home square -/

/-- C9 (fails on the code). After the legal opening `strayKingLine`, played from
`NewGame` through the engine's own legal-move lists, the white king stands on d1 = `(3, 7)`
and a white knight on e1 = `(4, 7)`; neither d1 nor the corner h1 is flagged in `HasMoved`;
and `GetPieceMoves` for the king, as well as `GetLegalMovesWithState`, contains
`(5, 7)`, the square two files towards the kingside corner, although e1, strictly between
the king's square and the corner `(7, 7)`, is not empty. -/
theorem castling_offered_with_occupied_square_between :
    ∃ g moves legal, playOffered NewGame strayKingLine = some g ∧
      g.Board.get? 7 3 = some (White * King) ∧
      g.Board.get? 7 4 = some Knight ∧
      g.Board.get? 7 7 = some Rook ∧
      g.HasMoved ⟨3, 7⟩ = false ∧ g.HasMoved ⟨7, 7⟩ = false ∧
      GetPieceMoves g.Board ⟨3, 7⟩ (some g) = some moves ∧
      (⟨3 + 2, 7⟩ : Position) ∈ moves ∧
      GetLegalMovesWithState g.Board ⟨3, 7⟩ (some g) = some legal ∧
      (⟨3 + 2, 7⟩ : Position) ∈ legal := by
  have h : (match playOffered NewGame strayKingLine with
      | none => false
      | some g =>
        decide (g.Board.get? 7 3 = some (White * King)) &&
        decide (g.Board.get? 7 4 = some Knight) &&
        decide (g.Board.get? 7 7 = some Rook) &&
        decide (g.HasMoved ⟨3, 7⟩ = false) && decide (g.HasMoved ⟨7, 7⟩ = false) &&
        (match GetPieceMoves g.Board ⟨3, 7⟩ (some g),
            GetLegalMovesWithState g.Board ⟨3, 7⟩ (some g) with
          | some moves, some legal =>
            decide ((⟨3 + 2, 7⟩ : Position) ∈ moves) && decide ((⟨3 + 2, 7⟩ : Position) ∈ legal)
          | _, _ => false)) = true := by decide!
  revert h
  cases playOffered NewGame strayKingLine with
  | none => intro h; cases h
  | some g =>
    dsimp only
    cases hm : GetPieceMoves g.Board ⟨3, 7⟩ (some g) with
    | none => intro h; simp at h
    | some moves =>
      cases hl : GetLegalMovesWithState g.Board ⟨3, 7⟩ (some g) with
      | none => intro h; simp at h
      | some legal =>
        intro h
        simp only [Bool.and_eq_true, decide_eq_true_eq] at h
        obtain ⟨⟨⟨⟨⟨h1, h2⟩, h3⟩, h4⟩, h5⟩, h6, h7⟩ := h
        exact ⟨g, moves, legal, rfl, h1, h2, h3, h4, h5, hm, h6, hl, h7⟩

theorem andAlso_eq_true (a b : Option Bool) :
    andAlso a b = some true ↔ a = some true ∧ b = some true := by
  cases a with
  | none => simp [andAlso]
  | some r => cases r <;> simp [andAlso]

theorem notB_eq_true (a : Option Bool) : notB a = some true ↔ a = some false := by
  cases a with
  | none => simp [notB]
  | some r => cases r <;> simp [notB]

theorem cellEmpty_eq_true (board : Board) (p : Position) :
    cellEmpty board p.Y p.X = some true ↔ board.get? p.Y p.X = some Empty := by
  simp only [cellEmpty]
  cases board.get? p.Y p.X with
  | none => simp
  | some v => simp

/-- What the kingside test of `getKingMoves` establishes when it succeeds: both flags
clear, files 5 and 6 of the king's rank empty, no check, and no check with the king alone
relocated one file towards the kingside. -/
theorem kingsideCond_true (board : Board) (pos : Position) (color : Int) (g : Game)
    (hp : IsValidPosition pos = true) (hn : IsValidPosition ⟨pos.X + 1, pos.Y⟩ = true)
    (h : kingsideCond board pos color g = some true) :
    g.HasMoved pos = false ∧ g.HasMoved ⟨7, pos.Y⟩ = false ∧
    board.get? pos.Y 5 = some Empty ∧ board.get? pos.Y 6 = some Empty ∧
    IsKingInCheck board color = some false ∧
    IsKingInCheck (movedCopy board pos ⟨pos.X + 1, pos.Y⟩) color = some false := by
  simp only [kingsideCond, andAlso_eq_true, notB_eq_true] at h
  obtain ⟨h1, h2, h3, h4, h5, h6⟩ := h
  have e3 := (cellEmpty_eq_true board ⟨5, pos.Y⟩).1 h3
  have e4 := (cellEmpty_eq_true board ⟨6, pos.Y⟩).1 h4
  simp only [wouldBeInCheck, relocate_eq board pos _ hp hn] at h6
  refine ⟨?_, ?_, e3, e4, h5, h6⟩
  · cases hm : g.HasMoved pos with
    | false => rfl
    | true => rw [hm] at h1; simp at h1
  · cases hm : g.HasMoved ⟨7, pos.Y⟩ with
    | false => rfl
    | true => rw [hm] at h2; simp at h2

/-- What the queenside test of `getKingMoves` establishes when it succeeds: both flags
clear, files 1, 2 and 3 of the king's rank empty, no check, and no check with the king
alone relocated one file towards the queenside. -/
theorem queensideCond_true (board : Board) (pos : Position) (color : Int) (g : Game)
    (hp : IsValidPosition pos = true) (hn : IsValidPosition ⟨pos.X - 1, pos.Y⟩ = true)
    (h : queensideCond board pos color g = some true) :
    g.HasMoved pos = false ∧ g.HasMoved ⟨0, pos.Y⟩ = false ∧
    board.get? pos.Y 1 = some Empty ∧ board.get? pos.Y 2 = some Empty ∧
    board.get? pos.Y 3 = some Empty ∧
    IsKingInCheck board color = some false ∧
    IsKingInCheck (movedCopy board pos ⟨pos.X - 1, pos.Y⟩) color = some false := by
  simp only [queensideCond, andAlso_eq_true, notB_eq_true] at h
  obtain ⟨h1, h2, h3, h4, h5, h6, h7⟩ := h
  have e3 := (cellEmpty_eq_true board ⟨1, pos.Y⟩).1 h3
  have e4 := (cellEmpty_eq_true board ⟨2, pos.Y⟩).1 h4
  have e5 := (cellEmpty_eq_true board ⟨3, pos.Y⟩).1 h5
  simp only [wouldBeInCheck, relocate_eq board pos _ hp hn] at h7
  refine ⟨?_, ?_, e3, e4, e5, h6, h7⟩
  · cases hm : g.HasMoved pos with
    | false => rfl
    | true => rw [hm] at h1; simp at h1
  · cases hm : g.HasMoved ⟨0, pos.Y⟩ with
    | false => rfl
    | true => rw [hm] at h2; simp at h2

/-- For a king on file 4 the four castling conditions do hold whenever a square two files
away on its rank is generated: the flags of the king's square and of the corner are clear,
every square strictly between them is empty, the king is not in check and is not in check
on the transit square. -/
theorem castling_conditions_on_home_file (board : Board) (y c : Int) (g : Game)
    (moves : List Position)
    (hc : c = White ∨ c = Black)
    (hking : board.get? y 4 = some (c * King))
    (hmoves : GetPieceMoves board ⟨4, y⟩ (some g) = some moves) :
    ((⟨4 + 2, y⟩ : Position) ∈ moves →
      g.HasMoved ⟨4, y⟩ = false ∧ g.HasMoved ⟨7, y⟩ = false ∧
      board.get? y 5 = some Empty ∧ board.get? y 6 = some Empty ∧
      IsKingInCheck board c = some false ∧
      IsKingInCheck (movedCopy board ⟨4, y⟩ ⟨4 + 1, y⟩) c = some false) ∧
    ((⟨4 - 2, y⟩ : Position) ∈ moves →
      g.HasMoved ⟨4, y⟩ = false ∧ g.HasMoved ⟨0, y⟩ = false ∧
      board.get? y 1 = some Empty ∧ board.get? y 2 = some Empty ∧
      board.get? y 3 = some Empty ∧
      IsKingInCheck board c = some false ∧
      IsKingInCheck (movedCopy board ⟨4, y⟩ ⟨4 - 1, y⟩) c = some false) := by
  have hpos : IsValidPosition ⟨4, y⟩ = true := get?_some_valid board ⟨4, y⟩ _ hking
  have hrow : ∀ x : Int, 0 ≤ x → x < 8 → IsValidPosition ⟨x, y⟩ = true := by
    intro x h0 h8
    rw [valid_iff] at hpos ⊢
    exact ⟨h0, h8, hpos.2.2⟩
  have hk : c * King = King ∨ c * King = -King := by
    rcases hc with rfl | rfl <;> decide
  have hsign : sign (c * King) = c := by
    rcases hc with rfl | rfl <;> decide
  have hr := hrow (4 + 1) (by decide) (by decide)
  have hl := hrow (4 - 1) (by decide) (by decide)
  obtain ⟨ks, hks⟩ := kingsideCond_total board ⟨4, y⟩ c g hpos hr
  obtain ⟨qs, hqs⟩ := queensideCond_total board ⟨4, y⟩ c g hpos hl
  obtain ⟨steps, -, hsteps, hm⟩ := getKingMoves_eq board ⟨4, y⟩ c g ks qs hks hqs
  rw [GetPieceMoves_king _ ⟨4, y⟩ _ _ hking hk, hsign, hm] at hmoves
  injection hmoves with hmoves
  subst hmoves
  have hnot : ∀ x : Int, (x = 4 + 2 ∨ x = 4 - 2) → (⟨x, y⟩ : Position) ∉ steps := by
    intro x hx hmem
    obtain ⟨d, hd, he⟩ := hsteps _ hmem
    have hf := king_step_file d hd
    injection he with hex hey
    dsimp only at hex
    omega
  constructor
  · intro hmem
    have hkt : ks = true := by
      cases ks with
      | true => rfl
      | false =>
        simp only [List.mem_append, Bool.false_eq_true, if_false, List.not_mem_nil,
          or_false] at hmem
        rcases hmem with h | h
        · exact absurd h (hnot _ (Or.inl rfl))
        · split_ifs at h
          · simp at h
          · cases h
    rw [hkt] at hks
    exact kingsideCond_true board ⟨4, y⟩ c g hpos hr hks
  · intro hmem
    have hqt : qs = true := by
      cases qs with
      | true => rfl
      | false =>
        simp only [List.mem_append, Bool.false_eq_true, if_false, List.not_mem_nil,
          or_false] at hmem
        rcases hmem with h | h
        · exact absurd h (hnot _ (Or.inr rfl))
        · split_ifs at h
          · simp at h
          · cases h
    rw [hqt] at hqs
    exact queensideCond_true board ⟨4, y⟩ c g hpos hl hqs

/-! ## The two legal-move variants -/

theorem pawnEnPassant_no_target (pos : Position) (color direction : Int) (g : Game)
    (h : g.EnPassantTarget = none) : pawnEnPassant pos color direction (some g) = [] := by
  simp only [pawnEnPassant, h]

theorem getKingMoves_no_castling (board : Board) (pos : Position) (color : Int) (g : Game)
    (hks : kingsideCond board pos color g = some false)
    (hqs : queensideCond board pos color g = some false) :
    getKingMoves board pos color (some g) = kingStepMoves board pos color := by
  simp only [getKingMoves, hks, hqs]
  cases kingStepMoves board pos color <;> simp

/-- Without an en passant target and without a castling test that succeeds, the game
context adds nothing to the pseudo-moves. -/
theorem GetPieceMoves_context_free (board : Board) (pos : Position) (g : Game)
    (hep : g.EnPassantTarget = none)
    (hk : (board.at pos ≠ King ∧ board.at pos ≠ -King) ∨
      (kingsideCond board pos (sign (board.at pos)) g = some false ∧
        queensideCond board pos (sign (board.at pos)) g = some false)) :
    GetPieceMoves board pos (some g) = GetPieceMoves board pos none := by
  simp only [GetPieceMoves, pieceMovesWith]
  cases hv : board.get? pos.Y pos.X with
  | none => rfl
  | some v =>
    have hat : board.at pos = v := get?_some_at board pos v hv
    rw [hat] at hk
    dsimp only
    have hpawn : getPawnMoves board pos (sign v) (some g) =
        getPawnMoves board pos (sign v) none := by
      have e1 := pawnEnPassant_no_target pos (sign v) (-sign v) g hep
      have e2 : pawnEnPassant pos (sign v) (-sign v) none = [] := rfl
      simp only [getPawnMoves, e1, e2]
    rw [hpawn]
    by_cases h6 : abs v = King
    · have hking : v = King ∨ v = -King := (abs_eq_iff v King (by decide)).1 h6
      have hc : kingsideCond board pos (sign v) g = some false ∧
          queensideCond board pos (sign v) g = some false := by
        rcases hk with ⟨h1, h2⟩ | h
        · rcases hking with h | h
          · exact absurd h h1
          · exact absurd h h2
        · exact h
      rw [getKingMoves_no_castling board pos (sign v) g hc.1 hc.2]
      have : getKingMoves board pos (sign v) none = kingStepMoves board pos (sign v) := by
        simp only [getKingMoves]
        cases kingStepMoves board pos (sign v) <;> rfl
      rw [this]
    · simp only [if_neg h6]

/-- Where both castling tests answer, the two legal-move variants agree: if the game has no
en passant target and either the piece on `pos` is not a king, or `HasMoved` is set for
`pos`, or both castling tests of `getKingMoves` come out false, then
`GetLegalMovesWithState board pos g` equals `GetLegalMoves board pos` as a sequence; and
with a nil game `GetLegalMovesWithState` equals `GetLegalMoves` for every board and
square.  A castling test that does not answer (a king on file 0 or 7) is not covered. -/
theorem legal_move_variants_agree (board : Board) (pos : Position) (g : Game)
    (hep : g.EnPassantTarget = none)
    (hk : (board.at pos ≠ King ∧ board.at pos ≠ -King) ∨ g.HasMoved pos = true ∨
      (kingsideCond board pos (sign (board.at pos)) g = some false ∧
        queensideCond board pos (sign (board.at pos)) g = some false)) :
    GetLegalMovesWithState board pos (some g) = GetLegalMoves board pos ∧
    ∀ (b : Board) (p : Position), GetLegalMovesWithState b p none = GetLegalMoves b p := by
  refine ⟨?_, fun b p => rfl⟩
  have hk2 : (board.at pos ≠ King ∧ board.at pos ≠ -King) ∨
      (kingsideCond board pos (sign (board.at pos)) g = some false ∧
        queensideCond board pos (sign (board.at pos)) g = some false) := by
    rcases hk with h | h | h
    · exact Or.inl h
    · exact Or.inr ⟨kingsideCond_of_moved board pos _ g (Or.inl h),
        queensideCond_of_moved board pos _ g (Or.inl h)⟩
    · exact Or.inr h
  simp only [GetLegalMovesWithState, GetLegalMoves,
    GetPieceMoves_context_free board pos g hep hk2]

theorem legal_move_variants_agree_witness :
    NewGame.EnPassantTarget = none ∧
    ((initialBoard.at ⟨4, 7⟩ ≠ King ∧ initialBoard.at ⟨4, 7⟩ ≠ -King) ∨
      NewGame.HasMoved ⟨4, 7⟩ = true ∨
      (kingsideCond initialBoard ⟨4, 7⟩ (sign (initialBoard.at ⟨4, 7⟩)) NewGame = some false ∧
        queensideCond initialBoard ⟨4, 7⟩ (sign (initialBoard.at ⟨4, 7⟩)) NewGame =
          some false)) ∧
    GetLegalMovesWithState initialBoard ⟨4, 7⟩ (some NewGame) =
      GetLegalMoves initialBoard ⟨4, 7⟩ ∧
    ∀ (b : Board) (p : Position), GetLegalMovesWithState b p none = GetLegalMoves b p :=
  ⟨rfl, by decide, legal_move_variants_agree initialBoard ⟨4, 7⟩ NewGame rfl (by decide)⟩

/-- C11 (fails on the code). After the legal opening `cornerKingLine`, played from
`NewGame` through the engine's own legal-move lists, there is no en passant target and no
castling is available to the white king, which has left its home square e1 = `(4, 7)`
(flagged in `HasMoved`) and stands on h1 = `(7, 7)`.  `GetLegalMoves` for the king returns
`[(6, 6), (6, 7)]`, and so does `GetLegalMovesWithState` without a game; with the game as
context `GetLegalMovesWithState` does not return, because the kingside castling test
relocates the king to file 8. -/
theorem legal_move_variants_differ_for_corner_king :
    ∃ g, playOffered NewGame cornerKingLine = some g ∧
      IsValidPosition ⟨7, 7⟩ = true ∧
      g.EnPassantTarget = none ∧
      g.Board.get? 7 7 = some (White * King) ∧
      g.Board.get? 7 4 = some Empty ∧
      g.HasMoved ⟨4, 7⟩ = true ∧
      GetLegalMoves g.Board ⟨7, 7⟩ = some [⟨6, 6⟩, ⟨6, 7⟩] ∧
      GetLegalMovesWithState g.Board ⟨7, 7⟩ none = some [⟨6, 6⟩, ⟨6, 7⟩] ∧
      GetLegalMovesWithState g.Board ⟨7, 7⟩ (some g) = none := by
  have h : (match playOffered NewGame cornerKingLine with
      | none => false
      | some g =>
        decide (g.EnPassantTarget = none) &&
        decide (g.Board.get? 7 7 = some (White * King)) &&
        decide (g.Board.get? 7 4 = some Empty) &&
        decide (g.HasMoved ⟨4, 7⟩ = true) &&
        decide (GetLegalMoves g.Board ⟨7, 7⟩ = some [⟨6, 6⟩, ⟨6, 7⟩]) &&
        decide (GetLegalMovesWithState g.Board ⟨7, 7⟩ none = some [⟨6, 6⟩, ⟨6, 7⟩]) &&
        decide (GetLegalMovesWithState g.Board ⟨7, 7⟩ (some g) = none)) = true := by
    decide!
  revert h
  cases playOffered NewGame cornerKingLine with
  | none => intro h; cases h
  | some g =>
    intro h
    simp only [Bool.and_eq_true, decide_eq_true_eq] at h
    obtain ⟨⟨⟨⟨⟨⟨h1, h2⟩, h3⟩, h4⟩, h5⟩, h6⟩, h7⟩ := h
    exact ⟨g, rfl, by decide, h1, h2, h3, h4, h5, h6, h7⟩

/-! ## Squares outside the board -/

theorem set?_put (board : Board) (p : Position) (v : Int) (h : IsValidPosition p = true) :
    board.set? p.Y p.X v = some (board.put p v) :=
  set?_of_valid board p v h

theorem at_put (board : Board) (p q : Position) (v : Int) (hp : IsValidPosition p = true) :
    (board.put p v).at q = if q = p then v else board.at q := by
  cases hq : IsValidPosition q with
  | false =>
    have hne : q ≠ p := by
      intro e
      rw [e, hp] at hq
      cases hq
    simp only [Board.at, get?_of_invalid _ q hq, if_neg hne]
  | true =>
    have hv := (valid_iff q).1 hq
    have h2 : 0 ≤ q.Y ∧ q.Y < 8 ∧ 0 ≤ q.X ∧ q.X < 8 := ⟨hv.2.2.1, hv.2.2.2, hv.1, hv.2.1⟩
    have e : (p.Y = ((q.Y.toNat : Nat) : Int) ∧ p.X = ((q.X.toNat : Nat) : Int)) ↔ q = p := by
      rw [Int.toNat_of_nonneg hv.2.2.1, Int.toNat_of_nonneg hv.1]
      constructor
      · rintro ⟨h1, h2⟩
        cases p; cases q
        simp only [Position.mk.injEq]
        exact ⟨h2.symm, h1.symm⟩
      · rintro rfl
        exact ⟨rfl, rfl⟩
    simp only [Board.at, Board.get?, dif_pos h2, Board.put]
    by_cases hc : q = p
    · rw [if_pos hc, if_pos (e.2 hc)]
    · rw [if_neg hc, if_neg (fun h => hc (e.1 h))]

theorem writeBoard_eq (g : Game) (p : Position) (v : Int) (h : IsValidPosition p = true) :
    writeBoard g p.Y p.X v = Outcome.ok { g with Board := g.Board.put p v } := by
  simp only [writeBoard, set?_put g.Board p v h]

theorem row_valid (p : Position) (x : Int) (hp : IsValidPosition p = true)
    (h0 : 0 ≤ x) (h8 : x < 8) : IsValidPosition ⟨x, p.Y⟩ = true := by
  rw [valid_iff] at hp ⊢
  exact ⟨h0, h8, hp.2.2⟩

/-- The castling block on a board row that exists: the rook cell is copied next to the
king's destination and the corner is cleared. -/
theorem castleRook_eq (g : Game) (piece : Int) (src dst : Position)
    (hs : IsValidPosition src = true) :
    castleRook g piece src dst = Outcome.ok { g with Board :=
      (if abs piece = King ∧ abs (dst.X - src.X) = 2 then
        if dst.X > src.X then
          (g.Board.put ⟨5, src.Y⟩ (g.Board.at ⟨7, src.Y⟩)).put ⟨7, src.Y⟩ Empty
        else (g.Board.put ⟨3, src.Y⟩ (g.Board.at ⟨0, src.Y⟩)).put ⟨0, src.Y⟩ Empty
      else g.Board) } := by
  have v0 := row_valid src 0 hs (by decide) (by decide)
  have v3 := row_valid src 3 hs (by decide) (by decide)
  have v5 := row_valid src 5 hs (by decide) (by decide)
  have v7 := row_valid src 7 hs (by decide) (by decide)
  simp only [castleRook]
  by_cases hc : abs piece = King ∧ abs (dst.X - src.X) = 2
  · rw [if_pos hc, if_pos hc]
    by_cases hx : dst.X > src.X
    · rw [if_pos hx, if_pos hx]
      simp only [copyCell, get?_of_valid g.Board ⟨7, src.Y⟩ v7]
      rw [writeBoard_eq g ⟨5, src.Y⟩ _ v5]
      simp only [Outcome.andThen]
      rw [writeBoard_eq _ ⟨7, src.Y⟩ _ v7]
    · rw [if_neg hx, if_neg hx]
      simp only [copyCell, get?_of_valid g.Board ⟨0, src.Y⟩ v0]
      rw [writeBoard_eq g ⟨3, src.Y⟩ _ v3]
      simp only [Outcome.andThen]
      rw [writeBoard_eq _ ⟨0, src.Y⟩ _ v0]
  · rw [if_neg hc, if_neg hc]

/-- The en passant capture block with both squares on the board. -/
theorem captureEnPassant_eq (g : Game) (piece : Int) (src dst : Position)
    (hs : IsValidPosition src = true) (hd : IsValidPosition dst = true) :
    captureEnPassant g piece src dst = Outcome.ok { g with Board :=
      (if abs piece = Pawn ∧ g.EnPassantTarget = some dst then
        g.Board.put ⟨dst.X, src.Y⟩ Empty
      else g.Board) } := by
  have hv : IsValidPosition ⟨dst.X, src.Y⟩ = true := by
    have := (valid_iff dst).1 hd
    exact row_valid src dst.X hs this.1 this.2.1
  obtain ⟨b, sp, tn, vm, st, tick, hm, lm, ep⟩ := g
  simp only [captureEnPassant]
  cases ep with
  | none => simp
  | some target =>
    dsimp only
    have e : (abs piece = Pawn ∧ dst.X = target.X ∧ dst.Y = target.Y) ↔
        (abs piece = Pawn ∧ some target = some dst) := by
      constructor
      · rintro ⟨h1, h2, h3⟩
        refine ⟨h1, ?_⟩
        cases target; cases dst
        simp only [Option.some.injEq, Position.mk.injEq]
        exact ⟨h2.symm, h3.symm⟩
      · rintro ⟨h1, h2⟩
        injection h2 with h2
        rw [h2]
        exact ⟨h1, rfl, rfl⟩
    by_cases hc : abs piece = Pawn ∧ dst.X = target.X ∧ dst.Y = target.Y
    · rw [if_pos hc, if_pos (e.1 hc)]
      exact writeBoard_eq _ ⟨dst.X, src.Y⟩ Empty hv
    · rw [if_neg hc, if_neg (fun h => hc (e.2 h))]

/-- With both squares on the board `MakeMove` completes, and this is the game it leaves:
the rook step, the en passant capture, then `dst` written and `src` cleared. -/
theorem MakeMove_eq (g : Game) (src dst : Position)
    (hs : IsValidPosition src = true) (hd : IsValidPosition dst = true) :
    MakeMove g src dst = Outcome.ok { g with
      Board :=
        (((if abs (g.Board.at src) = Pawn ∧ g.EnPassantTarget = some dst then
            (if abs (g.Board.at src) = King ∧ abs (dst.X - src.X) = 2 then
              if dst.X > src.X then
                (g.Board.put ⟨5, src.Y⟩ (g.Board.at ⟨7, src.Y⟩)).put ⟨7, src.Y⟩ Empty
              else (g.Board.put ⟨3, src.Y⟩ (g.Board.at ⟨0, src.Y⟩)).put ⟨0, src.Y⟩ Empty
            else g.Board).put ⟨dst.X, src.Y⟩ Empty
          else
            (if abs (g.Board.at src) = King ∧ abs (dst.X - src.X) = 2 then
              if dst.X > src.X then
                (g.Board.put ⟨5, src.Y⟩ (g.Board.at ⟨7, src.Y⟩)).put ⟨7, src.Y⟩ Empty
              else (g.Board.put ⟨3, src.Y⟩ (g.Board.at ⟨0, src.Y⟩)).put ⟨0, src.Y⟩ Empty
            else g.Board)).put dst (g.Board.at src)).put src Empty)
      HasMoved := fun p => if p = src then true else g.HasMoved p
      EnPassantTarget := nextEnPassantTarget (g.Board.at src) src dst
      LastMove := ⟨src, dst, g.Board.at src⟩
      Turn := !g.Turn } := by
  simp only [MakeMove, get?_of_valid g.Board src hs]
  rw [castleRook_eq _ _ src dst hs]
  simp only [Outcome.andThen]
  rw [captureEnPassant_eq _ _ src dst hs hd]
  dsimp only
  rw [writeBoard_eq _ dst _ hd]
  dsimp only
  rw [writeBoard_eq _ src _ hs]

theorem abs_king (k : Int) (hk : k = King ∨ k = -King) : abs k = King :=
  (abs_eq_iff k King (by decide)).2 hk

theorem abs_pawn (v : Int) (hv : v = Pawn ∨ v = -Pawn) : abs v = Pawn :=
  (abs_eq_iff v Pawn (by decide)).2 hv

/-- C13. Applying a castling move relocates the rook.  For every game with a king on
`(4, y)`: `MakeMove` from `(4, y)` to `(6, y)` completes and leaves the king on `(6, y)`,
the piece formerly on `(7, y)` on `(5, y)`, `(4, y)` and `(7, y)` empty and every other
square unchanged; `MakeMove` from `(4, y)` to `(2, y)` completes and leaves the king on
`(2, y)`, the piece formerly on `(0, y)` on `(3, y)`, `(4, y)` and `(0, y)` empty and
every other square unchanged. -/
theorem castling_relocates_rook (g : Game) (y k : Int)
    (hk : k = King ∨ k = -King) (hking : g.Board.get? y 4 = some k) :
    (∃ g1, MakeMove g ⟨4, y⟩ ⟨6, y⟩ = Outcome.ok g1 ∧
      g1.Board.get? y 6 = some k ∧
      g1.Board.get? y 5 = some (g.Board.at ⟨7, y⟩) ∧
      g1.Board.get? y 4 = some Empty ∧
      g1.Board.get? y 7 = some Empty ∧
      ∀ q : Position, q ≠ ⟨4, y⟩ → q ≠ ⟨5, y⟩ → q ≠ ⟨6, y⟩ → q ≠ ⟨7, y⟩ →
        g1.Board.at q = g.Board.at q) ∧
    (∃ g1, MakeMove g ⟨4, y⟩ ⟨2, y⟩ = Outcome.ok g1 ∧
      g1.Board.get? y 2 = some k ∧
      g1.Board.get? y 3 = some (g.Board.at ⟨0, y⟩) ∧
      g1.Board.get? y 4 = some Empty ∧
      g1.Board.get? y 0 = some Empty ∧
      ∀ q : Position, q ≠ ⟨4, y⟩ → q ≠ ⟨3, y⟩ → q ≠ ⟨2, y⟩ → q ≠ ⟨0, y⟩ →
        g1.Board.at q = g.Board.at q) := by
  have v4 : IsValidPosition ⟨4, y⟩ = true := get?_some_valid g.Board ⟨4, y⟩ k hking
  have vx : ∀ x : Int, 0 ≤ x → x < 8 → IsValidPosition ⟨x, y⟩ = true :=
    fun x h0 h8 => row_valid ⟨4, y⟩ x v4 h0 h8
  have v0 := vx 0 (by decide) (by decide)
  have v2 := vx 2 (by decide) (by decide)
  have v3 := vx 3 (by decide) (by decide)
  have v5 := vx 5 (by decide) (by decide)
  have v6 := vx 6 (by decide) (by decide)
  have v7 := vx 7 (by decide) (by decide)
  have hat : g.Board.at ⟨4, y⟩ = k := get?_some_at g.Board ⟨4, y⟩ k hking
  have h6 : abs k = King := abs_king k hk
  have hnp : ¬ (abs k = Pawn) := by rw [h6]; decide
  constructor
  · have hm := MakeMove_eq g ⟨4, y⟩ ⟨6, y⟩ v4 v6
    have c1 : abs k = King ∧ abs ((6 : Int) - 4) = 2 := ⟨h6, by decide⟩
    have c2 : (6 : Int) > 4 := by decide
    simp only [hat, hnp, false_and, if_false, if_pos c1, if_pos c2] at hm
    refine ⟨_, hm, ?_, ?_, ?_, ?_, ?_⟩
    · rw [get?_of_valid _ ⟨6, y⟩ v6]
      simp [at_put, v4, v5, v6, v7]
    · rw [get?_of_valid _ ⟨5, y⟩ v5]
      simp [at_put, v4, v5, v6, v7]
    · rw [get?_of_valid _ ⟨4, y⟩ v4]
      simp [at_put, v4, v5, v6, v7]
    · rw [get?_of_valid _ ⟨7, y⟩ v7]
      simp [at_put, v4, v5, v6, v7]
    · intro q q4 q5 q6 q7
      simp [at_put, v4, v5, v6, v7, q4, q5, q6, q7]
  · have hm := MakeMove_eq g ⟨4, y⟩ ⟨2, y⟩ v4 v2
    have c1 : abs k = King ∧ abs ((2 : Int) - 4) = 2 := ⟨h6, by decide⟩
    have c2 : ¬ ((2 : Int) > 4) := by decide
    simp only [hat, hnp, false_and, if_false, if_pos c1, if_neg c2] at hm
    refine ⟨_, hm, ?_, ?_, ?_, ?_, ?_⟩
    · rw [get?_of_valid _ ⟨2, y⟩ v2]
      simp [at_put, v0, v2, v3, v4]
    · rw [get?_of_valid _ ⟨3, y⟩ v3]
      simp [at_put, v0, v2, v3, v4]
    · rw [get?_of_valid _ ⟨4, y⟩ v4]
      simp [at_put, v0, v2, v3, v4]
    · rw [get?_of_valid _ ⟨0, y⟩ v0]
      simp [at_put, v0, v2, v3, v4]
    · intro q q4 q3 q2 q0
      simp [at_put, v0, v2, v3, v4, q4, q3, q2, q0]

theorem castling_relocates_rook_witness :
    (King = King ∨ King = -King) ∧ NewGame.Board.get? 7 4 = some King ∧
    (∃ g1, MakeMove NewGame ⟨4, 7⟩ ⟨6, 7⟩ = Outcome.ok g1 ∧
      g1.Board.get? 7 6 = some King ∧
      g1.Board.get? 7 5 = some (NewGame.Board.at ⟨7, 7⟩) ∧
      g1.Board.get? 7 4 = some Empty ∧
      g1.Board.get? 7 7 = some Empty ∧
      ∀ q : Position, q ≠ ⟨4, 7⟩ → q ≠ ⟨5, 7⟩ → q ≠ ⟨6, 7⟩ → q ≠ ⟨7, 7⟩ →
        g1.Board.at q = NewGame.Board.at q) ∧
    (∃ g1, MakeMove NewGame ⟨4, 7⟩ ⟨2, 7⟩ = Outcome.ok g1 ∧
      g1.Board.get? 7 2 = some King ∧
      g1.Board.get? 7 3 = some (NewGame.Board.at ⟨0, 7⟩) ∧
      g1.Board.get? 7 4 = some Empty ∧
      g1.Board.get? 7 0 = some Empty ∧
      ∀ q : Position, q ≠ ⟨4, 7⟩ → q ≠ ⟨3, 7⟩ → q ≠ ⟨2, 7⟩ → q ≠ ⟨0, 7⟩ →
        g1.Board.at q = NewGame.Board.at q) :=
  ⟨Or.inl rfl, by decide, castling_relocates_rook NewGame 7 King (Or.inl rfl) (by decide)⟩

/-! ## Frame of an ordinary move -/

/-- C20 (as stated, fails for `src = dst`). On `NewGame`, `MakeMove` from e2 = `(4, 6)` to
the same square is neither a two-file king move nor a pawn landing on the en passant
target, both squares are on the board, and the call completes; but the square then is
empty instead of holding the pawn that was on it: the destination is written first and
the source cleared after it. -/
theorem move_onto_own_square_clears_it :
    IsValidPosition ⟨4, 6⟩ = true ∧
    NewGame.Board.get? 6 4 = some Pawn ∧ NewGame.EnPassantTarget = none ∧
    (MakeMove NewGame ⟨4, 6⟩ ⟨4, 6⟩).completed = true ∧
    (MakeMove NewGame ⟨4, 6⟩ ⟨4, 6⟩).game.Board.get? 6 4 = some Empty ∧
    Pawn ≠ Empty := by
  decide

/-- C20 (amended). Frame of an ordinary move between two different squares of the board:
when the move is neither a two-file king move nor a pawn landing on the en passant target,
`MakeMove g src dst` completes and leaves `src` empty, `dst` holding the piece that was on
`src`, every other square unchanged, `Turn` negated, `LastMove = (src, dst, piece)`,
`HasMoved` set for `src` and unchanged elsewhere, and `State`, `SelectedPiece` and
`ValidMoves` unchanged. -/
theorem ordinary_move_frame (g : Game) (src dst : Position)
    (hs : IsValidPosition src = true) (hd : IsValidPosition dst = true)
    (hne : src ≠ dst)
    (hnc : ¬ ((g.Board.at src = King ∨ g.Board.at src = -King) ∧
      (dst.X - src.X = 2 ∨ dst.X - src.X = -2)))
    (hnep : ¬ ((g.Board.at src = Pawn ∨ g.Board.at src = -Pawn) ∧
      g.EnPassantTarget = some dst)) :
    ∃ g1, MakeMove g src dst = Outcome.ok g1 ∧
      g1.Board.get? src.Y src.X = some Empty ∧
      g1.Board.get? dst.Y dst.X = some (g.Board.at src) ∧
      (∀ q : Position, q ≠ src → q ≠ dst → g1.Board.at q = g.Board.at q) ∧
      g1.Turn = (!g.Turn) ∧
      g1.LastMove = ⟨src, dst, g.Board.at src⟩ ∧
      g1.HasMoved src = true ∧
      (∀ p : Position, p ≠ src → g1.HasMoved p = g.HasMoved p) ∧
      g1.State = g.State ∧ g1.SelectedPiece = g.SelectedPiece ∧
      g1.ValidMoves = g.ValidMoves := by
  have hm := MakeMove_eq g src dst hs hd
  have c1 : ¬ (abs (g.Board.at src) = King ∧ abs (dst.X - src.X) = 2) := by
    rw [abs_eq_iff _ King (by decide), abs_eq_iff _ 2 (by decide)]
    exact hnc
  have c2 : ¬ (abs (g.Board.at src) = Pawn ∧ g.EnPassantTarget = some dst) := by
    rw [abs_eq_iff _ Pawn (by decide)]
    exact hnep
  simp only [if_neg c1, if_neg c2] at hm
  refine ⟨_, hm, ?_, ?_, ?_, rfl, rfl, ?_, ?_, rfl, rfl, rfl⟩
  · rw [get?_of_valid _ src hs]
    simp [at_put, hs, hd]
  · rw [get?_of_valid _ dst hd]
    simp [at_put, hs, hd, Ne.symm hne]
  · intro q q1 q2
    simp [at_put, hs, hd, q1, q2]
  · simp
  · intro p hp
    simp [hp]

theorem ordinary_move_frame_witness :
    IsValidPosition ⟨4, 6⟩ = true ∧ IsValidPosition ⟨4, 5⟩ = true ∧
    ∃ g1, MakeMove NewGame ⟨4, 6⟩ ⟨4, 5⟩ = Outcome.ok g1 ∧
      g1.Board.get? 6 4 = some Empty ∧
      g1.Board.get? 5 4 = some (NewGame.Board.at ⟨4, 6⟩) ∧
      (∀ q : Position, q ≠ ⟨4, 6⟩ → q ≠ ⟨4, 5⟩ → g1.Board.at q = NewGame.Board.at q) ∧
      g1.Turn = (!NewGame.Turn) ∧
      g1.LastMove = ⟨⟨4, 6⟩, ⟨4, 5⟩, NewGame.Board.at ⟨4, 6⟩⟩ ∧
      g1.HasMoved ⟨4, 6⟩ = true ∧
      (∀ p : Position, p ≠ ⟨4, 6⟩ → g1.HasMoved p = NewGame.HasMoved p) ∧
      g1.State = NewGame.State ∧ g1.SelectedPiece = NewGame.SelectedPiece ∧
      g1.ValidMoves = NewGame.ValidMoves :=
  ⟨by decide, by decide,
    ordinary_move_frame NewGame ⟨4, 6⟩ ⟨4, 5⟩ (by decide) (by decide) (by decide)
      (by decide) (by decide)⟩

/-! ## Applying an en passant capture -/

/-- C14 (as stated, fails when the target is on the pawn's own rank). After 1.d3 a6 2.e4
the en passant target is e3 = `(4, 5)` and a white pawn stands on d3 = `(3, 5)`.
`MakeMove` from d3 to the target completes, and the square `(t.X, from.Y)`, which here is
the target itself, holds the pawn instead of being empty: the capture square is cleared
before the pawn is written on its destination. -/
theorem en_passant_target_on_own_rank_not_cleared :
    (MakeMoves NewGame sidewaysTargetLine).completed = true ∧
    (MakeMoves NewGame sidewaysTargetLine).game.EnPassantTarget = some ⟨4, 5⟩ ∧
    (MakeMoves NewGame sidewaysTargetLine).game.Board.get? 5 3 = some Pawn ∧
    (MakeMove (MakeMoves NewGame sidewaysTargetLine).game ⟨3, 5⟩ ⟨4, 5⟩).completed = true ∧
    (MakeMove (MakeMoves NewGame sidewaysTargetLine).game ⟨3, 5⟩ ⟨4, 5⟩).game.Board.get? 5 4 =
      some Pawn ∧
    Pawn ≠ Empty := by
  decide

/-- C14 (amended). Applying an en passant capture removes the captured pawn.  Let the game
have the en passant target `t`, a pawn on `src`, and `t` on another rank than `src`.  After
a completed `MakeMove g src t` the square `(t.X, src.Y)` is empty, `t` holds the moving
pawn, `src` is empty and every other square is unchanged.  And whenever the moved piece is
not a pawn or the destination is not the en passant target, the capture step leaves the
game, hence the square `(dst.X, src.Y)`, as it was. -/
theorem en_passant_capture_removes_pawn (g g1 : Game) (src t : Position) (v : Int)
    (ht : g.EnPassantTarget = some t)
    (hv : g.Board.get? src.Y src.X = some v) (hp : v = Pawn ∨ v = -Pawn)
    (hrank : t.Y ≠ src.Y)
    (hmove : MakeMove g src t = Outcome.ok g1) :
    g1.Board.get? src.Y t.X = some Empty ∧
    g1.Board.get? t.Y t.X = some v ∧
    g1.Board.get? src.Y src.X = some Empty ∧
    (∀ q : Position, q ≠ ⟨t.X, src.Y⟩ → q ≠ t → q ≠ src → g1.Board.at q = g.Board.at q) ∧
    (∀ (h : Game) (piece : Int) (s d : Position),
      (¬ (piece = Pawn ∨ piece = -Pawn) ∨ h.EnPassantTarget ≠ some d) →
        captureEnPassant h piece s d = Outcome.ok h) := by
  have hs := get?_some_valid g.Board src v hv
  obtain ⟨-, -, -, hd, -⟩ := MakeMove_ok g g1 src t hmove
  have hc : IsValidPosition ⟨t.X, src.Y⟩ = true := by
    have := (valid_iff t).1 hd
    exact row_valid src t.X hs this.1 this.2.1
  have hat : g.Board.at src = v := get?_some_at g.Board src v hv
  have hm := MakeMove_eq g src t hs hd
  rw [hmove] at hm
  injection hm with hm
  have c1 : abs v = Pawn ∧ g.EnPassantTarget = some t := ⟨abs_pawn v hp, ht⟩
  have c2 : ¬ (abs v = King ∧ abs (t.X - src.X) = 2) := by
    rw [abs_pawn v hp]
    intro h
    exact absurd h.1 (by decide)
  simp only [hat, if_pos c1, if_neg c2] at hm
  have hne1 : (⟨t.X, src.Y⟩ : Position) ≠ t := by
    intro e
    have := congrArg Position.Y e
    exact hrank this.symm
  have hne2 : src ≠ t := by
    intro e
    exact hrank (congrArg Position.Y e).symm
  refine ⟨?_, ?_, ?_, ?_, ?_⟩
  · rw [get?_of_valid _ ⟨t.X, src.Y⟩ hc, hm]
    simp [at_put, hs, hd, hc, hne1]
  · rw [get?_of_valid _ t hd, hm]
    simp [at_put, hs, hd, hc, Ne.symm hne2]
  · rw [get?_of_valid _ src hs, hm]
    simp [at_put, hs, hd, hc]
  · intro q q1 q2 q3
    rw [hm]
    simp [at_put, hs, hd, hc, q1, q2, q3]
  · intro h piece s d hcond
    obtain ⟨b, sp, tn, vm, st, tick, hmv, lm, ep⟩ := h
    simp only [captureEnPassant]
    cases ep with
    | none => rfl
    | some target =>
      dsimp only
      have hfalse : ¬ (abs piece = Pawn ∧ d.X = target.X ∧ d.Y = target.Y) := by
        rintro ⟨h1, h2, h3⟩
        rcases hcond with h | h
        · exact h ((abs_eq_iff piece Pawn (by decide)).1 h1)
        · apply h
          cases target; cases d
          simp only [Option.some.injEq, Position.mk.injEq]
          exact ⟨h2.symm, h3.symm⟩
      rw [if_neg hfalse]

theorem en_passant_capture_removes_pawn_witness :
    ∃ g g1, g.EnPassantTarget = some ⟨3, 2⟩ ∧ g.Board.get? 3 4 = some Pawn ∧
      (Pawn = Pawn ∨ Pawn = -Pawn) ∧ (2 : Int) ≠ 3 ∧
      MakeMove g ⟨4, 3⟩ ⟨3, 2⟩ = Outcome.ok g1 ∧
      g1.Board.get? 3 3 = some Empty ∧
      g1.Board.get? 2 3 = some Pawn ∧
      g1.Board.get? 3 4 = some Empty ∧
      (∀ q : Position, q ≠ ⟨3, 3⟩ → q ≠ ⟨3, 2⟩ → q ≠ ⟨4, 3⟩ →
        g1.Board.at q = g.Board.at q) ∧
      (∀ (h : Game) (piece : Int) (s d : Position),
        (¬ (piece = Pawn ∨ piece = -Pawn) ∨ h.EnPassantTarget ≠ some d) →
          captureEnPassant h piece s d = Outcome.ok h) :=
  have c2 : (MakeMove (MakeMove pawnPairGame ⟨3, 1⟩ ⟨3, 3⟩).game ⟨4, 3⟩ ⟨3, 2⟩).completed =
      true := by decide
  ⟨(MakeMove pawnPairGame ⟨3, 1⟩ ⟨3, 3⟩).game, _, by decide, by decide, Or.inl rfl,
    by decide, ok_of_completed _ c2,
    en_passant_capture_removes_pawn _ _ ⟨4, 3⟩ ⟨3, 2⟩ Pawn (by decide) (by decide)
      (Or.inl rfl) (by decide) (ok_of_completed _ c2)⟩

/-! ## A failing `MakeMove` -/

/-- C15 (as stated, fails). `MakeMove` on `NewGame` from e2 = `(4, 6)` to `(4, 8)`, a
square below the board, fails, and the game it leaves is not the game before the call:
`HasMoved` is set for e2 and an en passant target has been recorded. -/
theorem failed_move_has_changed_the_game :
    (MakeMove NewGame ⟨4, 6⟩ ⟨4, 8⟩).completed = false ∧
    NewGame.HasMoved ⟨4, 6⟩ = false ∧
    (MakeMove NewGame ⟨4, 6⟩ ⟨4, 8⟩).game.HasMoved ⟨4, 6⟩ = true ∧
    NewGame.EnPassantTarget = none ∧
    (MakeMove NewGame ⟨4, 6⟩ ⟨4, 8⟩).game.EnPassantTarget = some ⟨4, 7⟩ := by
  decide

theorem writeBoard_invalid (g : Game) (p : Position) (v : Int)
    (h : IsValidPosition p = false) : writeBoard g p.Y p.X v = Outcome.panic g := by
  simp only [writeBoard, set?_of_invalid g.Board p v h]

/-- C15 (amended). A `MakeMove` that fails is all-or-nothing only when it fails on its
source square.  If the call fails, then either `src` is outside the board and the game is
exactly as before the call; or `src` is on the board, `dst` is outside it, and the game
differs from the one before the call in that `HasMoved` is set for `src`, and possibly in
`Board` and `EnPassantTarget`, while `Turn`, `LastMove`, `State`, `SelectedPiece`,
`ValidMoves` and `AnimationTick` are as before. -/
theorem failed_move_state (g g1 : Game) (src dst : Position)
    (h : MakeMove g src dst = Outcome.panic g1) :
    (IsValidPosition src = false ∧ g1 = g) ∨
    (IsValidPosition src = true ∧ IsValidPosition dst = false ∧
      ∃ (b : Board) (ep : Option Position), g1 = { g with
        Board := b
        HasMoved := fun p => if p = src then true else g.HasMoved p
        EnPassantTarget := ep }) := by
  cases hs : IsValidPosition src with
  | false =>
    left
    simp only [MakeMove, get?_of_invalid g.Board src hs] at h
    injection h with h
    exact ⟨rfl, h.symm⟩
  | true =>
    right
    cases hd : IsValidPosition dst with
    | true =>
      rw [MakeMove_eq g src dst hs hd] at h
      cases h
    | false =>
      refine ⟨rfl, rfl, ?_⟩
      simp only [MakeMove, get?_of_valid g.Board src hs] at h
      rw [castleRook_eq _ _ src dst hs] at h
      simp only [Outcome.andThen] at h
      obtain ⟨b2, hb2⟩ := captureEnPassant_game
        { g with
          Board := (if abs (g.Board.at src) = King ∧ abs (dst.X - src.X) = 2 then
            if dst.X > src.X then
              (g.Board.put ⟨5, src.Y⟩ (g.Board.at ⟨7, src.Y⟩)).put ⟨7, src.Y⟩ Empty
            else (g.Board.put ⟨3, src.Y⟩ (g.Board.at ⟨0, src.Y⟩)).put ⟨0, src.Y⟩ Empty
          else g.Board)
          HasMoved := fun p => if p = src then true else g.HasMoved p }
        (g.Board.at src) src dst
      revert h hb2
      generalize captureEnPassant _ (g.Board.at src) src dst = o
      intro h hb2
      cases o with
      | panic g2 =>
        injection h with h
        simp only [Outcome.game] at hb2
        exact ⟨b2, g.EnPassantTarget, by rw [← h, hb2]⟩
      | ok g2 =>
        simp only [Outcome.game] at hb2
        dsimp only at h
        rw [writeBoard_invalid _ dst _ hd] at h
        injection h with h
        exact ⟨b2, nextEnPassantTarget (g.Board.at src) src dst, by rw [← h, hb2]⟩

theorem failed_move_state_witness :
    MakeMove NewGame ⟨8, 0⟩ ⟨4, 4⟩ = Outcome.panic NewGame ∧
    ((IsValidPosition ⟨8, 0⟩ = false ∧ NewGame = NewGame) ∨
    (IsValidPosition ⟨8, 0⟩ = true ∧ IsValidPosition ⟨4, 4⟩ = false ∧
      ∃ (b : Board) (ep : Option Position), NewGame = { NewGame with
        Board := b
        HasMoved := fun p => if p = ⟨8, 0⟩ then true else NewGame.HasMoved p
        EnPassantTarget := ep })) :=
  ⟨rfl, failed_move_state NewGame NewGame ⟨8, 0⟩ ⟨4, 4⟩ rfl⟩

/-! ## Check detection without a king -/

/-- C16 (as stated, fails). On a board with no white king `IsKingInCheck` and
`IsCheckmate` return a boolean for White instead of failing, here `true` both: the black
rook on a5 reaches the corner `(0, 0)` and White has no piece to move. -/
theorem missing_king_returns_boolean :
    countPiece kinglessBoard (White * King) = 0 ∧
    IsKingInCheck kinglessBoard White = some true ∧
    IsCheckmate kinglessBoard White = some true := by
  decide

theorem findKing_of_absent (board : Board) (v : Int) (squares : List Position)
    (hs : ∀ sq ∈ squares, IsValidPosition sq = true)
    (hn : ∀ sq ∈ squares, board.at sq ≠ v) :
    findKing board v squares = some ⟨0, 0⟩ := by
  induction squares with
  | nil => rfl
  | cons sq rest ih =>
    simp only [findKing, get?_of_valid board sq (hs sq (List.mem_cons_self _ _)),
      if_neg (hn sq (List.mem_cons_self _ _))]
    exact ih (fun s h => hs s (List.mem_cons_of_mem _ h))
      (fun s h => hn s (List.mem_cons_of_mem _ h))

/-- C16 (amended). A missing king is not a failure: on a board that holds no king of
colour `c` (White or Black), `IsKingInCheck board c` returns a boolean, `true` iff some
square holds a non-empty piece of the opposite sign whose context-free pseudo-moves
contain `(0, 0)`, the zero value the king's position keeps; and `IsCheckmate board c`
returns a boolean as well. -/
theorem missing_king_checks_corner (board : Board) (c : Int)
    (hc : c = White ∨ c = Black)
    (hno : ∀ sq : Position, board.get? sq.Y sq.X ≠ some (c * King)) :
    (IsKingInCheck board c = some true ∨ IsKingInCheck board c = some false) ∧
    (IsKingInCheck board c = some true ↔
      ∃ sq piece moves, board.get? sq.Y sq.X = some piece ∧ piece ≠ 0 ∧ sign piece = -c ∧
        GetPieceMoves board sq none = some moves ∧ (⟨0, 0⟩ : Position) ∈ moves) ∧
    (IsCheckmate board c = some true ∨ IsCheckmate board c = some false) := by
  have hw : wrapInt64 (c * King) = c * King := by
    rcases hc with rfl | rfl <;> decide
  have hf : findKing board (wrapInt64 (c * King)) scanOrder = some ⟨0, 0⟩ := by
    rw [hw]
    refine findKing_of_absent board _ scanOrder (fun sq h => (mem_scanOrder sq).1 h) ?_
    intro sq hm hv
    apply hno sq
    rw [get?_of_valid board sq ((mem_scanOrder sq).1 hm), hv]
  refine ⟨?_, ?_, ?_⟩
  · obtain ⟨r, hr⟩ := IsKingInCheck_total board c
    rw [hr]; cases r <;> simp
  · simp only [IsKingInCheck, hf]
    rw [attackScan_spec board c ⟨0, 0⟩ scanOrder fun sq h => (mem_scanOrder sq).1 h]
    constructor
    · rintro ⟨sq, hm, h0, hs, moves, hmv, hkm⟩
      have hv := (mem_scanOrder sq).1 hm
      exact ⟨sq, board.at sq, moves, get?_of_valid board sq hv, h0,
        (sign_ne_iff_opposite _ c h0 hc).1 hs, by rw [GetPieceMoves_none]; exact hmv, hkm⟩
    · rintro ⟨sq, piece, moves, hg, h0, hs, hmv, hkm⟩
      have hv := get?_some_valid board sq _ hg
      have ha := get?_some_at board sq _ hg
      rw [GetPieceMoves_none] at hmv
      refine ⟨sq, (mem_scanOrder sq).2 hv, by rw [ha]; exact h0, ?_, moves, hmv, hkm⟩
      rw [ha]
      exact (sign_ne_iff_opposite _ c h0 hc).2 hs
  · obtain ⟨k, hk⟩ := IsKingInCheck_total board c
    obtain ⟨⟨r, hr⟩, -⟩ := mateScan_spec board c scanOrder fun sq h => (mem_scanOrder sq).1 h
    simp only [IsCheckmate, hk]
    cases k with
    | false => simp
    | true =>
      simp only [Bool.not_true, Bool.false_eq_true, if_false, hr]
      cases r <;> simp

theorem absent_of_scan (board : Board) (v : Int)
    (h : ∀ sq ∈ scanOrder, board.get? sq.Y sq.X ≠ some v) :
    ∀ sq : Position, board.get? sq.Y sq.X ≠ some v :=
  fun sq hg => h sq ((mem_scanOrder sq).2 (get?_some_valid board sq v hg)) hg

theorem missing_king_checks_corner_witness :
    (White = White ∨ White = Black) ∧
    (∀ sq : Position, kinglessBoard.get? sq.Y sq.X ≠ some (White * King)) ∧
    (IsKingInCheck kinglessBoard White = some true ∨
      IsKingInCheck kinglessBoard White = some false) ∧
    (IsKingInCheck kinglessBoard White = some true ↔
      ∃ sq piece moves, kinglessBoard.get? sq.Y sq.X = some piece ∧ piece ≠ 0 ∧
        sign piece = -White ∧ GetPieceMoves kinglessBoard sq none = some moves ∧
        (⟨0, 0⟩ : Position) ∈ moves) ∧
    (IsCheckmate kinglessBoard White = some true ∨
      IsCheckmate kinglessBoard White = some false) :=
  ⟨Or.inl rfl, absent_of_scan kinglessBoard _ (by decide),
    missing_king_checks_corner kinglessBoard White (Or.inl rfl)
      (absent_of_scan kinglessBoard _ (by decide))⟩

/-! ## Castling away from the home square -/

/-- Every line the input loop accepts is a sequence of completed `MakeMove` calls. -/
theorem playOffered_MakeMoves (line : List (Position × Position)) :
    ∀ g g1 : Game, playOffered g line = some g1 → MakeMoves g line = Outcome.ok g1 := by
  induction line with
  | nil =>
    intro g g1 h
    simp only [playOffered] at h
    injection h with h
    rw [h]
    rfl
  | cons mv rest ih =>
    intro g g1 h
    obtain ⟨src, dst⟩ := mv
    simp only [playOffered] at h
    split at h
    · split_ifs at h
      split at h
      · rename_i g2 hm
        simp only [MakeMoves, hm, Outcome.andThen]
        exact ih g2 g1 h
      · cases h
    · cases h

/-- C17 (fails on the code). After the opening `strayKingLine` (1.e3 d6 2.Bc4 Bg4 3.a3 Bxd1
4.Kxd1 a6 5.Nf3 a5 6.Ne1 h6, all completed `MakeMove` calls from `NewGame`) the white king
stands on d1 = `(3, 7)`, not on its home square `(4, 7)`, and `GetPieceMoves` for it still
contains `(5, 7)`, a square two files away on the same rank. -/
theorem castling_offered_off_home_square :
    ∃ g moves, MakeMoves NewGame strayKingLine = Outcome.ok g ∧
      g.Board.get? 7 3 = some (White * King) ∧
      g.Board.get? 7 4 ≠ some (White * King) ∧
      GetPieceMoves g.Board ⟨3, 7⟩ (some g) = some moves ∧
      (⟨3 + 2, 7⟩ : Position) ∈ moves ∧
      (⟨3, 7⟩ : Position) ≠ ⟨4, 7⟩ := by
  have h : (match MakeMoves NewGame strayKingLine with
      | Outcome.panic _ => false
      | Outcome.ok g =>
        decide (g.Board.get? 7 3 = some (White * King)) &&
        decide (g.Board.get? 7 4 ≠ some (White * King)) &&
        (match GetPieceMoves g.Board ⟨3, 7⟩ (some g) with
          | some moves => decide ((⟨3 + 2, 7⟩ : Position) ∈ moves)
          | none => false)) = true := by decide!
  revert h
  cases MakeMoves NewGame strayKingLine with
  | panic g => intro h; cases h
  | ok g =>
    dsimp only
    cases hm : GetPieceMoves g.Board ⟨3, 7⟩ (some g) with
    | none => intro h; simp at h
    | some moves =>
      intro h
      simp only [Bool.and_eq_true, decide_eq_true_eq] at h
      obtain ⟨⟨h1, h2⟩, h3⟩ := h
      exact ⟨g, moves, rfl, h1, h2, hm, h3, by decide⟩

/-! ## Pawn pseudo-moves -/

/-- The forward block of `getPawnMoves` in closed form. -/
theorem pawnForward_eq (board : Board) (pos : Position) (color d : Int) (hd : d = -color) :
    pawnForward board pos color d = some
      (if IsValidPosition ⟨pos.X, pos.Y + d⟩ = true ∧ board.at ⟨pos.X, pos.Y + d⟩ = Empty then
        if ((color = White ∧ pos.Y = 6) ∨ (color = Black ∧ pos.Y = 1)) ∧
            board.at ⟨pos.X, pos.Y + 2 * d⟩ = Empty then
          [⟨pos.X, pos.Y + d⟩, ⟨pos.X, pos.Y + 2 * d⟩]
        else [⟨pos.X, pos.Y + d⟩]
      else []) := by
  simp only [pawnForward]
  cases hv : IsValidPosition ⟨pos.X, pos.Y + d⟩ with
  | false => simp
  | true =>
    have hg := get?_of_valid board _ hv
    simp only [] at hg
    simp only [hg, if_true, true_and]
    by_cases he : board.at ⟨pos.X, pos.Y + d⟩ = Empty
    · rw [if_pos he, if_pos he]
      by_cases hh : (color = White ∧ pos.Y = 6) ∨ (color = Black ∧ pos.Y = 1)
      · rw [if_pos hh]
        have hv2 : IsValidPosition ⟨pos.X, pos.Y + 2 * d⟩ = true := by
          rw [valid_iff] at hv ⊢
          simp only [White, Black] at hh
          dsimp only at hv ⊢
          omega
        have hg2 := get?_of_valid board _ hv2
        simp only [] at hg2
        rw [hg2]
        dsimp only
        by_cases he2 : board.at ⟨pos.X, pos.Y + 2 * d⟩ = Empty
        · rw [if_pos he2, if_pos ⟨hh, he2⟩]
        · rw [if_neg he2, if_neg (fun h => he2 h.2)]
      · rw [if_neg hh, if_neg (fun h => hh h.1)]
    · rw [if_neg he, if_neg he]

/-- The capture loop of `getPawnMoves` in closed form. -/
theorem pawnCaptures_eq (board : Board) (pos : Position) (color d : Int) (dxs : List Int) :
    pawnCaptures board pos color d dxs = some
      ((dxs.map fun dx => (⟨pos.X + dx, pos.Y + d⟩ : Position)).filter fun m =>
        IsValidPosition m && (decide (board.at m ≠ Empty) && decide (sign (board.at m) ≠ color))) := by
  induction dxs with
  | nil => rfl
  | cons dx rest ih =>
    simp only [pawnCaptures, ih, List.map_cons, List.filter_cons]
    cases hv : IsValidPosition ⟨pos.X + dx, pos.Y + d⟩ with
    | false => simp
    | true =>
      have hg := get?_of_valid board _ hv
      simp only [] at hg
      simp only [hg, if_true, Bool.true_and]
      by_cases hc : board.at ⟨pos.X + dx, pos.Y + d⟩ ≠ Empty ∧
          sign (board.at ⟨pos.X + dx, pos.Y + d⟩) ≠ color
      · rw [if_pos hc, if_pos (by simpa using hc)]
      · rw [if_neg hc, if_neg (by simpa using hc)]

/-- The en passant block of `getPawnMoves` in closed form: the target alone, or nothing. -/
theorem pawnEnPassant_eq (pos : Position) (color d : Int) (g : Game) :
    pawnEnPassant pos color d (some g) =
      match g.EnPassantTarget with
      | some t =>
        if pos.Y = boolToInt (decide (color = White)) 3 4 ∧
            (t = ⟨pos.X - 1, pos.Y + d⟩ ∨ t = ⟨pos.X + 1, pos.Y + d⟩) then [t] else []
      | none => [] := by
  simp only [pawnEnPassant]
  cases g.EnPassantTarget with
  | none => rfl
  | some t =>
    obtain ⟨tx, ty⟩ := t
    dsimp only
    by_cases hr : pos.Y = boolToInt (decide (color = White)) 3 4
    · simp only [if_pos hr, true_and, List.filterMap_cons, List.filterMap_nil,
        Position.mk.injEq]
      by_cases hA : pos.X + -1 = tx ∧ pos.Y + d = ty
      · have hB : ¬ (pos.X + 1 = tx ∧ pos.Y + d = ty) := by omega
        have hC : (tx = pos.X - 1 ∧ ty = pos.Y + d) ∨ (tx = pos.X + 1 ∧ ty = pos.Y + d) := by
          omega
        rw [if_pos hA, if_neg hB, if_pos ⟨hr, hC⟩]
      · by_cases hB : pos.X + 1 = tx ∧ pos.Y + d = ty
        · have hC : (tx = pos.X - 1 ∧ ty = pos.Y + d) ∨
              (tx = pos.X + 1 ∧ ty = pos.Y + d) := by omega
          rw [if_neg hA, if_pos hB, if_pos ⟨hr, hC⟩]
        · have hC : ¬ ((tx = pos.X - 1 ∧ ty = pos.Y + d) ∨
              (tx = pos.X + 1 ∧ ty = pos.Y + d)) := by omega
          rw [if_neg hA, if_neg hB, if_neg (fun h => hC h.2)]
    · simp [hr]

/-- C19. Pawn pseudo-moves.  For a pawn of colour `c` on `pos`, with forward direction
`d = -1` for White and `d = 1` for Black, `GetPieceMoves board pos nil` returns a list
that contains exactly: `(pos.X, pos.Y + d)` iff that square is on the board and empty;
`(pos.X, pos.Y + 2 d)` iff the pawn is on its home rank (`Y = 6` White, `Y = 1` Black) and
both forward squares are empty; each diagonal `(pos.X ± 1, pos.Y + d)` iff it is on the
board and holds a piece of the opposite colour.  With a game as context the list is that
list followed by the en passant target alone, added iff the pawn is on rank `Y = 3`
(White) or `Y = 4` (Black) and the target is `(pos.X ± 1, pos.Y + d)`. -/
theorem pawn_pseudo_moves (board : Board) (pos : Position) (c d : Int)
    (hcd : (c = White ∧ d = -1) ∨ (c = Black ∧ d = 1))
    (hv : board.get? pos.Y pos.X = some (c * Pawn)) :
    ∃ moves, GetPieceMoves board pos none = some moves ∧
      (∀ m : Position, m ∈ moves ↔
        (m = ⟨pos.X, pos.Y + d⟩ ∧ IsValidPosition m = true ∧ board.at m = Empty) ∨
        (m = ⟨pos.X, pos.Y + 2 * d⟩ ∧ ((c = White ∧ pos.Y = 6) ∨ (c = Black ∧ pos.Y = 1)) ∧
          board.at ⟨pos.X, pos.Y + d⟩ = Empty ∧ board.at ⟨pos.X, pos.Y + 2 * d⟩ = Empty) ∨
        ((m = ⟨pos.X - 1, pos.Y + d⟩ ∨ m = ⟨pos.X + 1, pos.Y + d⟩) ∧
          IsValidPosition m = true ∧ board.at m ≠ Empty ∧ sign (board.at m) = -c)) ∧
      ∀ g : Game, GetPieceMoves board pos (some g) = some (moves ++
        match g.EnPassantTarget with
        | some t =>
          if ((c = White ∧ pos.Y = 3) ∨ (c = Black ∧ pos.Y = 4)) ∧
              (t = ⟨pos.X - 1, pos.Y + d⟩ ∨ t = ⟨pos.X + 1, pos.Y + d⟩) then [t] else []
        | none => []) := by
  have hc : c = White ∨ c = Black := hcd.elim (fun h => Or.inl h.1) (fun h => Or.inr h.1)
  have hd : d = -c := by
    rcases hcd with ⟨rfl, rfl⟩ | ⟨rfl, rfl⟩ <;> decide
  have hpawn : c * Pawn = Pawn ∨ c * Pawn = -Pawn := by
    rcases hc with rfl | rfl <;> decide
  have hsign : sign (c * Pawn) = c := by
    rcases hc with rfl | rfl <;> decide
  have hpos := get?_some_valid board pos _ hv
  have hrank : (pos.Y = boolToInt (decide (c = White)) 3 4) ↔
      ((c = White ∧ pos.Y = 3) ∨ (c = Black ∧ pos.Y = 4)) := by
    rcases hc with rfl | rfl <;> simp [boolToInt, White, Black]
  have hgen : ∀ game, GetPieceMoves board pos game = some
      ((if IsValidPosition ⟨pos.X, pos.Y + d⟩ = true ∧ board.at ⟨pos.X, pos.Y + d⟩ = Empty then
        if ((c = White ∧ pos.Y = 6) ∨ (c = Black ∧ pos.Y = 1)) ∧
            board.at ⟨pos.X, pos.Y + 2 * d⟩ = Empty then
          [⟨pos.X, pos.Y + d⟩, ⟨pos.X, pos.Y + 2 * d⟩]
        else [⟨pos.X, pos.Y + d⟩]
      else []) ++
      (([-1, 1] : List Int).map fun dx => (⟨pos.X + dx, pos.Y + d⟩ : Position)).filter
        (fun m => IsValidPosition m &&
          (decide (board.at m ≠ Empty) && decide (sign (board.at m) ≠ c))) ++
      pawnEnPassant pos c d game) := by
    intro game
    rw [GetPieceMoves_pawn board pos game _ hv hpawn, hsign]
    simp only [getPawnMoves, ← hd, pawnForward_eq board pos c d hd, pawnCaptures_eq]
  refine ⟨_, hgen none, ?_, ?_⟩
  · intro m
    have hsgn : ∀ v : Int, v ≠ Empty → (sign v ≠ c ↔ sign v = -c) :=
      fun v h0 => sign_ne_iff_opposite v c h0 hc
    have hl : (⟨pos.X + -1, pos.Y + d⟩ : Position) = ⟨pos.X - 1, pos.Y + d⟩ := rfl
    simp only [pawnEnPassant, List.append_nil, List.mem_append, List.mem_filter, List.map_cons,
      List.map_nil, List.mem_cons, List.mem_singleton, List.not_mem_nil, or_false,
      Bool.and_eq_true, decide_eq_true_eq, hl]
    constructor
    · rintro (h | ⟨h1, h2, h3, h4⟩)
      · split_ifs at h with a b
        · simp only [List.mem_cons, List.mem_singleton, List.not_mem_nil, or_false] at h
          rcases h with h | h
          · exact Or.inl ⟨h, by rw [h]; exact a.1, by rw [h]; exact a.2⟩
          · exact Or.inr (Or.inl ⟨h, b.1, a.2, b.2⟩)
        · simp only [List.mem_singleton] at h
          exact Or.inl ⟨h, by rw [h]; exact a.1, by rw [h]; exact a.2⟩
        · cases h
      · exact Or.inr (Or.inr ⟨h1, h2, h3, (hsgn _ h3).1 h4⟩)
    · rintro (⟨h1, h2, h3⟩ | ⟨h1, h2, h3, h4⟩ | ⟨h1, h2, h3, h4⟩)
      · left
        rw [h1] at h2 h3
        rw [if_pos ⟨h2, h3⟩]
        split_ifs <;> simp [h1]
      · left
        have hv1 : IsValidPosition ⟨pos.X, pos.Y + d⟩ = true := by
          rw [valid_iff] at hpos ⊢
          simp only [White, Black] at h2
          dsimp only
          simp only [White, Black] at hcd
          omega
        rw [if_pos ⟨hv1, h3⟩, if_pos ⟨h2, h4⟩]
        simp [h1]
      · right
        exact ⟨h1, h2, h3, (hsgn _ h3).2 h4⟩
  · intro g
    rw [hgen (some g), pawnEnPassant_eq]
    simp only [pawnEnPassant, List.append_nil, hrank]

theorem pawn_pseudo_moves_witness :
    ((White = White ∧ (-1 : Int) = -1) ∨ (White = Black ∧ (-1 : Int) = 1)) ∧
    initialBoard.get? 6 4 = some (White * Pawn) ∧
    ∃ moves, GetPieceMoves initialBoard ⟨4, 6⟩ none = some moves ∧
      (∀ m : Position, m ∈ moves ↔
        (m = ⟨4, 6 + -1⟩ ∧ IsValidPosition m = true ∧ initialBoard.at m = Empty) ∨
        (m = ⟨4, 6 + 2 * -1⟩ ∧ ((White = White ∧ (6 : Int) = 6) ∨
            (White = Black ∧ (6 : Int) = 1)) ∧
          initialBoard.at ⟨4, 6 + -1⟩ = Empty ∧ initialBoard.at ⟨4, 6 + 2 * -1⟩ = Empty) ∨
        ((m = ⟨4 - 1, 6 + -1⟩ ∨ m = ⟨4 + 1, 6 + -1⟩) ∧
          IsValidPosition m = true ∧ initialBoard.at m ≠ Empty ∧
          sign (initialBoard.at m) = -White)) ∧
      ∀ g : Game, GetPieceMoves initialBoard ⟨4, 6⟩ (some g) = some (moves ++
        match g.EnPassantTarget with
        | some t =>
          if ((White = White ∧ (6 : Int) = 3) ∨ (White = Black ∧ (6 : Int) = 4)) ∧
              (t = ⟨4 - 1, 6 + -1⟩ ∨ t = ⟨4 + 1, 6 + -1⟩) then [t] else []
        | none => []) :=
  ⟨Or.inl ⟨rfl, rfl⟩, by decide,
    pawn_pseudo_moves initialBoard ⟨4, 6⟩ White (-1) (Or.inl ⟨rfl, rfl⟩) (by decide)⟩

/-! ## Sliding pieces -/

/-- One ray: over the steps `n, n+1, …, n+len-1` the loop returns the squares up to the
first one that is off the board or occupied, that one included when it holds a piece not
of `color`. -/
theorem castRay_mem (board : Board) (pos : Position) (color : Int) (d : Int × Int)
    (len : Nat) :
    ∀ n : Nat, ∃ l,
      castRay board pos color d ((List.range' n len).map fun k : Nat => (k : Int)) = some l ∧
      ∀ m : Position, m ∈ l ↔ ∃ i : Nat, n ≤ i ∧ i < n + len ∧ m = raySquare pos d i ∧
        IsValidPosition (raySquare pos d i) = true ∧
        (∀ j : Nat, n ≤ j → j < i →
          IsValidPosition (raySquare pos d j) = true ∧ board.at (raySquare pos d j) = Empty) ∧
        (board.at (raySquare pos d i) = Empty ∨ sign (board.at (raySquare pos d i)) ≠ color) := by
  induction len with
  | zero =>
    intro n
    refine ⟨[], rfl, ?_⟩
    intro m
    constructor
    · intro h; cases h
    · rintro ⟨i, h1, h2, -⟩
      omega
  | succ len ih =>
    intro n
    obtain ⟨l, hl, hmem⟩ := ih (n + 1)
    simp only [List.range'_succ, List.map_cons, castRay]
    have hP : (⟨pos.X + (n : Int) * d.1, pos.Y + (n : Int) * d.2⟩ : Position) =
        raySquare pos d n := rfl
    rw [hP]
    cases hv : IsValidPosition (raySquare pos d n) with
    | false =>
      refine ⟨[], by simp, ?_⟩
      intro m
      constructor
      · intro h; cases h
      · rintro ⟨i, h1, h2, -, h4, h5, -⟩
        rcases Nat.eq_or_lt_of_le h1 with e | e
        · rw [← e, hv] at h4
          cases h4
        · have := (h5 n (le_refl n) e).1
          rw [hv] at this
          cases this
    | true =>
      have hg : board.get? (pos.Y + (n : Int) * d.2) (pos.X + (n : Int) * d.1) =
          some (board.at (raySquare pos d n)) := get?_of_valid board (raySquare pos d n) hv
      simp only [hg, hl, Bool.not_true, Bool.false_eq_true, if_false]
      by_cases he : board.at (raySquare pos d n) = Empty
      · rw [if_pos he]
        refine ⟨_, rfl, ?_⟩
        intro m
        rw [List.mem_cons, hmem]
        constructor
        · rintro (h | ⟨i, h1, h2, h3, h4, h5, h6⟩)
          · refine ⟨n, le_refl n, by omega, h, hv, ?_, Or.inl he⟩
            intro j hj1 hj2
            omega
          · refine ⟨i, by omega, by omega, h3, h4, ?_, h6⟩
            intro j hj1 hj2
            rcases Nat.eq_or_lt_of_le hj1 with e | e
            · rw [← e]
              exact ⟨hv, he⟩
            · exact h5 j e hj2
        · rintro ⟨i, h1, h2, h3, h4, h5, h6⟩
          rcases Nat.eq_or_lt_of_le h1 with e | e
          · left
            rw [h3, ← e]
          · right
            exact ⟨i, e, by omega, h3, h4, fun j hj1 hj2 => h5 j (by omega) hj2, h6⟩
      · rw [if_neg he]
        by_cases hs : sign (board.at (raySquare pos d n)) ≠ color
        · rw [if_pos hs]
          refine ⟨_, rfl, ?_⟩
          intro m
          rw [List.mem_singleton]
          constructor
          · intro h
            refine ⟨n, le_refl n, by omega, h, hv, ?_, Or.inr hs⟩
            intro j hj1 hj2
            omega
          · rintro ⟨i, h1, h2, h3, h4, h5, h6⟩
            rcases Nat.eq_or_lt_of_le h1 with e | e
            · rw [h3, ← e]
            · exact absurd (h5 n (le_refl n) e).2 he
        · rw [if_neg hs]
          refine ⟨_, rfl, ?_⟩
          intro m
          constructor
          · intro h; cases h
          · rintro ⟨i, h1, h2, h3, h4, h5, h6⟩
            rcases Nat.eq_or_lt_of_le h1 with e | e
            · rw [← e] at h6
              rcases h6 with h6 | h6
              · exact absurd h6 he
              · exact absurd h6 hs
            · exact absurd (h5 n (le_refl n) e).2 he

/-- The rays of a sliding piece, one after the other. -/
theorem castRays_mem (board : Board) (pos : Position) (color : Int) (ds : List (Int × Int)) :
    ∃ L, castRays board pos color ds = some L ∧
      ∀ m : Position, m ∈ L ↔ ∃ d ∈ ds, ∃ l,
        castRay board pos color d [1, 2, 3, 4, 5, 6, 7] = some l ∧ m ∈ l := by
  induction ds with
  | nil => exact ⟨[], rfl, by simp⟩
  | cons d rest ih =>
    obtain ⟨L, hL, hmem⟩ := ih
    obtain ⟨r, hr, -⟩ := castRay_valid board pos color d [1, 2, 3, 4, 5, 6, 7]
    refine ⟨r ++ L, by simp only [castRays, hr, hL], ?_⟩
    intro m
    rw [List.mem_append, hmem]
    constructor
    · rintro (h | ⟨d', hd', l, hl, hm⟩)
      · exact ⟨d, List.mem_cons_self _ _, r, hr, h⟩
      · exact ⟨d', List.mem_cons_of_mem _ hd', l, hl, hm⟩
    · rintro ⟨d', hd', l, hl, hm⟩
      rcases List.mem_cons.1 hd' with e | e
      · left
        rw [e, hr] at hl
        injection hl with hl
        rw [hl]
        exact hm
      · exact Or.inr ⟨d', e, l, hl, hm⟩

theorem steps_eq_range : ([1, 2, 3, 4, 5, 6, 7] : List Int) =
    (List.range' 1 7).map fun k : Nat => (k : Int) := by
  decide

/-- Along one of the eight unit directions, what the ray loop collects is what the
specification calls reachable. -/
theorem ray_iff (board : Board) (pos m : Position) (c dx dy : Int)
    (hpos : IsValidPosition pos = true) (hc : c = White ∨ c = Black)
    (hdx : dx = -1 ∨ dx = 0 ∨ dx = 1) (hdy : dy = -1 ∨ dy = 0 ∨ dy = 1)
    (hne : dx ≠ 0 ∨ dy ≠ 0) :
    (∃ i : Nat, 1 ≤ i ∧ i < 1 + 7 ∧ m = raySquare pos (dx, dy) i ∧
        IsValidPosition (raySquare pos (dx, dy) i) = true ∧
        (∀ j : Nat, 1 ≤ j → j < i →
          IsValidPosition (raySquare pos (dx, dy) j) = true ∧
            board.at (raySquare pos (dx, dy) j) = Empty) ∧
        (board.at (raySquare pos (dx, dy) i) = Empty ∨
          sign (board.at (raySquare pos (dx, dy) i)) ≠ c)) ↔
      (IsValidPosition m = true ∧ ∃ i : Int, 1 ≤ i ∧ m = raySquare pos (dx, dy) i ∧
        (∀ j : Int, 1 ≤ j → j < i → board.at (raySquare pos (dx, dy) j) = Empty) ∧
        (board.at m = Empty ∨ sign (board.at m) = -c)) := by
  have hcond : ∀ v : Int, (v = Empty ∨ sign v ≠ c) ↔ (v = Empty ∨ sign v = -c) := by
    intro v
    by_cases h0 : v = Empty
    · simp [h0]
    · rw [sign_ne_iff_opposite v c h0 hc]
  have hp := (valid_iff pos).1 hpos
  constructor
  · rintro ⟨i, h1, h2, h3, h4, h5, h6⟩
    refine ⟨by rw [h3]; exact h4, (i : Int), by omega, h3, ?_, ?_⟩
    · intro j hj1 hj2
      have := (h5 j.toNat (by omega) (by omega)).2
      rwa [Int.toNat_of_nonneg (by omega)] at this
    · rw [h3]
      exact (hcond _).1 h6
  · rintro ⟨hv, i, h1, h3, h5, h6⟩
    have hvi : IsValidPosition (raySquare pos (dx, dy) i) = true := by rw [← h3]; exact hv
    have hi := (valid_iff _).1 hvi
    simp only [raySquare] at hi
    have hcast : ((i.toNat : Nat) : Int) = i := Int.toNat_of_nonneg (by omega)
    have hi8 : i < 8 := by
      rcases hdx with rfl | rfl | rfl <;> rcases hdy with rfl | rfl | rfl <;> omega
    refine ⟨i.toNat, by omega, by omega, by rw [hcast]; exact h3, by rw [hcast]; exact hvi,
      ?_, ?_⟩
    · intro j hj1 hj2
      refine ⟨?_, h5 j (by omega) (by omega)⟩
      rw [valid_iff]
      simp only [raySquare]
      have hj3 : (j : Int) < i := by omega
      have hj4 : (1 : Int) ≤ j := by omega
      rcases hdx with rfl | rfl | rfl <;> rcases hdy with rfl | rfl | rfl <;> omega
    · rw [hcast, ← h3]
      exact (hcond _).2 h6

/-- The moves of a sliding piece along the directions `ds`, all unit directions. -/
theorem castRays_reachable (board : Board) (pos : Position) (c : Int) (ds : List (Int × Int))
    (hpos : IsValidPosition pos = true) (hc : c = White ∨ c = Black)
    (hds : ∀ d ∈ ds, (d.1 = -1 ∨ d.1 = 0 ∨ d.1 = 1) ∧ (d.2 = -1 ∨ d.2 = 0 ∨ d.2 = 1) ∧
      (d.1 ≠ 0 ∨ d.2 ≠ 0)) :
    ∃ L, castRays board pos c ds = some L ∧
      ∀ s : Position, s ∈ L ↔ rayReachable board pos c ds s := by
  obtain ⟨L, hL, hmem⟩ := castRays_mem board pos c ds
  refine ⟨L, hL, ?_⟩
  intro s
  rw [hmem]
  simp only [rayReachable]
  constructor
  · rintro ⟨d, hd, l, hl, hs⟩
    obtain ⟨l', hl', hm'⟩ := castRay_mem board pos c d 7 1
    rw [← steps_eq_range, hl] at hl'
    injection hl' with hl'
    subst hl'
    obtain ⟨h1, h2, h3⟩ := hds d hd
    obtain ⟨dx, dy⟩ := d
    have := (ray_iff board pos s c dx dy hpos hc h1 h2 h3).1 ((hm' s).1 hs)
    exact ⟨this.1, (dx, dy), hd, this.2⟩
  · rintro ⟨hv, d, hd, hi⟩
    obtain ⟨l', hl', hm'⟩ := castRay_mem board pos c d 7 1
    rw [← steps_eq_range] at hl'
    obtain ⟨h1, h2, h3⟩ := hds d hd
    obtain ⟨dx, dy⟩ := d
    exact ⟨(dx, dy), hd, l', hl',
      (hm' s).2 ((ray_iff board pos s c dx dy hpos hc h1 h2 h3).2 ⟨hv, hi⟩)⟩

/-- C18. Sliding-piece ray casting.  For a rook (resp. bishop) of colour `c` on a square
`pos` of the board, `GetPieceMoves board pos nil` returns a list in which a square `s`
occurs iff `s` lies on one of the 4 orthogonal (resp. 4 diagonal) rays from `pos`, every
square strictly between `pos` and `s` is empty, and `s` is empty or holds a piece of the
opposite colour.  For a queen the result is exactly the result of `getBishopMoves`
followed by the result of `getRookMoves` for the same square and colour. -/
theorem sliding_piece_rays (board : Board) (pos : Position) (c : Int)
    (hc : c = White ∨ c = Black) (hpos : IsValidPosition pos = true) :
    (board.get? pos.Y pos.X = some (c * Rook) →
      ∃ moves, GetPieceMoves board pos none = some moves ∧
        ∀ s : Position, s ∈ moves ↔
          rayReachable board pos c [(-1, 0), (1, 0), (0, -1), (0, 1)] s) ∧
    (board.get? pos.Y pos.X = some (c * Bishop) →
      ∃ moves, GetPieceMoves board pos none = some moves ∧
        ∀ s : Position, s ∈ moves ↔
          rayReachable board pos c [(-1, -1), (-1, 1), (1, -1), (1, 1)] s) ∧
    (board.get? pos.Y pos.X = some (c * Queen) →
      ∃ diagonal straight, getBishopMoves board pos c = some diagonal ∧
        getRookMoves board pos c = some straight ∧
        GetPieceMoves board pos none = some (diagonal ++ straight)) := by
  have hstraight := castRays_reachable board pos c [(-1, 0), (1, 0), (0, -1), (0, 1)] hpos hc
    (by decide)
  have hdiag := castRays_reachable board pos c [(-1, -1), (-1, 1), (1, -1), (1, 1)] hpos hc
    (by decide)
  refine ⟨?_, ?_, ?_⟩
  · intro hv
    have habs : abs (c * Rook) = Rook := by rcases hc with rfl | rfl <;> decide
    have hsign : sign (c * Rook) = c := by rcases hc with rfl | rfl <;> decide
    obtain ⟨L, hL, hmem⟩ := hstraight
    refine ⟨L, ?_, hmem⟩
    simp only [GetPieceMoves, pieceMovesWith, hv, habs, hsign]
    rw [if_neg (by decide), if_neg (by decide), if_neg (by decide), if_pos trivial]
    exact hL
  · intro hv
    have habs : abs (c * Bishop) = Bishop := by rcases hc with rfl | rfl <;> decide
    have hsign : sign (c * Bishop) = c := by rcases hc with rfl | rfl <;> decide
    obtain ⟨L, hL, hmem⟩ := hdiag
    refine ⟨L, ?_, hmem⟩
    simp only [GetPieceMoves, pieceMovesWith, hv, habs, hsign]
    rw [if_neg (by decide), if_neg (by decide), if_pos trivial]
    exact hL
  · intro hv
    have habs : abs (c * Queen) = Queen := by rcases hc with rfl | rfl <;> decide
    have hsign : sign (c * Queen) = c := by rcases hc with rfl | rfl <;> decide
    obtain ⟨L1, hL1, -⟩ := hdiag
    obtain ⟨L2, hL2, -⟩ := hstraight
    refine ⟨L1, L2, hL1, hL2, ?_⟩
    simp only [GetPieceMoves, pieceMovesWith, hv, habs, hsign]
    rw [if_neg (by decide), if_neg (by decide), if_neg (by decide), if_neg (by decide),
      if_pos trivial]
    simp only [getQueenMoves, getDiagonalMoves, getStraightMoves, hL1, hL2]

theorem sliding_piece_rays_witness :
    (White = White ∨ White = Black) ∧ IsValidPosition ⟨0, 7⟩ = true ∧
    (initialBoard.get? 7 0 = some (White * Rook) →
      ∃ moves, GetPieceMoves initialBoard ⟨0, 7⟩ none = some moves ∧
        ∀ s : Position, s ∈ moves ↔
          rayReachable initialBoard ⟨0, 7⟩ White [(-1, 0), (1, 0), (0, -1), (0, 1)] s) ∧
    (initialBoard.get? 7 0 = some (White * Bishop) →
      ∃ moves, GetPieceMoves initialBoard ⟨0, 7⟩ none = some moves ∧
        ∀ s : Position, s ∈ moves ↔
          rayReachable initialBoard ⟨0, 7⟩ White [(-1, -1), (-1, 1), (1, -1), (1, 1)] s) ∧
    (initialBoard.get? 7 0 = some (White * Queen) →
      ∃ diagonal straight, getBishopMoves initialBoard ⟨0, 7⟩ White = some diagonal ∧
        getRookMoves initialBoard ⟨0, 7⟩ White = some straight ∧
        GetPieceMoves initialBoard ⟨0, 7⟩ none = some (diagonal ++ straight)) :=
  ⟨Or.inl rfl, by decide, sliding_piece_rays initialBoard ⟨0, 7⟩ White (Or.inl rfl) (by decide)⟩

/-! ## Move generation with context for a king in the corner -/

/-- The king's moves with context, away from files 0 and 7: both castling tests answer,
and a castling square is only added where it is on the board. -/
theorem getKingMoves_inner_valid (board : Board) (pos : Position) (c v : Int) (g : Game)
    (hpos : IsValidPosition pos = true) (hg : board.get? pos.Y pos.X = some v) (hv : v ≠ 0)
    (hx : 1 ≤ pos.X ∧ pos.X ≤ 6) :
    ∃ l, getKingMoves board pos c (some g) = some l ∧ ∀ m ∈ l, IsValidPosition m = true := by
  have hp := (valid_iff pos).1 hpos
  have hn1 : IsValidPosition ⟨pos.X + 1, pos.Y⟩ = true := by
    rw [valid_iff]; dsimp only; omega
  have hn2 : IsValidPosition ⟨pos.X - 1, pos.Y⟩ = true := by
    rw [valid_iff]; dsimp only; omega
  obtain ⟨ks, hks⟩ := kingsideCond_total board pos c g hpos hn1
  obtain ⟨qs, hqs⟩ := queensideCond_total board pos c g hpos hn2
  obtain ⟨steps, hsteps, -, heq⟩ := getKingMoves_eq board pos c g ks qs hks hqs
  obtain ⟨l, hl, hlv⟩ := stepMoves_valid board pos c kingDirections
  have hsl : steps = l := by
    simp only [kingStepMoves] at hsteps
    rw [hsteps] at hl
    injection hl
  have hfile : ∀ x : Int, board.get? pos.Y x = some Empty → pos.X ≠ x := by
    intro x hx0 e
    rw [← e, hg] at hx0
    injection hx0 with hx0
    exact hv hx0
  refine ⟨_, heq, ?_⟩
  intro m hm
  simp only [List.mem_append] at hm
  rcases hm with (hm | hm) | hm
  · rw [hsl] at hm
    exact hlv m hm
  · cases ks with
    | false => simp at hm
    | true =>
      obtain ⟨-, -, h5, h6, -, -⟩ := kingsideCond_true board pos c g hpos hn1 hks
      have a5 := hfile 5 h5
      have a6 := hfile 6 h6
      simp only [if_true, List.mem_singleton] at hm
      rw [hm, valid_iff]
      dsimp only
      omega
  · cases qs with
    | false => simp at hm
    | true =>
      obtain ⟨-, -, h1, h2, h3, -, -⟩ := queensideCond_true board pos c g hpos hn2 hqs
      have a1 := hfile 1 h1
      have a2 := hfile 2 h2
      have a3 := hfile 3 h3
      simp only [if_true, List.mem_singleton] at hm
      rw [hm, valid_iff]
      dsimp only
      omega

/-- Move generation with context is safe wherever the castling tests stay on the board:
for a valid square `pos` that does not hold a king on file 0 or 7, and a game whose en
passant target is absent or on the board, `GetPieceMoves` returns and returns squares of
the board only. -/
theorem GetPieceMoves_context_safe (board : Board) (pos : Position) (g : Game)
    (hpos : IsValidPosition pos = true)
    (hep : ∀ t, g.EnPassantTarget = some t → IsValidPosition t = true)
    (hk : abs (board.at pos) = King → 1 ≤ pos.X ∧ pos.X ≤ 6) :
    ∃ moves, GetPieceMoves board pos (some g) = some moves ∧
      ∀ m ∈ moves, IsValidPosition m = true := by
  have hg := get?_of_valid board pos hpos
  simp only [GetPieceMoves, pieceMovesWith, hg]
  split_ifs with h1 h2 h3 h4 h5 h6
  · obtain ⟨f, c, heq, hf, hc⟩ := getPawnMoves_eq board pos (sign (board.at pos)) (some g)
    refine ⟨_, heq, ?_⟩
    intro m hm
    simp only [List.mem_append] at hm
    rcases hm with (hm | hm) | hm
    · exact (hf m hm).1
    · exact (hc m hm).1
    · cases ht : g.EnPassantTarget with
      | none =>
        rw [pawnEnPassant_no_target pos _ _ g ht] at hm
        cases hm
      | some t =>
        rw [pawnEnPassant_mem pos _ _ g t ht m hm]
        exact hep t ht
  · exact stepMoves_valid board pos _ _
  · exact castRays_valid board pos _ _
  · exact castRays_valid board pos _ _
  · exact getQueenMoves_valid board pos _
  · have hv : board.at pos ≠ 0 := by
      intro e
      rw [e] at h6
      exact absurd h6 (by decide)
    exact getKingMoves_inner_valid board pos _ _ g hpos hg hv (hk h6)
  · exact ⟨[], rfl, by simp⟩

/-- A king on file 7 whose square is not flagged, with files 5 and 6 of its rank empty and
not in check: the kingside test goes on to relocate the king to file 8, and the call
fails. -/
theorem getKingMoves_on_file_seven (board : Board) (pos : Position) (c : Int) (g : Game)
    (hx : pos.X = 7) (hm : g.HasMoved pos = false)
    (h5 : board.get? pos.Y 5 = some Empty) (h6 : board.get? pos.Y 6 = some Empty)
    (hc : IsKingInCheck board c = some false) :
    getKingMoves board pos c (some g) = none := by
  have hr : (⟨7, pos.Y⟩ : Position) = pos := by
    cases pos
    simp only [Position.mk.injEq] at hx ⊢
    exact ⟨hx.symm, trivial⟩
  have hw : wouldBeInCheck board pos ⟨pos.X + 1, pos.Y⟩ c = none := by
    have hinv : IsValidPosition ⟨pos.X + 1, pos.Y⟩ = false := by
      cases hv : IsValidPosition ⟨pos.X + 1, pos.Y⟩ with
      | false => rfl
      | true =>
        rw [valid_iff] at hv
        dsimp only at hv
        omega
    simp only [wouldBeInCheck, relocate_none_of_invalid board pos _ (Or.inr hinv)]
  have hks : kingsideCond board pos c g = none := by
    simp only [kingsideCond, hr, hm, cellEmpty, h5, h6, hc, hw]
    rfl
  simp only [getKingMoves, hks]
  cases kingStepMoves board pos c <;> rfl

/-- The same on file 0: once the kingside test has answered, the queenside test relocates
the king to file -1, and the call fails. -/
theorem getKingMoves_on_file_zero (board : Board) (pos : Position) (c : Int) (g : Game)
    (hpos : IsValidPosition pos = true)
    (hx : pos.X = 0) (hm : g.HasMoved pos = false)
    (h1 : board.get? pos.Y 1 = some Empty) (h2 : board.get? pos.Y 2 = some Empty)
    (h3 : board.get? pos.Y 3 = some Empty)
    (hc : IsKingInCheck board c = some false) :
    getKingMoves board pos c (some g) = none := by
  have hr : (⟨0, pos.Y⟩ : Position) = pos := by
    cases pos
    simp only [Position.mk.injEq] at hx ⊢
    exact ⟨hx.symm, trivial⟩
  have hw : wouldBeInCheck board pos ⟨pos.X - 1, pos.Y⟩ c = none := by
    have hinv : IsValidPosition ⟨pos.X - 1, pos.Y⟩ = false := by
      cases hv : IsValidPosition ⟨pos.X - 1, pos.Y⟩ with
      | false => rfl
      | true =>
        rw [valid_iff] at hv
        dsimp only at hv
        omega
    simp only [wouldBeInCheck, relocate_none_of_invalid board pos _ (Or.inr hinv)]
  have hqs : queensideCond board pos c g = none := by
    simp only [queensideCond, hr, hm, cellEmpty, h1, h2, h3, hc, hw]
    rfl
  have hn1 : IsValidPosition ⟨pos.X + 1, pos.Y⟩ = true := by
    rw [valid_iff] at hpos ⊢
    dsimp only
    omega
  obtain ⟨ks, hks⟩ := kingsideCond_total board pos c g hpos hn1
  simp only [getKingMoves, hks, hqs]
  cases kingStepMoves board pos c <;> rfl

/-- C21 (fails on the code). After the legal opening `cornerKingLine`, played from
`NewGame` through the engine's own legal-move lists, it is White's turn, the white king
stands on h1 = `(7, 7)`, a square of the board that no piece has ever left, f1 and g1 are
empty and there is no en passant target.  `GetPieceMoves` for the king with this game as
context does not return: the kingside castling test reaches
`wouldBeInCheck board (7, 7) (8, 7) White`, which writes the copy of the board at file 8.
`GetLegalMovesWithState`, which the input loop calls when the king is selected, fails with
it; without the context the same call returns. -/
theorem castling_test_indexes_off_the_board :
    ∃ g, playOffered NewGame cornerKingLine = some g ∧
      g.Turn = true ∧
      g.Board.get? 7 7 = some (White * King) ∧
      IsValidPosition ⟨7, 7⟩ = true ∧
      g.EnPassantTarget = none ∧
      g.HasMoved ⟨7, 7⟩ = false ∧
      g.Board.get? 7 5 = some Empty ∧ g.Board.get? 7 6 = some Empty ∧
      IsKingInCheck g.Board White = some false ∧
      wouldBeInCheck g.Board ⟨7, 7⟩ ⟨7 + 1, 7⟩ White = none ∧
      GetPieceMoves g.Board ⟨7, 7⟩ (some g) = none ∧
      GetLegalMovesWithState g.Board ⟨7, 7⟩ (some g) = none ∧
      GetPieceMoves g.Board ⟨7, 7⟩ none = some [⟨6, 6⟩, ⟨6, 7⟩] := by
  have h : (match playOffered NewGame cornerKingLine with
      | none => false
      | some g =>
        decide (g.Turn = true) &&
        decide (g.Board.get? 7 7 = some (White * King)) &&
        decide (g.EnPassantTarget = none) &&
        decide (g.HasMoved ⟨7, 7⟩ = false) &&
        decide (g.Board.get? 7 5 = some Empty) && decide (g.Board.get? 7 6 = some Empty) &&
        decide (IsKingInCheck g.Board White = some false) &&
        decide (wouldBeInCheck g.Board ⟨7, 7⟩ ⟨7 + 1, 7⟩ White = none) &&
        decide (GetPieceMoves g.Board ⟨7, 7⟩ (some g) = none) &&
        decide (GetLegalMovesWithState g.Board ⟨7, 7⟩ (some g) = none) &&
        decide (GetPieceMoves g.Board ⟨7, 7⟩ none = some [⟨6, 6⟩, ⟨6, 7⟩])) = true := by
    decide!
  revert h
  cases playOffered NewGame cornerKingLine with
  | none => intro h; cases h
  | some g =>
    intro h
    simp only [Bool.and_eq_true, decide_eq_true_eq] at h
    obtain ⟨⟨⟨⟨⟨⟨⟨⟨⟨⟨h1, h2⟩, h3⟩, h4⟩, h5⟩, h6⟩, h7⟩, h8⟩, h9⟩, h10⟩, h11⟩ := h
    exact ⟨g, rfl, h1, h2, by decide, h3, h4, h5, h6, h7, h8, h9, h10, h11⟩

/-! ## Context-free pseudo-moves stay on the board and off the mover's own pieces -/

/-- A piece value that the switch of `GetPieceMoves` recognises has colour White or Black. -/
theorem sign_of_abs (v k : Int) (hk : 0 < k) (h : abs v = k) :
    sign v = White ∨ sign v = Black := by
  simp only [abs, sign, White, Black] at *
  split_ifs at h ⊢ <;> omega

theorem opposite_nonzero (v c : Int) (hc : c = White ∨ c = Black) (h : sign v = -c) :
    sign v ≠ 0 := by
  simp only [White, Black] at hc
  omega

/-- One-step moves (knight, king): on the board, off `pos`, on an empty square or on a
piece of the opposite colour. -/
theorem stepMoves_target (board : Board) (pos : Position) (c : Int) (ds : List (Int × Int))
    (hc : c = White ∨ c = Black) (hds : ∀ d ∈ ds, d.1 ≠ 0 ∨ d.2 ≠ 0) :
    ∃ l, stepMoves board pos c ds = some l ∧
      ∀ m ∈ l, IsValidPosition m = true ∧ m ≠ pos ∧
        (board.at m = Empty ∨ sign (board.at m) = -c) := by
  refine ⟨_, stepMoves_eq board pos c ds, ?_⟩
  intro m hm
  simp only [List.mem_filter, List.mem_map, Bool.and_eq_true, Bool.or_eq_true,
    decide_eq_true_eq] at hm
  obtain ⟨⟨d, hd, rfl⟩, hv, ht⟩ := hm
  refine ⟨hv, ?_, ?_⟩
  · intro e
    have e1 := congrArg Position.X e
    have e2 := congrArg Position.Y e
    dsimp only at e1 e2
    rcases hds d hd with h | h <;> omega
  · rcases ht with h | h
    · exact Or.inl h
    · by_cases h0 : board.at ⟨pos.X + d.1, pos.Y + d.2⟩ = 0
      · exact Or.inl h0
      · exact Or.inr ((sign_ne_iff_opposite _ c h0 hc).1 h)

/-- Sliding moves: on the board, off `pos`, on an empty square or on a piece of the
opposite colour. -/
theorem castRays_target (board : Board) (pos : Position) (c : Int) (ds : List (Int × Int))
    (hpos : IsValidPosition pos = true) (hc : c = White ∨ c = Black)
    (hds : ∀ d ∈ ds, (d.1 = -1 ∨ d.1 = 0 ∨ d.1 = 1) ∧ (d.2 = -1 ∨ d.2 = 0 ∨ d.2 = 1) ∧
      (d.1 ≠ 0 ∨ d.2 ≠ 0)) :
    ∃ l, castRays board pos c ds = some l ∧
      ∀ m ∈ l, IsValidPosition m = true ∧ m ≠ pos ∧
        (board.at m = Empty ∨ sign (board.at m) = -c) := by
  obtain ⟨L, hL, hmem⟩ := castRays_reachable board pos c ds hpos hc hds
  refine ⟨L, hL, ?_⟩
  intro m hm
  obtain ⟨hv, d, hd, i, hi, rfl, -, ht⟩ := (hmem m).1 hm
  refine ⟨hv, ?_, ht⟩
  intro e
  have e1 := congrArg Position.X e
  have e2 := congrArg Position.Y e
  simp only [raySquare] at e1 e2
  obtain ⟨-, -, hne⟩ := hds d hd
  have hi0 : i ≠ 0 := by omega
  rcases hne with h | h
  · have : i * d.1 = 0 := by omega
    rcases Int.mul_eq_zero.1 this with h1 | h1
    · exact hi0 h1
    · exact h h1
  · have : i * d.2 = 0 := by omega
    rcases Int.mul_eq_zero.1 this with h1 | h1
    · exact hi0 h1
    · exact h h1

/-- Pawn moves without context: on the board, off `pos`, forward onto empty squares and
diagonally onto pieces of the opposite colour. -/
theorem getPawnMoves_target (board : Board) (pos : Position) (c : Int)
    (hc : c = White ∨ c = Black) :
    ∃ l, getPawnMoves board pos c none = some l ∧
      ∀ m ∈ l, IsValidPosition m = true ∧ m ≠ pos ∧
        (board.at m = Empty ∨ sign (board.at m) = -c) := by
  have hd0 : -c ≠ 0 := by
    simp only [White, Black] at hc
    omega
  have hne : ∀ dx k : Int, k ≠ 0 → (⟨pos.X + dx, pos.Y + k⟩ : Position) ≠ pos := by
    intro dx k hk e
    have e2 := congrArg Position.Y e
    dsimp only at e2
    omega
  have hne0 : ∀ k : Int, k ≠ 0 → (⟨pos.X, pos.Y + k⟩ : Position) ≠ pos := by
    intro k hk e
    have e2 := congrArg Position.Y e
    dsimp only at e2
    omega
  have e3 : pawnEnPassant pos c (-c) none = [] := rfl
  refine ⟨_, by simp only [getPawnMoves, pawnForward_eq board pos c (-c) rfl,
    pawnCaptures_eq, e3]; rfl, ?_⟩
  intro m hm
  simp only [List.append_nil, List.mem_append] at hm
  rcases hm with hm | hm
  · split_ifs at hm with h1 h2
    · have hv2 : IsValidPosition ⟨pos.X, pos.Y + 2 * -c⟩ = true := by
        have hv := h1.1
        have hh := h2.1
        rw [valid_iff] at hv ⊢
        simp only [White, Black] at hh
        dsimp only at hv ⊢
        omega
      simp only [List.mem_cons, List.mem_singleton, List.not_mem_nil, or_false] at hm
      rcases hm with rfl | rfl
      · exact ⟨h1.1, hne0 _ hd0, Or.inl h1.2⟩
      · exact ⟨hv2, hne0 _ (by omega), Or.inl h2.2⟩
    · rw [List.mem_singleton.1 hm]
      exact ⟨h1.1, hne0 _ hd0, Or.inl h1.2⟩
    · cases hm
  · simp only [List.mem_filter, List.mem_map, Bool.and_eq_true, decide_eq_true_eq] at hm
    obtain ⟨⟨dx, -, rfl⟩, hv, h0, hs⟩ := hm
    exact ⟨hv, hne dx _ hd0, Or.inr ((sign_ne_iff_opposite _ c h0 hc).1 hs)⟩

/-- C22. Context-free pseudo-moves stay on the board and never land on an own piece: for
every board and every valid square `pos`, `GetPieceMoves board pos nil` returns (no board
access is out of range), and every square `m` it returns is on the board, differs from
`pos`, and is empty or holds a piece whose sign is opposite to that of the piece on
`pos`. -/
theorem pseudo_moves_on_board_off_own_pieces (board : Board) (pos : Position)
    (hpos : IsValidPosition pos = true) :
    ∃ moves, GetPieceMoves board pos none = some moves ∧
      ∀ m ∈ moves, IsValidPosition m = true ∧ m ≠ pos ∧
        (board.at m = Empty ∨
          (sign (board.at m) = -sign (board.at pos) ∧ sign (board.at m) ≠ 0)) := by
  have hg := get?_of_valid board pos hpos
  have key : ∀ l : List Position, (sign (board.at pos) = White ∨ sign (board.at pos) = Black) →
      (∀ m ∈ l, IsValidPosition m = true ∧ m ≠ pos ∧
        (board.at m = Empty ∨ sign (board.at m) = -sign (board.at pos))) →
      ∀ m ∈ l, IsValidPosition m = true ∧ m ≠ pos ∧
        (board.at m = Empty ∨
          (sign (board.at m) = -sign (board.at pos) ∧ sign (board.at m) ≠ 0)) := by
    intro l hc h m hm
    obtain ⟨h1, h2, h3⟩ := h m hm
    refine ⟨h1, h2, ?_⟩
    rcases h3 with h3 | h3
    · exact Or.inl h3
    · exact Or.inr ⟨h3, opposite_nonzero _ _ hc h3⟩
  rw [GetPieceMoves_none]
  simp only [GetPieceMovesNil, pieceMovesWith, hg]
  split_ifs with h1 h2 h3 h4 h5 h6
  · have hc := sign_of_abs _ Pawn (by decide) h1
    obtain ⟨l, hl, hp⟩ := getPawnMoves_target board pos _ hc
    exact ⟨l, hl, key l hc hp⟩
  · have hc := sign_of_abs _ Knight (by decide) h2
    obtain ⟨l, hl, hp⟩ := stepMoves_target board pos _ knightDirections hc (by decide)
    exact ⟨l, hl, key l hc hp⟩
  · have hc := sign_of_abs _ Bishop (by decide) h3
    obtain ⟨l, hl, hp⟩ := castRays_target board pos _ [(-1, -1), (-1, 1), (1, -1), (1, 1)]
      hpos hc (by decide)
    exact ⟨l, hl, key l hc hp⟩
  · have hc := sign_of_abs _ Rook (by decide) h4
    obtain ⟨l, hl, hp⟩ := castRays_target board pos _ [(-1, 0), (1, 0), (0, -1), (0, 1)]
      hpos hc (by decide)
    exact ⟨l, hl, key l hc hp⟩
  · have hc := sign_of_abs _ Queen (by decide) h5
    obtain ⟨a, ha, hap⟩ := castRays_target board pos _ [(-1, -1), (-1, 1), (1, -1), (1, 1)]
      hpos hc (by decide)
    obtain ⟨b, hb, hbp⟩ := castRays_target board pos _ [(-1, 0), (1, 0), (0, -1), (0, 1)]
      hpos hc (by decide)
    refine ⟨a ++ b, by simp only [getQueenMoves, getDiagonalMoves, getStraightMoves, ha, hb],
      key _ hc ?_⟩
    intro m hm
    rcases List.mem_append.1 hm with h | h
    · exact hap m h
    · exact hbp m h
  · have hc := sign_of_abs _ King (by decide) h6
    obtain ⟨l, hl, hp⟩ := stepMoves_target board pos _ kingDirections hc (by decide)
    exact ⟨l, hl, key l hc hp⟩
  · exact ⟨[], rfl, by simp⟩

theorem pseudo_moves_on_board_off_own_pieces_witness :
    IsValidPosition ⟨1, 7⟩ = true ∧
    ∃ moves, GetPieceMoves initialBoard ⟨1, 7⟩ none = some moves ∧
      ∀ m ∈ moves, IsValidPosition m = true ∧ m ≠ (⟨1, 7⟩ : Position) ∧
        (initialBoard.at m = Empty ∨
          (sign (initialBoard.at m) = -sign (initialBoard.at ⟨1, 7⟩) ∧
            sign (initialBoard.at m) ≠ 0)) :=
  ⟨by decide, pseudo_moves_on_board_off_own_pieces initialBoard ⟨1, 7⟩ (by decide)⟩

end game
